import Mathlib

/-!
# go-onion-cache: the LFU eviction engine and the layered cache

A shallow embedding of `util/lfu/lfu-go.go`, `local_cache.go`, `redis_cache.go`,
`util/json.go` and `twolayer.go`, with the loader of `twolayer_test.go` as an example,
followed by theorems about it.

Modelling conventions.

* The engine runs every operation under one mutex, so an operation is a function
  from the state before to the state after.
* `time.Time` and `time.Duration` are integers (nanoseconds); every operation
  receives the reading of `time.Now()` as the argument `now`; `Before` is `<`.
* The counters `len`, `freq` and the loop counters are mathematical integers: they
  wrap around only after more than `2^62` live entries or accesses.  The capacity and
  the sweep interval are inputs of type `int64`.  The product `maxLen*2` wraps for a
  capacity of `2^62` or more; the comparison then succeeds and `evictNoLock` is called
  with a count that is not positive unless the cache holds more than `2^62` entries, so
  it does nothing, as in the embedding.  The negation `-c.cleanCycle` wraps at the least
  `int64` value: it is `negDuration`.  `Time.Add` does not wrap.
* Go maps are association lists with pairwise distinct keys.  Where the source
  ranges over a map whose iteration order decides the outcome (the bucket scan of
  `evictNoLock`) the order is supplied by the caller as `pick`.
* A `*cacheEntry` is represented by the key of the entry it points to (the entry
  record lives in `Cache.values`), a `*list.Element` by a number `addr` that is
  fresh for every element created.
* A send on `EvictionChannel` is made with the mutex held and blocks when the channel
  has no room.  The channel is given as the sender sees it (`Chan`): the records sent
  so far, oldest first, and the number of records it still takes, which is what its
  buffer and its receivers grant.  A send without room is `Fault.blocked`.
* An operation returns `Except Fault _`: `Fault.spin` is a loop that is still
  running when the fuel is used up, `Fault.nilDeref` a nil dereference,
  `Fault.badAssert` a failed type assertion, `Fault.blocked` a channel send that does
  not go through, and `Fault.dangling` a use of an object that is no longer linked into
  the state.
-/

set_option linter.unusedSectionVars false
set_option linter.unusedVariables false

namespace lfu

/-- Values of type `interface{}` as far as the code distinguishes them: nil, a
string, a pointer to a string (possibly a nil pointer), anything else. -/
inductive Value where
  | nil : Value
  | str (s : String) : Value
  | strPtr (p : Option String) : Value
  | other (payload : Nat) : Value
deriving DecidableEq, Repr

/-- Ways in which an operation fails to return. -/
inductive Fault where
  | spin : Fault
  | nilDeref : Fault
  | badAssert : Fault
  | blocked : Fault
  | dangling : Fault
deriving DecidableEq, Repr

/-- Record sent on the eviction channel. -/
structure Eviction (K : Type) where
  Key : K
  Value : Value
deriving DecidableEq, Repr

/-- Entry of the key table. -/
structure cacheEntry (K : Type) where
  key : K
  value : Value
  freqNode : Option Nat
  expireAt : Option Int
  visitAt : Int
deriving DecidableEq, Repr

/-- Frequency bucket: the set of entries with the access count `freq`. -/
structure listEntry (K : Type) where
  entries : List K
  freq : Int
deriving DecidableEq, Repr

/-- Element of the `container/list` list of buckets. -/
structure Element (K : Type) where
  addr : Nat
  Value : listEntry K
deriving DecidableEq, Repr

/-- A channel of evictions as the sender sees it: `sent` holds the records sent so far,
oldest first; `room` is the number of records that the channel still takes before a
send blocks: the free slots of its buffer and what its receivers take off. -/
structure Chan (K : Type) where
  sent : List (Eviction K)
  room : Nat
deriving DecidableEq, Repr

/-- State of the engine.  `EvictionChannel` is `none` for a nil channel; `nextAddr` is
the next unused element address. -/
structure Cache (K : Type) where
  maxLen : Int
  values : List (K × cacheEntry K)
  freqs : List (Element K)
  len : Int
  EvictionChannel : Option (Chan K)
  cleanCycle : Int
  nextAddr : Nat
deriving DecidableEq, Repr

section maps

variable {K V : Type} [DecidableEq K]

/-- Map lookup `m[k]`. -/
def mapGet : List (K × V) → K → Option V
  | [], _ => none
  | (k', v) :: m, k => if k' = k then some v else mapGet m k

/-- Map deletion `delete(m, k)`. -/
def mapDel (m : List (K × V)) (k : K) : List (K × V) :=
  m.filter (fun p => !decide (p.1 = k))

/-- Map assignment `m[k] = v`. -/
def mapSet : List (K × V) → K → V → List (K × V)
  | [], k, v => [(k, v)]
  | (k', v') :: m, k, v => if k' = k then (k, v) :: m else (k', v') :: mapSet m k v

end maps

section engine

variable {K : Type} [DecidableEq K]

/-- The list method `Front`. -/
def Front (l : List (Element K)) : Option (Element K) := l.head?

/-- The element method `Next`, for the element at address `p`. -/
def Next : List (Element K) → Nat → Option (Element K)
  | [], _ => none
  | el :: rest, p => if el.addr = p then rest.head? else Next rest p

/-- The list method `InsertAfter`; `none` when the mark is not in the list. -/
def InsertAfter (v : Element K) : List (Element K) → Nat → Option (List (Element K))
  | [], _ => none
  | el :: rest, mark =>
    if el.addr = mark then some (el :: v :: rest)
    else (InsertAfter v rest mark).map (fun r => el :: r)

/-- The list method `PushFront`. -/
def PushFront (v : Element K) (l : List (Element K)) : List (Element K) := v :: l

/-- The list method `Remove`, for the element at address `p`. -/
def Remove (l : List (Element K)) (p : Nat) : List (Element K) :=
  l.filter (fun el => !decide (el.addr = p))

/-- Dereference of the element at address `p`. -/
def elemAt (l : List (Element K)) (p : Nat) : Option (Element K) :=
  l.find? (fun el => decide (el.addr = p))

/-- Application of `f` to the entry set of `el` when `el` is the element at `p`. -/
def updEntries (p : Nat) (f : List K → List K) (el : Element K) : Element K :=
  if el.addr = p then
    { el with Value := { el.Value with entries := f el.Value.entries } }
  else el

/-- Update of the entry set of the element at address `p`. -/
def modifyEntries (l : List (Element K)) (p : Nat) (f : List K → List K) : List (Element K) :=
  l.map (updEntries p f)

/-- Set insertion `entries[e] = 1`. -/
def setInsert (k : K) (s : List K) : List K := if k ∈ s then s else k :: s

/-- Set deletion `delete(entries, e)`. -/
def setDelete (k : K) (s : List K) : List K := s.filter (fun x => !decide (x = k))

/-- Source: `newCache`. -/
def newCache (maxLen : Int) (cleanCycle : Int) : Cache K :=
  { maxLen := maxLen, values := [], freqs := [], len := 0, EvictionChannel := none,
    cleanCycle := cleanCycle, nextAddr := 0 }

/-- Source: `remEntry`. -/
def remEntry (c : Cache K) (place : Option Nat) (entry : K) : Except Fault (Cache K) :=
  match place with
  | none => .error .nilDeref
  | some p =>
    match elemAt c.freqs p with
    | none => .error .dangling
    | some el =>
      let entries := setDelete entry el.Value.entries
      let freqs1 := modifyEntries c.freqs p (setDelete entry)
      if entries.length = 0 then .ok { c with freqs := Remove freqs1 p }
      else .ok { c with freqs := freqs1 }

/-- Source: `delNoLock`. -/
def delNoLock (c : Cache K) (entry : cacheEntry K) : Except Fault (Cache K) :=
  match remEntry { c with values := mapDel c.values entry.key } entry.freqNode entry.key with
  | .error f => .error f
  | .ok c1 => .ok { c1 with len := c1.len - 1 }

/-- The test of `increment` that decides whether a new bucket is created. -/
def noBucketFor (nextPlace : Option (Element K)) (nextFreq : Int) : Bool :=
  match nextPlace with
  | none => true
  | some el => decide (el.Value.freq ≠ nextFreq)

/-- Source: `increment`.  The entry record `e` is the current content of the entry
object; it is stored back under its key with the new bucket and visit time. -/
def increment (c : Cache K) (e : cacheEntry K) (now : Int) : Except Fault (Cache K) :=
  match e.freqNode with
  | none =>
    -- new entry
    let nextFreq : Int := 1
    let nextPlace := Front c.freqs
    if noBucketFor nextPlace nextFreq then
      let li : listEntry K := { entries := [], freq := nextFreq }
      let freqs1 := PushFront { addr := c.nextAddr, Value := li } c.freqs
      let e1 := { e with freqNode := some c.nextAddr, visitAt := now }
      .ok { c with values := mapSet c.values e.key e1,
                   freqs := modifyEntries freqs1 c.nextAddr (setInsert e.key),
                   nextAddr := c.nextAddr + 1 }
    else
      match nextPlace with
      | none => .error .nilDeref
      | some np =>
        let e1 := { e with freqNode := some np.addr, visitAt := now }
        .ok { c with values := mapSet c.values e.key e1,
                     freqs := modifyEntries c.freqs np.addr (setInsert e.key) }
  | some currentPlace =>
    -- move up
    match elemAt c.freqs currentPlace with
    | none => .error .dangling
    | some cur =>
      let nextFreq : Int := cur.Value.freq + 1
      let nextPlace := Next c.freqs currentPlace
      if noBucketFor nextPlace nextFreq then
        let li : listEntry K := { entries := [], freq := nextFreq }
        match InsertAfter { addr := c.nextAddr, Value := li } c.freqs currentPlace with
        | none => .error .nilDeref
        | some freqs1 =>
          let e1 := { e with freqNode := some c.nextAddr, visitAt := now }
          remEntry { c with values := mapSet c.values e.key e1,
                            freqs := modifyEntries freqs1 c.nextAddr (setInsert e.key),
                            nextAddr := c.nextAddr + 1 } (some currentPlace) e.key
      else
        match nextPlace with
        | none => .error .nilDeref
        | some np =>
          let e1 := { e with freqNode := some np.addr, visitAt := now }
          remEntry { c with values := mapSet c.values e.key e1,
                            freqs := modifyEntries c.freqs np.addr (setInsert e.key) }
            (some currentPlace) e.key

/-- The condition `e.expireAt != nil && e.expireAt.Before(time.Now())`. -/
def expired (e : cacheEntry K) (now : Int) : Bool :=
  match e.expireAt with
  | none => false
  | some t => decide (t < now)

/-- Source: `Cache.Get`. -/
def Get (c : Cache K) (key : K) (now : Int) : Except Fault (Cache K × Value) :=
  match mapGet c.values key with
  | some e =>
    if expired e now then
      match delNoLock c e with
      | .error f => .error f
      | .ok c1 => .ok (c1, Value.nil)
    else
      match increment c e now with
      | .error f => .error f
      | .ok c1 => .ok (c1, e.value)
  | none => .ok (c, Value.nil)

/-- The send `c.EvictionChannel <- Eviction{...}` guarded by the nil test.  The send
blocks when the channel has no room. -/
def notify (c : Cache K) (entry : cacheEntry K) : Except Fault (Cache K) :=
  match c.EvictionChannel with
  | none => .ok c
  | some ch =>
    if ch.room = 0 then .error .blocked
    else
      let ev : Eviction K := { Key := entry.key, Value := entry.value }
      .ok { c with EvictionChannel := some { sent := ch.sent ++ [ev], room := ch.room - 1 } }

/-- The inner loop of `evictNoLock`: the range over the entries of one bucket,
visited in the order `entries`. -/
def evictBucket (count : Int) :
    List K → Cache K → Int → Int → Except Fault (Cache K × Int × Int)
  | [], c, i, evicted => .ok (c, i, evicted)
  | k :: rest, c, i, evicted =>
    if i < count then
      match mapGet c.values k with
      | none => .error .dangling
      | some entry =>
        match notify c entry with
        | .error f => .error f
        | .ok cn =>
          match delNoLock cn entry with
          | .error f => .error f
          | .ok c1 => evictBucket count rest c1 (i + 1) (evicted + 1)
    else evictBucket count rest c i evicted

/-- The outer loop of `evictNoLock`, run for at most `fuel` iterations. -/
def evictLoop (pick : List K → List K) (count : Int) :
    Nat → Cache K → Int → Int → Except Fault (Cache K × Int)
  | 0, c, i, evicted => if i < count then .error .spin else .ok (c, evicted)
  | fuel + 1, c, i, evicted =>
    if i < count then
      match Front c.freqs with
      | some place =>
        match evictBucket count (pick place.Value.entries) c i evicted with
        | .error f => .error f
        | .ok (c1, i1, evicted1) => evictLoop pick count fuel c1 i1 evicted1
      | none => evictLoop pick count fuel c i evicted
    else .ok (c, evicted)

/-- Source: `evictNoLock`. -/
def evictNoLock (pick : List K → List K) (fuel : Nat) (c : Cache K) (count : Int) :
    Except Fault (Cache K × Int) :=
  evictLoop pick count fuel c 0 0

/-- Source: `Cache.Evict`. -/
def Evict (pick : List K → List K) (fuel : Nat) (c : Cache K) (count : Int) :
    Except Fault (Cache K × Int) :=
  evictNoLock pick fuel c count

/-- Source: `Cache.Set`. -/
def Set (pick : List K → List K) (fuel : Nat) (c : Cache K) (key : K) (value : Value)
    (expireAt : Option Int) (now : Int) : Except Fault (Cache K) :=
  match mapGet c.values key with
  | some e =>
    -- value already exists for key.  overwrite
    increment c { e with value := value, expireAt := expireAt } now
  | none =>
    -- value doesn't exist.  insert
    let e : cacheEntry K :=
      { key := key, value := value, freqNode := none, expireAt := expireAt, visitAt := 0 }
    match increment { c with values := mapSet c.values key e } e now with
    | .error f => .error f
    | .ok c1 =>
      let c2 := { c1 with len := c1.len + 1 }
      -- bounds mgmt
      if c2.maxLen > 0 then
        if c2.len > c2.maxLen * 2 then
          match evictNoLock pick fuel c2 (c2.len - c2.maxLen) with
          | .error f => .error f
          | .ok (c3, _) => .ok c3
        else .ok c2
      else .ok c2

/-- Source: `Cache.Del`. -/
def Del (c : Cache K) (key : K) : Except Fault (Cache K) :=
  match mapGet c.values key with
  | some entry => delNoLock c entry
  | none => .ok c

/-- Source: `Cache.Len`. -/
def Len (c : Cache K) : Int := c.len

/-- The body of the range loop of `ScanAndClean` over a snapshot of the key table. -/
def scanLoop (lookBackTime now : Int) :
    List (K × cacheEntry K) → Cache K → Except Fault (Cache K)
  | [], c => .ok c
  | (_, e) :: rest, c =>
    if expired e now || decide (e.visitAt < lookBackTime) then
      match delNoLock c e with
      | .error f => .error f
      | .ok c1 => scanLoop lookBackTime now rest c1
    else scanLoop lookBackTime now rest c

/-- The negation `-d` of a `time.Duration`, an `int64`: it wraps at the least value. -/
def negDuration (d : Int) : Int := (-d + 2 ^ 63) % 2 ^ 64 - 2 ^ 63

/-- Source: `Cache.ScanAndClean`. -/
def ScanAndClean (c : Cache K) (now : Int) : Except Fault (Cache K) :=
  let lookBackTime := now + negDuration c.cleanCycle
  scanLoop lookBackTime now c.values c

/-- Source: `Cache.MGet`; `res` is the result map built so far. -/
def MGetLoop (now : Int) :
    List K → Cache K → List (K × Value) → Except Fault (Cache K × List (K × Value))
  | [], c, res => .ok (c, res)
  | k :: keys, c, res =>
    match Get c k now with
    | .error f => .error f
    | .ok (c1, v) => MGetLoop now keys c1 (mapSet res k v)

/-- Source: `Cache.MGet`. -/
def MGet (c : Cache K) (keys : List K) (now : Int) :
    Except Fault (Cache K × List (K × Value)) :=
  MGetLoop now keys c []

/-- Source: `Cache.MSet`; the map `kvs` is ranged over in list order. -/
def MSet (pick : List K → List K) (fuel : Nat) :
    List (K × Value) → Cache K → Option Int → Int → Except Fault (Cache K)
  | [], c, _, _ => .ok c
  | (k, v) :: kvs, c, expiresAt, now =>
    match Set pick fuel c k v expiresAt now with
    | .error f => .error f
    | .ok c1 => MSet pick fuel kvs c1 expiresAt now

end engine

section runs

variable {K : Type} [DecidableEq K]

/-- Source: `NewLFUCache`.  The cleaner goroutine it starts for a positive
`cleanCycle` only ever calls `ScanAndClean`; those calls are operations of their own. -/
def NewLFUCache (maxLen : Int) (cleanCycle : Int) : Cache K := newCache maxLen cleanCycle

/-- One call of the engine's interface, with the reading of the clock it sees. -/
inductive Op (K : Type) where
  | Get (key : K) (now : Int) : Op K
  | Set (key : K) (value : Value) (expireAt : Option Int) (now : Int) : Op K
  | Del (key : K) : Op K
  | Evict (count : Int) : Op K
  | ScanAndClean (now : Int) : Op K

/-- The state after one call. -/
def step (pick : List K → List K) (fuel : Nat) (c : Cache K) : Op K → Except Fault (Cache K)
  | .Get key now =>
    match Get c key now with
    | .error f => .error f
    | .ok (c1, _) => .ok c1
  | .Set key value expireAt now => Set pick fuel c key value expireAt now
  | .Del key => Del c key
  | .Evict count =>
    match Evict pick fuel c count with
    | .error f => .error f
    | .ok (c1, _) => .ok c1
  | .ScanAndClean now => ScanAndClean c now

/-- The state after a sequence of calls. -/
def run (pick : List K → List K) (fuel : Nat) : List (Op K) → Cache K → Except Fault (Cache K)
  | [], c => .ok c
  | op :: ops, c =>
    match step pick fuel c op with
    | .error f => .error f
    | .ok c1 => run pick fuel ops c1

/-- What `Get` reports for `k`: the stored value of a live entry, nil otherwise. -/
def getVal (c : Cache K) (k : K) (now : Int) : Value :=
  match mapGet c.values k with
  | none => Value.nil
  | some e => if expired e now then Value.nil else e.value

end runs

section invariant

variable {K : Type} [DecidableEq K]

/-- Frequency of the bucket at address `p`. -/
def bucketFreq (l : List (Element K)) (p : Nat) : Option Int :=
  (elemAt l p).map (fun el => el.Value.freq)

/-- Frequency of the entry stored under `k`: the frequency of the bucket its
`freqNode` points to. -/
def freqOf (c : Cache K) (k : K) : Option Int :=
  (mapGet c.values k).bind (fun e => e.freqNode.bind (bucketFreq c.freqs))

/-- The keys of the key table. -/
def keys (c : Cache K) : List K := c.values.map Prod.fst

/-- Representation invariant of the engine between two operations. -/
structure Inv (c : Cache K) : Prop where
  /-- the key table is a map -/
  keysNodup : (c.values.map Prod.fst).Nodup
  /-- an entry is stored under its own key -/
  keyEq : ∀ k e, mapGet c.values k = some e → e.key = k
  /-- the size counter is the number of keys -/
  lenEq : c.len = c.values.length
  /-- bucket elements have distinct addresses -/
  addrNodup : (c.freqs.map Element.addr).Nodup
  /-- addresses in use are below the next address to be handed out -/
  addrLt : ∀ el ∈ c.freqs, el.addr < c.nextAddr
  /-- the bucket reference of an entry is an element of the list that holds the entry -/
  inBucket : ∀ k e, mapGet c.values k = some e →
    ∃ el ∈ c.freqs, e.freqNode = some el.addr ∧ k ∈ el.Value.entries
  /-- a bucket holds only entries of the key table that refer to it -/
  fromBucket : ∀ el ∈ c.freqs, ∀ k ∈ el.Value.entries,
    ∃ e, mapGet c.values k = some e ∧ e.freqNode = some el.addr
  /-- the entry set of a bucket is a set -/
  entriesNodup : ∀ el ∈ c.freqs, el.Value.entries.Nodup
  /-- no bucket in the list is empty -/
  nonempty : ∀ el ∈ c.freqs, el.Value.entries ≠ []
  /-- frequencies ascend strictly from head to tail -/
  sorted : (c.freqs.map (fun el => el.Value.freq)).Pairwise (fun a b => a < b)
  /-- frequencies are positive -/
  freqPos : ∀ el ∈ c.freqs, 1 ≤ el.Value.freq

/-- The invariant with one entry in transit: when `x = some (k, p)` the bucket at
`p` still lists `k` although the key table does not refer `k` to `p`. -/
structure WF (c : Cache K) (x : Option (K × Nat)) : Prop where
  keysNodup : (c.values.map Prod.fst).Nodup
  keyEq : ∀ k e, mapGet c.values k = some e → e.key = k
  addrNodup : (c.freqs.map Element.addr).Nodup
  addrLt : ∀ el ∈ c.freqs, el.addr < c.nextAddr
  inBucket : ∀ k e, mapGet c.values k = some e →
    ∃ el ∈ c.freqs, e.freqNode = some el.addr ∧ k ∈ el.Value.entries
  fromBucket : ∀ el ∈ c.freqs, ∀ k ∈ el.Value.entries,
    x = some (k, el.addr) ∨ ∃ e, mapGet c.values k = some e ∧ e.freqNode = some el.addr
  entriesNodup : ∀ el ∈ c.freqs, el.Value.entries.Nodup
  nonempty : ∀ el ∈ c.freqs, el.Value.entries ≠ []
  sorted : (c.freqs.map (fun el => el.Value.freq)).Pairwise (fun a b => a < b)
  freqPos : ∀ el ∈ c.freqs, 1 ≤ el.Value.freq
  excIn : ∀ k p, x = some (k, p) → ∃ el ∈ c.freqs, el.addr = p ∧ k ∈ el.Value.entries
  excOut : ∀ k p, x = some (k, p) → ∀ e, mapGet c.values k = some e → e.freqNode ≠ some p

/-- The size bound that the bounds management of `Set` maintains. -/
def Bounded (c : Cache K) : Prop := 0 < c.maxLen → c.len ≤ 2 * c.maxLen

/-- The bucket list after `remEntry` at address `p` for the entry `k`. -/
def remFreqs (l : List (Element K)) (p : Nat) (k : K) : List (Element K) :=
  match elemAt l p with
  | none => l
  | some el =>
    if (setDelete k el.Value.entries).length = 0 then Remove (modifyEntries l p (setDelete k)) p
    else modifyEntries l p (setDelete k)

/-- The entry in transit when the entry stored under `k` is about to be moved. -/
def transit (c : Cache K) (k : K) : Option (K × Nat) :=
  match mapGet c.values k with
  | none => none
  | some e => e.freqNode.map (fun p => (k, p))

/-- The channel takes `n` more records: it is nil, or it has room for them. -/
def Room (c : Cache K) (n : Int) : Prop :=
  ∀ ch, c.EvictionChannel = some ch → n ≤ (ch.room : Int)

/-- The channel takes the records that `Set` of `key` sends: when the key is new, the
capacity is enabled and the size after the insertion exceeds twice the capacity, it
takes the records of the entries that are evicted down to the capacity. -/
def SetRoom (c : Cache K) (key : K) : Prop :=
  mapGet c.values key = none → 0 < c.maxLen → 2 * c.maxLen < c.len + 1 →
    Room c (c.len + 1 - c.maxLen)

/-- The state in which the send of `notify` for `entry` has gone through. -/
def announced (c : Cache K) (entry : cacheEntry K) : Cache K :=
  { c with EvictionChannel := c.EvictionChannel.map (fun ch =>
      { sent := ch.sent ++ [{ Key := entry.key, Value := entry.value }], room := ch.room - 1 }) }

/-- The state `c'` results from `c` by evicting the entries `evs`, in that order,
each from the lowest bucket at its time. -/
structure Evicted (c c' : Cache K) (evs : List (Eviction K)) : Prop where
  values : ∀ k, mapGet c'.values k =
    if k ∈ evs.map Eviction.Key then none else mapGet c.values k
  evKeys : (evs.map Eviction.Key).Nodup
  evVals : ∀ ev ∈ evs, ∃ e, mapGet c.values ev.Key = some e ∧ e.value = ev.Value
  chan : c'.EvictionChannel = c.EvictionChannel.map (fun ch =>
    { sent := ch.sent ++ evs, room := ch.room - evs.length })
  room : Room c evs.length
  len : c'.len = c.len - evs.length
  maxLen : c'.maxLen = c.maxLen
  cleanCycle : c'.cleanCycle = c.cleanCycle
  freq : ∀ k, mapGet c'.values k ≠ none → freqOf c' k = freqOf c k
  low : ∀ ev ∈ evs, ∀ k', mapGet c'.values k' ≠ none →
    ∀ f f', freqOf c ev.Key = some f → freqOf c k' = some f' → f ≤ f'

end invariant

section examples

/-- Calls that leave key 1 at frequency 2 and key 2 at frequency 1. -/
def coldAndHotOps : List (Op Nat) :=
  [.Set 1 (.str "a") (some 100) 0, .Set 2 (.str "b") (some 100) 0, .Get 1 5]

/-- The state after `coldAndHotOps` on a new cache of capacity 1000. -/
def coldAndHot : Cache Nat :=
  { maxLen := 1000,
    values := [(1, { key := 1, value := .str "a", freqNode := some 1, expireAt := some 100,
                     visitAt := 5 }),
               (2, { key := 2, value := .str "b", freqNode := some 0, expireAt := some 100,
                     visitAt := 0 })],
    freqs := [{ addr := 0, Value := { entries := [2], freq := 1 } },
              { addr := 1, Value := { entries := [1], freq := 2 } }],
    len := 2, EvictionChannel := none, cleanCycle := 30, nextAddr := 2 }

/-- The state after `Evict(1)` on `coldAndHot`. -/
def onlyHot : Cache Nat :=
  { maxLen := 1000,
    values := [(1, { key := 1, value := .str "a", freqNode := some 1, expireAt := some 100,
                     visitAt := 5 })],
    freqs := [{ addr := 1, Value := { entries := [1], freq := 2 } }],
    len := 1, EvictionChannel := none, cleanCycle := 30, nextAddr := 2 }

/-- Calls that leave the keys 1 and 2 at frequency 2. -/
def twoHotOps : List (Op Nat) :=
  [.Set 1 (.str "a") (some 100) 0, .Set 2 (.str "b") (some 100) 0, .Get 1 5, .Get 2 5]

/-- The state after `twoHotOps` on a new cache of capacity 1. -/
def twoHot : Cache Nat :=
  { maxLen := 1,
    values := [(1, { key := 1, value := .str "a", freqNode := some 1, expireAt := some 100,
                     visitAt := 5 }),
               (2, { key := 2, value := .str "b", freqNode := some 1, expireAt := some 100,
                     visitAt := 5 })],
    freqs := [{ addr := 1, Value := { entries := [2, 1], freq := 2 } }],
    len := 2, EvictionChannel := none, cleanCycle := 60, nextAddr := 2 }

/-- The state after `Set(3, "v", 100)` at time 10 on `twoHot`: the new entry and the
entry of key 2 have been evicted. -/
def twoHotAfterSet : Cache Nat :=
  { maxLen := 1,
    values := [(1, { key := 1, value := .str "a", freqNode := some 1, expireAt := some 100,
                     visitAt := 5 })],
    freqs := [{ addr := 1, Value := { entries := [1], freq := 2 } }],
    len := 1, EvictionChannel := none, cleanCycle := 60, nextAddr := 3 }

end examples

end lfu

namespace cache

open lfu

/-- The constant `time.Minute`. -/
def Minute : Int := 60000000000

/-- The operations of the go-redis client that the repository calls.  The client is
not part of the repository and is taken as a parameter, with `R` the state of the
connection and the server behind it.  `Get` yields `some s` when the command has no
error, `PipelineGet` yields whether `Exec` returned without error together with the
outcome of every queued command. -/
structure RedisClient (R : Type) where
  Get : R → String → R × Option String
  Set : R → String → Value → Int → R
  PipelineGet : R → List String → R × Bool × List (Option String)
  PipelineSet : R → List (String × Value) → Int → R

/-- What the orchestration code is run with: the method `String` of the keys, the
redis client, `json.Marshal` (`none` for an error), the iteration order of the
engine's bucket scan and the fuel of its eviction loop. -/
structure Env (K R : Type) where
  keyString : K → String
  client : RedisClient R
  jsonMarshal : Value → Option String
  pick : List K → List K
  fuel : Nat

/-- Source: `LocalCache`. -/
structure LocalCache (K : Type) where
  cache : lfu.Cache K
  DefaultExpiredDuration : Int

/-- Source: `RedisCache`. -/
structure RedisCache (R : Type) where
  redis : R
  DefaultExpiredDuration : Int

/-- A call that the orchestrator makes to the remote tier or to the loader. -/
inductive Call (K : Type) where
  | remoteGet (key : K) : Call K
  | remoteSet (key : K) (value : Value) : Call K
  | remoteMultiGet (keys : List K) : Call K
  | remoteMultiSet (kvs : List (K × Value)) : Call K
  | load (keys : List K) : Call K
deriving DecidableEq, Repr

/-- Source: `LayeredCache`.  The loader is a function of the requested keys; `trace`
is not in the source: it records the calls made to the remote tier and to the loader,
oldest first. -/
structure LayeredCache (K R : Type) where
  localCache : LocalCache K
  redisCache : RedisCache R
  dbLoader : List K → List (K × Value)
  trace : List (Call K)

section tiers

variable {K R : Type} [DecidableEq K]

/-- Source: `NewLocalCache`. -/
def NewLocalCache (cap : Int) (defaultExpiredDuration : Int) : LocalCache K :=
  { cache := NewLFUCache cap Minute, DefaultExpiredDuration := Minute }

/-- Source: `NewRedisCache`, for the connection `conn` that `initRedisClient` opens. -/
def NewRedisCache (conn : R) (expiredTime : Int) : RedisCache R :=
  { redis := conn, DefaultExpiredDuration := expiredTime }

/-- Source: `NewLayeredCache`. -/
def NewLayeredCache (conn : R) (loader : List K → List (K × Value)) (memCap : Int)
    (memExpire : Int) (redisExpire : Int) : LayeredCache K R :=
  { redisCache := NewRedisCache conn redisExpire,
    localCache := NewLocalCache memCap memExpire,
    dbLoader := loader,
    trace := [] }

/-- Source: `LocalCache.Get`. -/
def LocalCache.Get (l : LocalCache K) (k : K) (now : Int) :
    Except Fault (LocalCache K × Value × Bool) :=
  match lfu.Get l.cache k now with
  | .error f => .error f
  | .ok (c1, v) =>
    if v = Value.nil then .ok ({ l with cache := c1 }, Value.nil, false)
    else .ok ({ l with cache := c1 }, v, true)

/-- Source: `LocalCache.Set`. -/
def LocalCache.Set (env : Env K R) (l : LocalCache K) (k : K) (v : Value) (now : Int) :
    Except Fault (LocalCache K) :=
  let expiration := now + l.DefaultExpiredDuration
  match lfu.Set env.pick env.fuel l.cache k v (some expiration) now with
  | .error f => .error f
  | .ok c1 => .ok { l with cache := c1 }

/-- The second loop of `LocalCache.MultiGet`: the non-nil values of `valueMap`. -/
def collectValues (valueMap : List (K × Value)) : List K → List (K × Value) → List (K × Value)
  | [], values => values
  | k :: keyList, values =>
    match mapGet valueMap k with
    | some v =>
      if v ≠ Value.nil then collectValues valueMap keyList (mapSet values k v)
      else collectValues valueMap keyList values
    | none => collectValues valueMap keyList values

/-- Source: `LocalCache.MultiGet`. -/
def LocalCache.MultiGet (l : LocalCache K) (keys : List K) (now : Int) :
    Except Fault (LocalCache K × List (K × Value)) :=
  if keys.length = 0 then .ok (l, [])
  else
    match lfu.MGet l.cache keys now with
    | .error f => .error f
    | .ok (c1, valueMap) => .ok ({ l with cache := c1 }, collectValues valueMap keys [])

/-- The first loop of `LocalCache.MultiSet`: the pairs with a non-nil value (a key
of type `K` is never nil). -/
def nonNilPairs : List (K × Value) → List (K × Value) → List (K × Value)
  | [], kvMap => kvMap
  | (k, v) :: kvs, kvMap =>
    if v ≠ Value.nil then nonNilPairs kvs (mapSet kvMap k v) else nonNilPairs kvs kvMap

/-- Source: `LocalCache.MultiSet`. -/
def LocalCache.MultiSet (env : Env K R) (l : LocalCache K) (kvs : List (K × Value))
    (now : Int) : Except Fault (LocalCache K) :=
  if kvs.length = 0 then .ok l
  else
    let kvMap := nonNilPairs kvs []
    if l.DefaultExpiredDuration > 0 then
      let expiration := now + l.DefaultExpiredDuration
      match lfu.MSet env.pick env.fuel kvMap l.cache (some expiration) now with
      | .error f => .error f
      | .ok c1 => .ok { l with cache := c1 }
    else
      match lfu.MSet env.pick env.fuel kvMap l.cache none now with
      | .error f => .error f
      | .ok c1 => .ok { l with cache := c1 }

/-- Source: `RedisCache.Get`. -/
def RedisCache.Get (env : Env K R) (r : RedisCache R) (key : K) :
    RedisCache R × Value × Bool :=
  match env.client.Get r.redis (env.keyString key) with
  | (conn, none) => ({ r with redis := conn }, Value.nil, false)
  | (conn, some s) => ({ r with redis := conn }, Value.str s, true)

/-- Source: `RedisCache.Set`. -/
def RedisCache.Set (env : Env K R) (r : RedisCache R) (key : K) (v : Value) : RedisCache R :=
  { r with redis := env.client.Set r.redis (env.keyString key) v r.DefaultExpiredDuration }

/-- The map `results` of `RedisCache.MultiGet`: the command queued for every key. -/
def queuedResults : List K → List (Option String) → List (K × Option String) →
    List (K × Option String)
  | k :: keys, out :: outs, results => queuedResults keys outs (mapSet results k out)
  | _, _, results => results

/-- The last loop of `RedisCache.MultiGet`: the values of the commands without error. -/
def successfulValues : List (K × Option String) → List (K × Value) → List (K × Value)
  | [], values => values
  | (k, some s) :: results, values => successfulValues results (mapSet values k (Value.str s))
  | (_, none) :: results, values => successfulValues results values

/-- Source: `RedisCache.MultiGet`. -/
def RedisCache.MultiGet (env : Env K R) (r : RedisCache R) (keys : List K) :
    RedisCache R × List (K × Value) :=
  if keys.length = 0 then (r, [])
  else
    match env.client.PipelineGet r.redis (keys.map env.keyString) with
    | (conn, execOk, outs) =>
      let results := queuedResults keys outs []
      if execOk then ({ r with redis := conn }, successfulValues results [])
      else ({ r with redis := conn }, [])

/-- Source: `RedisCache.MultiSet`. -/
def RedisCache.MultiSet (env : Env K R) (r : RedisCache R) (kvs : List (K × Value)) :
    RedisCache R :=
  if kvs.length = 0 then r
  else
    let cmds := kvs.map (fun kv => (env.keyString kv.1, kv.2))
    { r with redis := env.client.PipelineSet r.redis cmds r.DefaultExpiredDuration }

/-- Source: `util.MarshalToString`. -/
def MarshalToString (jsonMarshal : Value → Option String) (i : Value) : String :=
  if i = Value.nil then ""
  else
    match jsonMarshal i with
    | none => ""
    | some data => data

/-- Source: `util.MarshalToValue`. -/
def MarshalToValue (jsonMarshal : Value → Option String) (obj : Value) : Except Fault String :=
  match obj with
  | Value.str v => .ok v
  | Value.strPtr (some v) => .ok v
  | Value.strPtr none => .error Fault.nilDeref
  | v => .ok (MarshalToString jsonMarshal v)

/-- The loop of `MultiGetValuesAndMisses`. -/
def valuesAndMisses (jsonMarshal : Value → Option String) (vMap : List (K × Value)) :
    List K → List K → List (K × Value) → Except Fault (List K × List (K × Value))
  | [], misses, values => .ok (misses, values)
  | k :: keys, misses, values =>
    match mapGet vMap k with
    | some v =>
      match MarshalToValue jsonMarshal v with
      | .error f => .error f
      | .ok s => valuesAndMisses jsonMarshal vMap keys misses (mapSet values k (Value.str s))
    | none => valuesAndMisses jsonMarshal vMap keys (misses ++ [k]) values

/-- Source: `MultiGetValuesAndMisses`.  The argument `cache` of interface type is
given by its method `MultiGet`, which returns the new state `S` of the tier besides
the map; the result is that state, the misses, `vMap`, and the updated map `values`. -/
def MultiGetValuesAndMisses {S : Type} (jsonMarshal : Value → Option String)
    (cacheMultiGet : List K → Except Fault (S × List (K × Value)))
    (keys : List K) (values : List (K × Value)) :
    Except Fault (S × List K × List (K × Value) × List (K × Value)) :=
  match cacheMultiGet keys with
  | .error f => .error f
  | .ok (tier, vMap) =>
    match valuesAndMisses jsonMarshal vMap keys [] values with
    | .error f => .error f
    | .ok (misses, values1) => .ok (tier, misses, vMap, values1)

/-- The string that `MarshalToValue` returns, the empty string where it panics. -/
def marshalled (jsonMarshal : Value → Option String) (v : Value) : String :=
  match MarshalToValue jsonMarshal v with
  | .ok s => s
  | .error _ => ""

/-- The keys of `keys`, in order, for which the map `vMap` has no value. -/
def missesOf (vMap : List (K × Value)) (keys : List K) : List K :=
  keys.filter (fun k => (mapGet vMap k).isNone)

/-- The loop of `LayeredCache.MultiGet` over the loader's result. -/
def loadedValues (missMap : List (K × Value)) : List K → List (K × Value) → List (K × Value)
  | [], values => values
  | k :: misses, values =>
    match mapGet missMap k with
    | some v => loadedValues missMap misses (mapSet values k v)
    | none => loadedValues missMap misses values

/-- The statement `if len(missMap) > 0 { l.localCache.MultiSet(ctx, missMap) }` of
`LayeredCache.MultiGet`. -/
def backfillLocal (env : Env K R) (lc : LocalCache K) (missMap : List (K × Value)) (now : Int) :
    Except Fault (LocalCache K) :=
  if missMap.length > 0 then lc.MultiSet env missMap now else .ok lc

/-- Source: `LayeredCache.MultiGet`. -/
def LayeredCache.MultiGet (env : Env K R) (l : LayeredCache K R) (keys : List K) (now : Int) :
    Except Fault (LayeredCache K R × List (K × Value)) :=
  let values : List (K × Value) := []
  if keys.length = 0 then .ok (l, values)
  else
    -- Local Cache
    match MultiGetValuesAndMisses env.jsonMarshal
        (fun ks => l.localCache.MultiGet ks now) keys values with
    | .error f => .error f
    | .ok (local1, misses1, _, values1) =>
    let l1 := { l with localCache := local1 }
    if misses1.length = 0 then .ok (l1, values1)
    else
      -- redis
      match MultiGetValuesAndMisses env.jsonMarshal
          (fun ks => .ok (l1.redisCache.MultiGet env ks)) misses1 values1 with
      | .error f => .error f
      | .ok (redis2, misses2, missMap2, values2) =>
      let l2 := { l1 with redisCache := redis2,
                          trace := l1.trace ++ [Call.remoteMultiGet misses1] }
      match backfillLocal env l2.localCache missMap2 now with
      | .error f => .error f
      | .ok local3 =>
      let l3 := { l2 with localCache := local3 }
      if misses2.length = 0 then .ok (l3, values2)
      else
        -- db
        let missMap := l3.dbLoader misses2
        let l4 := { l3 with trace := l3.trace ++ [Call.load misses2] }
        let values3 := loadedValues missMap misses2 values2
        if missMap.length > 0 then
          match l4.localCache.MultiSet env missMap now with
          | .error f => .error f
          | .ok local5 =>
            .ok ({ l4 with localCache := local5,
                           redisCache := l4.redisCache.MultiSet env missMap,
                           trace := l4.trace ++ [Call.remoteMultiSet missMap] },
                 values3)
        else .ok (l4, values3)

/-- Source: `LayeredCache.MultiSet`. -/
def LayeredCache.MultiSet (env : Env K R) (l : LayeredCache K R) (kvs : List (K × Value))
    (now : Int) : Except Fault (LayeredCache K R) :=
  if kvs.length = 0 then .ok l
  else
    match l.localCache.MultiSet env kvs now with
    | .error f => .error f
    | .ok local1 =>
      .ok { l with localCache := local1,
                   redisCache := l.redisCache.MultiSet env kvs,
                   trace := l.trace ++ [Call.remoteMultiSet kvs] }

/-- Source: `LayeredCache.Get`. -/
def LayeredCache.Get (env : Env K R) (l : LayeredCache K R) (key : K) (now : Int) :
    Except Fault (LayeredCache K R × Value) :=
  -- Local Cache
  match l.localCache.Get key now with
  | .error f => .error f
  | .ok (local1, res, ok) =>
    let l1 := { l with localCache := local1 }
    if ok then .ok (l1, res)
    else
      -- redis
      match l1.redisCache.Get env key with
      | (redis2, res, ok) =>
      let l2 := { l1 with redisCache := redis2, trace := l1.trace ++ [Call.remoteGet key] }
      if ok then
        match l2.localCache.Set env key res now with
        | .error f => .error f
        | .ok local3 =>
          .ok ({ l2 with localCache := local3 }, res)
      else
        -- db
        let keys := [key]
        let resMap := l2.dbLoader keys
        let l3 := { l2 with trace := l2.trace ++ [Call.load keys] }
        match mapGet resMap key with
        | some res =>
          match l3.localCache.Set env key res now with
          | .error f => .error f
          | .ok local4 =>
            .ok ({ l3 with localCache := local4,
                           redisCache := l3.redisCache.Set env key res,
                           trace := l3.trace ++ [Call.remoteSet key res] },
                 res)
        | none => .ok (l3, Value.nil)

/-- Source: `LayeredCache.Set`. -/
def LayeredCache.Set (env : Env K R) (l : LayeredCache K R) (key : K) (value : Value)
    (now : Int) : Except Fault (LayeredCache K R) :=
  match l.localCache.Set env key value now with
  | .error f => .error f
  | .ok local1 =>
    .ok { l with localCache := local1,
                 redisCache := l.redisCache.Set env key value,
                 trace := l.trace ++ [Call.remoteSet key value] }

/-- The function that `GetWithSF` hands to `sg.Do`: the state after it, the value
`ret`, and whether `err` is nil. -/
def sfLoad (env : Env K R) (l : LayeredCache K R) (key : K) (now : Int) :
    Except Fault (LayeredCache K R × Value × Bool) :=
  match l.redisCache.Get env key with
  | (redis1, res, ok) =>
  let l1 := { l with redisCache := redis1, trace := l.trace ++ [Call.remoteGet key] }
  if ok then
    match l1.localCache.Set env key res now with
    | .error f => .error f
    | .ok local2 =>
      .ok ({ l1 with localCache := local2 }, res, true)
  else
    -- db
    let keys := [key]
    let resMap := l1.dbLoader keys
    let l2 := { l1 with trace := l1.trace ++ [Call.load keys] }
    match mapGet resMap key with
    | some res =>
      match l2.localCache.Set env key res now with
      | .error f => .error f
      | .ok local3 =>
        .ok ({ l2 with localCache := local3,
                       redisCache := l2.redisCache.Set env key res,
                       trace := l2.trace ++ [Call.remoteSet key res] },
             res, true)
    | none => .ok (l2, Value.nil, false)

/-- Source: `LayeredCache.GetWithSF`, for a caller that is alone, so that `sg.Do` runs
the function it is given.  The type assertion `resIft.(Value)` fails on nil. -/
def LayeredCache.GetWithSF (env : Env K R) (l : LayeredCache K R) (key : K) (now : Int) :
    Except Fault (LayeredCache K R × Value) :=
  -- Local Cache
  match l.localCache.Get key now with
  | .error f => .error f
  | .ok (local1, res, ok) =>
    let l1 := { l with localCache := local1 }
    if ok then .ok (l1, res)
    else
      match sfLoad env l1 key now with
      | .error f => .error f
      | .ok (l2, resIft, errIsNil) =>
        if ¬ errIsNil then .ok (l2, Value.nil)
        else if resIft = Value.nil then .error Fault.badAssert
        else .ok (l2, resIft)

end tiers

section examples

/-- An in-memory stand-in for the redis client, used to evaluate the orchestrator on
examples: it stores strings only, and `Exec` reports an error when a queued `GET`
finds no value. -/
def memRedis : RedisClient (List (String × String)) :=
  { Get := fun r k => (r, mapGet r k),
    Set := fun r k v _ =>
      match v with
      | .str s => mapSet r k s
      | _ => r,
    PipelineGet := fun r ks => (r, (ks.map (mapGet r)).all Option.isSome, ks.map (mapGet r)),
    PipelineSet := fun r kvs _ =>
      kvs.foldl (fun acc kv =>
        match kv.2 with
        | .str s => mapSet acc kv.1 s
        | _ => acc) r }

/-- The method `String` of the example keys: key `n` is written as `n` letters. -/
def demoKeyString (n : Nat) : String := String.mk (List.replicate n 'k')

/-- The environment of the examples. -/
def demoEnv : Env Nat (List (String × String)) :=
  { keyString := demoKeyString, client := memRedis, jsonMarshal := fun _ => none,
    pick := id, fuel := 10 }

/-- A loader that knows the value "v" for every key. -/
def demoLoader (ks : List Nat) : List (Nat × Value) :=
  ks.foldl (fun m k => mapSet m k (Value.str "v")) []

/-- A loader that returns a nil value for every key. -/
def nilLoader (ks : List Nat) : List (Nat × Value) :=
  ks.foldl (fun m k => mapSet m k Value.nil) []

/-- A layered cache with a local capacity of 1 and empty tiers. -/
def demoLayered : LayeredCache Nat (List (String × String)) :=
  NewLayeredCache [] demoLoader 1 0 0

/-- A layered cache with a local capacity of 10, empty tiers and the loader
`nilLoader`. -/
def nilLayered : LayeredCache Nat (List (String × String)) :=
  NewLayeredCache [] nilLoader 10 0 0

/-- The values returned by a sequence of calls of `Get`, each with its time, and the
state after them. -/
def getAll (env : Env Nat (List (String × String))) :
    List (Nat × Int) → LayeredCache Nat (List (String × String)) →
    Except Fault (LayeredCache Nat (List (String × String)) × List Value)
  | [], l => .ok (l, [])
  | (k, t) :: rest, l =>
    match LayeredCache.Get env l k t with
    | .error f => .error f
    | .ok (l1, v) =>
      match getAll env rest l1 with
      | .error f => .error f
      | .ok (l2, vs) => .ok (l2, v :: vs)

/-- The state of `demoLayered` after `Get` of the keys 1, 2, 1, 2: the local tier
holds both keys at frequency 2. -/
def demoWarm : LayeredCache Nat (List (String × String)) :=
  match getAll demoEnv [(1, 0), (2, 1), (1, 2), (2, 3)] demoLayered with
  | .ok (l, _) => l
  | .error _ => demoLayered

/-- The state of `demoWarm` after `Get` of the key 3 at time 4. -/
def demoMissed : LayeredCache Nat (List (String × String)) :=
  match LayeredCache.Get demoEnv demoWarm 3 4 with
  | .ok (l, _) => l
  | .error _ => demoWarm

end examples

end cache

namespace lfu

section examples2

/-- The cache `twoHot` with an eviction channel that has taken no record yet and has
room for two. -/
def twoHotChan : Cache Nat :=
  { twoHot with EvictionChannel := some { sent := [], room := 2 } }

/-- The state after `Evict(1)` on `twoHotChan`: the record of key 2 has been sent. -/
def twoHotChanEvicted : Cache Nat :=
  { maxLen := 1,
    values := [(1, { key := 1, value := .str "a", freqNode := some 1, expireAt := some 100,
                     visitAt := 5 })],
    freqs := [{ addr := 1, Value := { entries := [1], freq := 2 } }],
    len := 1,
    EvictionChannel := some { sent := [{ Key := 2, Value := .str "b" }], room := 1 },
    cleanCycle := 60, nextAddr := 2 }

/-- The state after `Set(3, "v", 100)` at time 10 on `twoHotChan`: the records of the
new entry and of key 2 have been sent. -/
def twoHotChanAfterSet : Cache Nat :=
  { twoHotAfterSet with
    EvictionChannel := some { sent := [{ Key := 3, Value := .str "v" },
                                       { Key := 2, Value := .str "b" }], room := 0 } }

/-- The least value of `time.Duration`. -/
def minDuration : Int := -9223372036854775808

/-- The state after `coldAndHotOps` on a new cache of capacity 1000 whose sweep interval
is the least value of `time.Duration`. -/
def coldAndHotMin : Cache Nat := { coldAndHot with cleanCycle := minDuration }

/-- Whether a call is a call of `Evict`. -/
def Op.isEvict {K : Type} : Op K → Bool
  | .Evict _ => true
  | _ => false

/-- The calls of `TestBoundsMgmt`: `Set` of the keys `0` to `n - 1`, key `i` with the
value `i`. -/
def insertOps (n : Nat) : List (Op Nat) :=
  (List.range n).map (fun i => Op.Set i (.other i) (some 1000) 0)

end examples2

end lfu

namespace cache

open lfu

section examples2

/-- The loop of `GetItemFromDB` of the tests, for the table `myDB`. -/
def getItems {K : Type} [DecidableEq K] (myDB : List (K × Value)) :
    List K → List (K × Value) → List (K × Value)
  | [], infos => infos
  | k :: keys, infos =>
    match mapGet myDB k with
    | some v => getItems myDB keys (mapSet infos k v)
    | none => getItems myDB keys infos

/-- Source: `GetItemFromDB` of the tests, for the table `myDB`. -/
def GetItemFromDB {K : Type} [DecidableEq K] (myDB : List (K × Value)) (keys : List K) :
    List (K × Value) :=
  getItems myDB keys []

/-- A table that knows the string "b" for key 2. -/
def demoDB : List (Nat × Value) := [(2, Value.str "b")]

/-- A layered cache with a local capacity of 5, empty tiers and the loader
`GetItemFromDB` for `demoDB`. -/
def dbLayered : LayeredCache Nat (List (String × String)) :=
  NewLayeredCache [] (GetItemFromDB demoDB) 5 0 0

/-- The state of `dbLayered` after `MultiGet` of the keys 1 and 2 at time 0. -/
def dbFetched : LayeredCache Nat (List (String × String)) :=
  match LayeredCache.MultiGet demoEnv dbLayered [1, 2] 0 with
  | .ok (l, _) => l
  | .error _ => dbLayered

/-- The environment of the examples with a `json.Marshal` that writes an integer in
decimal digits. -/
def jsonEnv : Env Nat (List (String × String)) :=
  { keyString := demoKeyString, client := memRedis,
    jsonMarshal := fun v =>
      match v with
      | Value.other n => some (Nat.repr n)
      | _ => none,
    pick := id, fuel := 10 }

/-- A loader that returns the integer 5 for every key. -/
def intLoader (ks : List Nat) : List (Nat × Value) :=
  ks.foldl (fun m k => mapSet m k (Value.other 5)) []

/-- A layered cache with a local capacity of 5, empty tiers and the loader
`intLoader`. -/
def intLayered : LayeredCache Nat (List (String × String)) :=
  NewLayeredCache [] intLoader 5 0 0

/-- The mappings returned by two successive calls of `MultiGet` with the same keys,
with the keys of the local tier between the calls. -/
def twice (env : Env Nat (List (String × String))) (l : LayeredCache Nat (List (String × String)))
    (ks : List Nat) (now now' : Int) :
    Option (List (Nat × Value) × List Nat × List (Nat × Value)) :=
  match LayeredCache.MultiGet env l ks now with
  | .error _ => none
  | .ok (l1, first) =>
    match LayeredCache.MultiGet env l1 ks now' with
    | .error _ => none
    | .ok (_, second) => some (first, keys l1.localCache.cache, second)

end examples2

end cache

namespace lfu

section lemmas

variable {K V : Type} [DecidableEq K]

theorem mapGet_mem {m : List (K × V)} {k : K} {v : V} (h : mapGet m k = some v) : (k, v) ∈ m := by
  induction m with
  | nil => simp [mapGet] at h
  | cons p m ih =>
    obtain ⟨k', v'⟩ := p
    simp only [mapGet] at h
    split at h
    · cases h; subst_vars; simp
    · exact List.mem_cons_of_mem _ (ih h)

theorem mapGet_eq_none_iff {m : List (K × V)} {k : K} : mapGet m k = none ↔ k ∉ m.map Prod.fst := by
  induction m with
  | nil => simp [mapGet]
  | cons p m ih =>
    obtain ⟨k', v'⟩ := p
    simp only [mapGet, List.map_cons, List.mem_cons, not_or]
    split
    · rename_i h; simp [h]
    · rename_i h; rw [ih]; constructor
      · intro h2; exact ⟨fun h3 => h h3.symm, h2⟩
      · intro h2; exact h2.2

theorem mapGet_of_mem {m : List (K × V)} (hn : (m.map Prod.fst).Nodup) {k : K} {v : V}
    (h : (k, v) ∈ m) : mapGet m k = some v := by
  induction m with
  | nil => simp at h
  | cons p m ih =>
    obtain ⟨k', v'⟩ := p
    simp only [List.map_cons, List.nodup_cons] at hn
    simp only [mapGet]
    rcases List.mem_cons.1 h with h | h
    · cases h; simp
    · split
      · rename_i hk; subst hk; exact absurd (List.mem_map_of_mem Prod.fst h) hn.1
      · exact ih hn.2 h

theorem mapGet_mapSet (m : List (K × V)) (k k' : K) (v : V) :
    mapGet (mapSet m k v) k' = if k = k' then some v else mapGet m k' := by
  induction m with
  | nil => simp [mapSet, mapGet]
  | cons p m ih =>
    obtain ⟨k0, v0⟩ := p
    simp only [mapSet]
    split
    · rename_i h; subst h; simp only [mapGet]
      split <;> rfl
    · rename_i h; simp only [mapGet, ih]
      by_cases h2 : k0 = k'
      · subst h2; simp [Ne.symm h]
      · simp [h2]

theorem mapGet_mapDel (m : List (K × V)) (k k' : K) :
    mapGet (mapDel m k) k' = if k = k' then none else mapGet m k' := by
  induction m with
  | nil => simp [mapDel, mapGet]
  | cons p m ih =>
    obtain ⟨k0, v0⟩ := p
    simp only [mapDel, List.filter_cons] at ih ⊢
    by_cases h0 : k0 = k
    · subst h0; simp only [decide_True, Bool.not_true, Bool.false_eq_true, if_false, ih, mapGet]
      split <;> simp_all
    · simp only [h0, decide_False, Bool.not_false, if_true, mapGet, ih]
      by_cases h1 : k0 = k'
      · subst h1; simp [Ne.symm h0]
      · simp [h1]

theorem keys_mapSet (m : List (K × V)) (k : K) (v : V) :
    (mapSet m k v).map Prod.fst = if k ∈ m.map Prod.fst then m.map Prod.fst else m.map Prod.fst ++ [k] := by
  induction m with
  | nil => simp [mapSet]
  | cons p m ih =>
    obtain ⟨k0, v0⟩ := p
    simp only [mapSet]
    by_cases h : k0 = k
    · subst h; simp
    · simp only [h, if_false, List.map_cons, ih, List.mem_cons, Ne.symm h, false_or]
      split <;> simp

theorem length_mapSet (m : List (K × V)) (k : K) (v : V) :
    (mapSet m k v).length = if k ∈ m.map Prod.fst then m.length else m.length + 1 := by
  have := congrArg List.length (keys_mapSet m k v)
  simp only [List.length_map] at this
  rw [this]; split <;> simp

theorem nodup_keys_mapSet {m : List (K × V)} (hn : (m.map Prod.fst).Nodup) (k : K) (v : V) :
    ((mapSet m k v).map Prod.fst).Nodup := by
  rw [keys_mapSet]; split
  · exact hn
  · rename_i h
    rw [List.nodup_append]
    refine ⟨hn, by simp, ?_⟩
    intro a ha hb
    simp at hb; subst hb; exact h ha

theorem keys_mapDel (m : List (K × V)) (k : K) :
    (mapDel m k).map Prod.fst = (m.map Prod.fst).filter (fun x => !decide (x = k)) := by
  induction m with
  | nil => simp [mapDel]
  | cons p m ih =>
    simp only [mapDel, List.filter_cons, List.map_cons] at ih ⊢
    split <;> simp [ih]

theorem nodup_keys_mapDel {m : List (K × V)} (hn : (m.map Prod.fst).Nodup) (k : K) :
    ((mapDel m k).map Prod.fst).Nodup := by
  rw [keys_mapDel]; exact hn.filter _

theorem length_mapDel {m : List (K × V)} (hn : (m.map Prod.fst).Nodup) {k : K}
    (hk : k ∈ m.map Prod.fst) : (mapDel m k).length + 1 = m.length := by
  induction m with
  | nil => simp at hk
  | cons p m ih =>
    obtain ⟨k0, v0⟩ := p
    simp only [List.map_cons, List.nodup_cons] at hn
    simp only [mapDel, List.filter_cons]
    by_cases h : k0 = k
    · subst h
      simp only [decide_True, Bool.not_true, Bool.false_eq_true, if_false, List.length_cons]
      have : List.filter (fun p : K × V => !decide (p.1 = k0)) m = m := by
        rw [List.filter_eq_self]
        intro a ha
        have : a.1 ≠ k0 := fun h2 => hn.1 (h2 ▸ List.mem_map_of_mem Prod.fst ha)
        simpa using this
      rw [this]
    · simp only [h, decide_False, Bool.not_false, if_true, List.length_cons]
      have hk' : k ∈ m.map Prod.fst := by
        simp only [List.map_cons, List.mem_cons] at hk
        rcases hk with hk | hk
        · exact absurd hk.symm h
        · exact hk
      have := ih hn.2 hk'
      simp only [mapDel] at this
      omega

theorem mapDel_eq_self {m : List (K × V)} {k : K} (hk : k ∉ m.map Prod.fst) : mapDel m k = m := by
  simp only [mapDel]
  rw [List.filter_eq_self]
  intro a ha
  have : a.1 ≠ k := fun h2 => hk (h2 ▸ List.mem_map_of_mem Prod.fst ha)
  simpa using this

theorem elemAt_some {l : List (Element K)} {p : Nat} {el : Element K}
    (h : elemAt l p = some el) : el ∈ l ∧ el.addr = p := by
  unfold elemAt at h
  exact ⟨List.mem_of_find?_eq_some h, by simpa using List.find?_some h⟩

theorem elemAt_eq_none {l : List (Element K)} {p : Nat} :
    elemAt l p = none ↔ ∀ el ∈ l, el.addr ≠ p := by
  unfold elemAt
  simp [List.find?_eq_none]

theorem elemAt_of_mem {l : List (Element K)} (hn : (l.map Element.addr).Nodup)
    {el : Element K} (h : el ∈ l) : elemAt l el.addr = some el := by
  induction l with
  | nil => simp at h
  | cons a l ih =>
    simp only [List.map_cons, List.nodup_cons] at hn
    unfold elemAt
    rw [List.find?_cons]
    rcases List.mem_cons.1 h with h | h
    · subst h; simp
    · have : a.addr ≠ el.addr := fun h2 => hn.1 (h2 ▸ List.mem_map_of_mem Element.addr h)
      simp only [this, decide_False]
      exact ih hn.2 h

theorem elemAt_split {l : List (Element K)} {p : Nat} {el : Element K}
    (h : elemAt l p = some el) :
    ∃ L1 L2, l = L1 ++ el :: L2 ∧ ∀ x ∈ L1, x.addr ≠ p := by
  induction l with
  | nil => simp [elemAt] at h
  | cons a l ih =>
    unfold elemAt at h
    rw [List.find?_cons] at h
    by_cases ha : a.addr = p
    · simp only [ha, decide_True] at h
      cases h
      exact ⟨[], l, rfl, by simp⟩
    · simp only [ha, decide_False] at h
      obtain ⟨L1, L2, h1, h2⟩ := ih h
      refine ⟨a :: L1, L2, by simp [h1], ?_⟩
      intro x hx
      rcases List.mem_cons.1 hx with hx | hx
      · subst hx; exact ha
      · exact h2 x hx

theorem Next_append {L1 L2 : List (Element K)} {cur : Element K} {p : Nat}
    (h1 : ∀ x ∈ L1, x.addr ≠ p) (hc : cur.addr = p) :
    Next (L1 ++ cur :: L2) p = L2.head? := by
  induction L1 with
  | nil => simp [Next, hc]
  | cons a L1 ih =>
    have ha : a.addr ≠ p := h1 a (by simp)
    simp only [List.cons_append, Next, ha, if_false]
    exact ih (fun x hx => h1 x (List.mem_cons_of_mem _ hx))

theorem InsertAfter_append {L1 L2 : List (Element K)} {cur v : Element K} {p : Nat}
    (h1 : ∀ x ∈ L1, x.addr ≠ p) (hc : cur.addr = p) :
    InsertAfter v (L1 ++ cur :: L2) p = some (L1 ++ cur :: v :: L2) := by
  induction L1 with
  | nil => simp [InsertAfter, hc]
  | cons a L1 ih =>
    have ha : a.addr ≠ p := h1 a (by simp)
    simp only [List.cons_append, InsertAfter, ha, if_false]
    have := ih (fun x hx => h1 x (List.mem_cons_of_mem _ hx))
    simp only [List.append_eq] at this ⊢
    rw [this]
    rfl

theorem updEntries_addr (p : Nat) (f : List K → List K) (el : Element K) :
    (updEntries p f el).addr = el.addr := by
  unfold updEntries; split <;> rfl

theorem updEntries_freq (p : Nat) (f : List K → List K) (el : Element K) :
    (updEntries p f el).Value.freq = el.Value.freq := by
  unfold updEntries; split <;> rfl

theorem updEntries_of_ne {p : Nat} {f : List K → List K} {el : Element K} (h : el.addr ≠ p) :
    updEntries p f el = el := by
  unfold updEntries; simp [h]

theorem updEntries_entries_eq {p : Nat} {f : List K → List K} {el : Element K} (h : el.addr = p) :
    (updEntries p f el).Value.entries = f el.Value.entries := by
  unfold updEntries; simp [h]

theorem map_addr_modifyEntries (l : List (Element K)) (p : Nat) (f : List K → List K) :
    (modifyEntries l p f).map Element.addr = l.map Element.addr := by
  unfold modifyEntries
  rw [List.map_map]
  apply List.map_congr_left
  intro a _
  simp only [Function.comp, updEntries_addr]

theorem map_freq_modifyEntries (l : List (Element K)) (p : Nat) (f : List K → List K) :
    (modifyEntries l p f).map (fun el => el.Value.freq) = l.map (fun el => el.Value.freq) := by
  unfold modifyEntries
  rw [List.map_map]
  apply List.map_congr_left
  intro a _
  simp only [Function.comp, updEntries_freq]

theorem mem_modifyEntries {l : List (Element K)} {p : Nat} {f : List K → List K}
    {x : Element K} :
    x ∈ modifyEntries l p f ↔ ∃ el ∈ l, x = updEntries p f el := by
  unfold modifyEntries
  rw [List.mem_map]
  constructor
  · rintro ⟨el, hel, rfl⟩; exact ⟨el, hel, rfl⟩
  · rintro ⟨el, hel, rfl⟩; exact ⟨el, hel, rfl⟩

theorem elemAt_modifyEntries (l : List (Element K)) (p q : Nat) (f : List K → List K) :
    elemAt (modifyEntries l p f) q = (elemAt l q).map (updEntries p f) := by
  induction l with
  | nil => simp [elemAt, modifyEntries]
  | cons a l ih =>
    unfold elemAt modifyEntries at ih ⊢
    simp only [List.map_cons, List.find?_cons, updEntries_addr]
    by_cases h : a.addr = q
    · simp [h]
    · simp only [h, decide_False]
      exact ih

theorem elemAt_Remove (l : List (Element K)) (p q : Nat) :
    elemAt (Remove l p) q = if q = p then none else elemAt l q := by
  induction l with
  | nil => simp [elemAt, Remove]
  | cons a l ih =>
    unfold elemAt Remove at ih ⊢
    simp only [List.filter_cons]
    by_cases h : a.addr = p
    · simp only [h, decide_True, Bool.not_true, Bool.false_eq_true, if_false, ih, List.find?_cons]
      by_cases hq : q = p
      · simp [hq]
      · simp [hq, Ne.symm hq]
    · simp only [h, decide_False, Bool.not_false, if_true, List.find?_cons, ih]
      by_cases hq : a.addr = q
      · have : q ≠ p := fun h2 => h (hq.trans h2)
        simp [hq, this]
      · simp [hq]

theorem mem_Remove {l : List (Element K)} {p : Nat} {x : Element K} :
    x ∈ Remove l p ↔ x ∈ l ∧ x.addr ≠ p := by
  unfold Remove; simp [List.mem_filter]

theorem mem_setDelete {k x : K} {s : List K} : x ∈ setDelete k s ↔ x ∈ s ∧ x ≠ k := by
  unfold setDelete; simp [List.mem_filter]

theorem mem_setInsert {k x : K} {s : List K} : x ∈ setInsert k s ↔ x = k ∨ x ∈ s := by
  unfold setInsert; split
  · rename_i h; constructor
    · intro h2; exact Or.inr h2
    · rintro (h2 | h2)
      · subst h2; exact h
      · exact h2
  · simp

theorem nodup_setInsert {k : K} {s : List K} (h : s.Nodup) : (setInsert k s).Nodup := by
  unfold setInsert; split
  · exact h
  · rename_i hk; exact List.nodup_cons.2 ⟨hk, h⟩

theorem nodup_setDelete {k : K} {s : List K} (h : s.Nodup) : (setDelete k s).Nodup := by
  unfold setDelete; exact h.filter _

theorem remEntry_eq {c : Cache K} {p : Nat} {k : K} {el : Element K}
    (h : elemAt c.freqs p = some el) :
    remEntry c (some p) k = .ok { c with freqs := remFreqs c.freqs p k } := by
  simp only [remEntry, remFreqs, h]
  split <;> rfl

theorem mem_iff_elemAt {l : List (Element K)} (hn : (l.map Element.addr).Nodup) {x : Element K} :
    x ∈ l ↔ elemAt l x.addr = some x :=
  ⟨fun h => elemAt_of_mem hn h, fun h => (elemAt_some h).1⟩

theorem elemAt_remFreqs_ne {l : List (Element K)} {p q : Nat} {k : K} (h : q ≠ p) :
    elemAt (remFreqs l p k) q = elemAt l q := by
  unfold remFreqs
  split
  · rfl
  · split
    · rw [elemAt_Remove, if_neg h, elemAt_modifyEntries]
      cases hq : elemAt l q with
      | none => rfl
      | some x =>
        have := (elemAt_some hq).2
        simp [updEntries_of_ne (this ▸ h)]
    · rw [elemAt_modifyEntries]
      cases hq : elemAt l q with
      | none => rfl
      | some x =>
        have := (elemAt_some hq).2
        simp [updEntries_of_ne (this ▸ h)]

theorem elemAt_remFreqs_self {l : List (Element K)} {p : Nat} {k : K} {el : Element K}
    (h : elemAt l p = some el) :
    elemAt (remFreqs l p k) p =
      if setDelete k el.Value.entries = [] then none else some (updEntries p (setDelete k) el) := by
  unfold remFreqs
  simp only [h, List.length_eq_zero]
  split
  · rw [elemAt_Remove]; simp
  · rw [elemAt_modifyEntries, h]; rfl

theorem sublist_addr_remFreqs (l : List (Element K)) (p : Nat) (k : K) :
    ((remFreqs l p k).map Element.addr).Sublist (l.map Element.addr) := by
  unfold remFreqs
  split
  · exact List.Sublist.refl _
  · split
    · rw [← map_addr_modifyEntries l p (setDelete k)]
      exact (List.filter_sublist _).map _
    · rw [map_addr_modifyEntries]

theorem sublist_freq_remFreqs (l : List (Element K)) (p : Nat) (k : K) :
    ((remFreqs l p k).map (fun el => el.Value.freq)).Sublist (l.map (fun el => el.Value.freq)) := by
  unfold remFreqs
  split
  · exact List.Sublist.refl _
  · split
    · rw [← map_freq_modifyEntries l p (setDelete k)]
      exact (List.filter_sublist _).map _
    · rw [map_freq_modifyEntries]

/-- Every element of the list after `remEntry` comes from an element of the list
before, with the same address and frequency and with the entries other than `k`
when it is the element at `p`. -/
theorem mem_remFreqs {l : List (Element K)} (hn : (l.map Element.addr).Nodup)
    {p : Nat} {k : K} {x : Element K} (hx : x ∈ remFreqs l p k) :
    (x ∈ l ∧ x.addr ≠ p) ∨
    (∃ el ∈ l, el.addr = p ∧ x = updEntries p (setDelete k) el ∧ setDelete k el.Value.entries ≠ []) := by
  have hn' : ((remFreqs l p k).map Element.addr).Nodup := hn.sublist (sublist_addr_remFreqs l p k)
  have h1 := (mem_iff_elemAt hn').1 hx
  by_cases hp : x.addr = p
  · right
    cases hel : elemAt l p with
    | none =>
      simp only [remFreqs, hel] at hx
      exact absurd hp (elemAt_eq_none.1 hel x hx)
    | some el =>
      rw [hp, elemAt_remFreqs_self hel] at h1
      split at h1
      · cases h1
      · rename_i hne
        cases h1
        exact ⟨el, (elemAt_some hel).1, (elemAt_some hel).2, rfl, hne⟩
  · left
    rw [elemAt_remFreqs_ne hp] at h1
    exact ⟨(elemAt_some h1).1, hp⟩

theorem mem_remFreqs_of_ne {l : List (Element K)} (hn : (l.map Element.addr).Nodup)
    {p : Nat} {k : K} {x : Element K} (hx : x ∈ l) (hp : x.addr ≠ p) : x ∈ remFreqs l p k := by
  have hn' : ((remFreqs l p k).map Element.addr).Nodup := hn.sublist (sublist_addr_remFreqs l p k)
  rw [mem_iff_elemAt hn', elemAt_remFreqs_ne hp]
  exact (mem_iff_elemAt hn).1 hx

theorem mem_remFreqs_of_eq {l : List (Element K)} (hn : (l.map Element.addr).Nodup)
    {p : Nat} {k : K} {x : Element K} (hx : x ∈ l) (hp : x.addr = p)
    (hne : setDelete k x.Value.entries ≠ []) : updEntries p (setDelete k) x ∈ remFreqs l p k := by
  have hn' : ((remFreqs l p k).map Element.addr).Nodup := hn.sublist (sublist_addr_remFreqs l p k)
  rw [mem_iff_elemAt hn', updEntries_addr, hp]
  have := (mem_iff_elemAt hn).1 hx
  rw [hp] at this
  rw [elemAt_remFreqs_self this, if_neg hne]

theorem remEntry_spec {c : Cache K} {k : K} {p : Nat} (h : WF c (some (k, p))) :
    remEntry c (some p) k = .ok { c with freqs := remFreqs c.freqs p k } ∧
    WF { c with freqs := remFreqs c.freqs p k } none := by
  obtain ⟨el, hel, hp, hk⟩ := h.excIn k p rfl
  have hat : elemAt c.freqs p = some el := hp ▸ elemAt_of_mem h.addrNodup hel
  refine ⟨remEntry_eq hat, ?_⟩
  have hn := h.addrNodup
  constructor
  · exact h.keysNodup
  · exact h.keyEq
  · exact hn.sublist (sublist_addr_remFreqs _ _ _)
  · intro x hx
    rcases mem_remFreqs hn hx with ⟨hx, _⟩ | ⟨el0, hel0, _, rfl, _⟩
    · exact h.addrLt x hx
    · rw [updEntries_addr]; exact h.addrLt el0 hel0
  · intro k' e' hk'
    obtain ⟨el0, hel0, hf, hin⟩ := h.inBucket k' e' hk'
    by_cases hp0 : el0.addr = p
    · have hkk : k' ≠ k := by
        intro hkk; subst hkk
        exact h.excOut k' p rfl e' hk' (hp0 ▸ hf)
      have hne : setDelete k el0.Value.entries ≠ [] := by
        intro h0
        have : k' ∈ setDelete k el0.Value.entries := mem_setDelete.2 ⟨hin, hkk⟩
        rw [h0] at this; simp at this
      refine ⟨_, mem_remFreqs_of_eq hn hel0 hp0 hne, ?_, ?_⟩
      · rw [updEntries_addr]; exact hf
      · rw [updEntries_entries_eq hp0]; exact mem_setDelete.2 ⟨hin, hkk⟩
    · exact ⟨el0, mem_remFreqs_of_ne hn hel0 hp0, hf, hin⟩
  · intro x hx k' hk'
    right
    rcases mem_remFreqs hn hx with ⟨hx, hp0⟩ | ⟨el0, hel0, hp0, rfl, _⟩
    · rcases h.fromBucket x hx k' hk' with h1 | h1
      · cases h1; exact absurd rfl hp0
      · exact h1
    · rw [updEntries_entries_eq hp0] at hk'
      have ⟨hin, hkk⟩ := mem_setDelete.1 hk'
      rcases h.fromBucket el0 hel0 k' hin with h1 | h1
      · cases h1; exact absurd rfl hkk
      · rw [updEntries_addr]; exact h1
  · intro x hx
    rcases mem_remFreqs hn hx with ⟨hx, _⟩ | ⟨el0, hel0, hp0, rfl, _⟩
    · exact h.entriesNodup x hx
    · rw [updEntries_entries_eq hp0]; exact nodup_setDelete (h.entriesNodup el0 hel0)
  · intro x hx
    rcases mem_remFreqs hn hx with ⟨hx, _⟩ | ⟨el0, hel0, hp0, rfl, hne⟩
    · exact h.nonempty x hx
    · rw [updEntries_entries_eq hp0]; exact hne
  · exact h.sorted.sublist (sublist_freq_remFreqs _ _ _)
  · intro x hx
    rcases mem_remFreqs hn hx with ⟨hx, _⟩ | ⟨el0, hel0, hp0, rfl, _⟩
    · exact h.freqPos x hx
    · rw [updEntries_freq]; exact h.freqPos el0 hel0
  · intro _ _ h0; cases h0
  · intro _ _ h0; cases h0

theorem Inv.toWF {c : Cache K} (h : Inv c) : WF c none :=
  { keysNodup := h.keysNodup, keyEq := h.keyEq, addrNodup := h.addrNodup, addrLt := h.addrLt,
    inBucket := h.inBucket, fromBucket := fun el hel k hk => Or.inr (h.fromBucket el hel k hk),
    entriesNodup := h.entriesNodup, nonempty := h.nonempty, sorted := h.sorted,
    freqPos := h.freqPos, excIn := fun _ _ h0 => (nomatch h0), excOut := fun _ _ h0 => (nomatch h0) }

theorem WF.toInv {c : Cache K} (h : WF c none) (hl : c.len = c.values.length) : Inv c :=
  { keysNodup := h.keysNodup, keyEq := h.keyEq, lenEq := hl, addrNodup := h.addrNodup,
    addrLt := h.addrLt, inBucket := h.inBucket,
    fromBucket := fun el hel k hk => by
      rcases h.fromBucket el hel k hk with h0 | h0
      · cases h0
      · exact h0,
    entriesNodup := h.entriesNodup, nonempty := h.nonempty, sorted := h.sorted,
    freqPos := h.freqPos }

/-- Adding `k` to the bucket at `np` of a list `l` that extends the bucket list by
at most an empty bucket at `np`, and referring `k` to `np` in the key table. -/
theorem addKey_WF {c : Cache K} (h : WF c none) (l : List (Element K)) (np : Nat) (k : K)
    (e1 : cacheEntry K) (n' : Nat)
    (he1k : e1.key = k) (he1f : e1.freqNode = some np)
    (hl_nodup : (l.map Element.addr).Nodup)
    (hl_lt : ∀ el ∈ l, el.addr < n')
    (hl_sorted : (l.map (fun el => el.Value.freq)).Pairwise (fun a b => a < b))
    (hl_pos : ∀ el ∈ l, 1 ≤ el.Value.freq)
    (hl_sub : ∀ el ∈ c.freqs, el ∈ l)
    (hl_sup : ∀ el ∈ l, el ∈ c.freqs ∨ (el.addr = np ∧ el.Value.entries = []))
    (hl_np : ∃ el ∈ l, el.addr = np)
    (hne : ∀ p0, transit c k = some (k, p0) → np ≠ p0) :
    WF { c with values := mapSet c.values k e1,
                freqs := modifyEntries l np (setInsert k), nextAddr := n' } (transit c k) := by
  constructor
  · exact nodup_keys_mapSet h.keysNodup k e1
  · intro k' e' hk'
    simp only [mapGet_mapSet] at hk'
    split at hk'
    · rename_i hkk; cases hk'; rw [he1k]; exact hkk
    · exact h.keyEq k' e' hk'
  · simp only [map_addr_modifyEntries]; exact hl_nodup
  · intro x hx
    obtain ⟨el, hel, rfl⟩ := mem_modifyEntries.1 hx
    rw [updEntries_addr]; exact hl_lt el hel
  · intro k' e' hk'
    simp only [mapGet_mapSet] at hk'
    split at hk'
    · rename_i hkk; cases hk'; subst hkk
      obtain ⟨el, hel, hp⟩ := hl_np
      refine ⟨updEntries np (setInsert k) el, mem_modifyEntries.2 ⟨el, hel, rfl⟩, ?_, ?_⟩
      · rw [updEntries_addr, hp]; exact he1f
      · rw [updEntries_entries_eq hp]; exact mem_setInsert.2 (Or.inl rfl)
    · obtain ⟨el0, hel0, hf, hin⟩ := h.inBucket k' e' hk'
      refine ⟨updEntries np (setInsert k) el0, mem_modifyEntries.2 ⟨el0, hl_sub el0 hel0, rfl⟩, ?_, ?_⟩
      · rw [updEntries_addr]; exact hf
      · by_cases hp : el0.addr = np
        · rw [updEntries_entries_eq hp]; exact mem_setInsert.2 (Or.inr hin)
        · rw [updEntries_of_ne hp]; exact hin
  · intro x hx k' hk'
    obtain ⟨el, hel, rfl⟩ := mem_modifyEntries.1 hx
    simp only [mapGet_mapSet, updEntries_addr]
    by_cases hkk : k = k'
    · subst hkk
      by_cases hp : el.addr = np
      · right; exact ⟨e1, by simp, by rw [hp]; exact he1f⟩
      · rw [updEntries_of_ne hp] at hk'
        rcases hl_sup el hel with hel' | ⟨h1, _⟩
        · rcases h.fromBucket el hel' k hk' with h0 | ⟨e0, he0, hf0⟩
          · cases h0
          · left; simp [transit, he0, hf0]
        · exact absurd h1 hp
    · right
      simp only [hkk, if_false]
      by_cases hp : el.addr = np
      · rw [updEntries_entries_eq hp] at hk'
        rcases mem_setInsert.1 hk' with h1 | h1
        · exact absurd h1.symm hkk
        · rcases hl_sup el hel with hel' | ⟨_, h2⟩
          · rcases h.fromBucket el hel' k' h1 with h0 | h0
            · cases h0
            · exact h0
          · rw [h2] at h1; simp at h1
      · rw [updEntries_of_ne hp] at hk'
        rcases hl_sup el hel with hel' | ⟨h1, _⟩
        · rcases h.fromBucket el hel' k' hk' with h0 | h0
          · cases h0
          · exact h0
        · exact absurd h1 hp
  · intro x hx
    obtain ⟨el, hel, rfl⟩ := mem_modifyEntries.1 hx
    have hnd : el.Value.entries.Nodup := by
      rcases hl_sup el hel with hel' | ⟨_, h2⟩
      · exact h.entriesNodup el hel'
      · rw [h2]; exact List.nodup_nil
    by_cases hp : el.addr = np
    · rw [updEntries_entries_eq hp]; exact nodup_setInsert hnd
    · rw [updEntries_of_ne hp]; exact hnd
  · intro x hx
    obtain ⟨el, hel, rfl⟩ := mem_modifyEntries.1 hx
    by_cases hp : el.addr = np
    · rw [updEntries_entries_eq hp]
      intro h0
      have : k ∈ setInsert k el.Value.entries := mem_setInsert.2 (Or.inl rfl)
      rw [h0] at this; simp at this
    · rw [updEntries_of_ne hp]
      rcases hl_sup el hel with hel' | ⟨h1, _⟩
      · exact h.nonempty el hel'
      · exact absurd h1 hp
  · simp only [map_freq_modifyEntries]; exact hl_sorted
  · intro x hx
    obtain ⟨el, hel, rfl⟩ := mem_modifyEntries.1 hx
    rw [updEntries_freq]; exact hl_pos el hel
  · intro k0 p0 hx
    have hk0 : k0 = k := by
      simp only [transit] at hx
      split at hx
      · cases hx
      · rename_i e he
        cases hf : e.freqNode with
        | none => simp [hf] at hx
        | some p => simp [hf] at hx; exact hx.1.symm
    subst hk0
    simp only [transit] at hx
    split at hx
    · cases hx
    · rename_i e he
      obtain ⟨el0, hel0, hf, hin⟩ := h.inBucket k0 e he
      rw [hf] at hx
      simp at hx
      refine ⟨updEntries np (setInsert k0) el0, mem_modifyEntries.2 ⟨el0, hl_sub el0 hel0, rfl⟩, ?_, ?_⟩
      · rw [updEntries_addr]; exact hx
      · by_cases hp : el0.addr = np
        · rw [updEntries_entries_eq hp]; exact mem_setInsert.2 (Or.inr hin)
        · rw [updEntries_of_ne hp]; exact hin
  · intro k0 p0 hx e' he'
    have hk0 : k0 = k := by
      simp only [transit] at hx
      split at hx
      · cases hx
      · rename_i e he
        cases hf : e.freqNode with
        | none => simp [hf] at hx
        | some p => simp [hf] at hx; exact hx.1.symm
    subst hk0
    simp only [mapGet_mapSet, if_true] at he'
    cases he'
    rw [he1f]
    intro h0
    cases h0
    exact hne _ hx rfl

theorem bucketFreq_of_mem {l : List (Element K)} (hn : (l.map Element.addr).Nodup)
    {el : Element K} (h : el ∈ l) : bucketFreq l el.addr = some el.Value.freq := by
  simp [bucketFreq, elemAt_of_mem hn h]

theorem bucketFreq_modifyEntries (l : List (Element K)) (p q : Nat) (f : List K → List K) :
    bucketFreq (modifyEntries l p f) q = bucketFreq l q := by
  simp only [bucketFreq, elemAt_modifyEntries, Option.map_map]
  congr 1
  funext el
  simp [updEntries_freq]

theorem bucketFreq_remFreqs {l : List (Element K)} (hn : (l.map Element.addr).Nodup)
    {p : Nat} {k : K} {el : Element K} (hel : el ∈ l)
    (hk : ∃ k' ∈ el.Value.entries, k' ≠ k) :
    bucketFreq (remFreqs l p k) el.addr = some el.Value.freq := by
  by_cases hp : el.addr = p
  · have hat := elemAt_of_mem hn hel
    rw [hp] at hat
    have hne : setDelete k el.Value.entries ≠ [] := by
      obtain ⟨k', hk', hkk⟩ := hk
      intro h0
      have : k' ∈ setDelete k el.Value.entries := mem_setDelete.2 ⟨hk', hkk⟩
      rw [h0] at this; simp at this
    simp only [bucketFreq, hp, elemAt_remFreqs_self hat, if_neg hne, Option.map_some', updEntries_freq]
  · simp only [bucketFreq, elemAt_remFreqs_ne hp, elemAt_of_mem hn hel, Option.map_some']

theorem bucketFreq_remFreqs_ne {l : List (Element K)} {p q : Nat} {k : K} (h : q ≠ p) :
    bucketFreq (remFreqs l p k) q = bucketFreq l q := by
  simp only [bucketFreq, elemAt_remFreqs_ne h]

/-- Source: `delNoLock`, on an entry of the key table. -/
theorem delNoLock_spec {c : Cache K} (h : Inv c) {k : K} {e : cacheEntry K}
    (hk : mapGet c.values k = some e) :
    ∃ p, e.freqNode = some p ∧
      delNoLock c e = .ok { c with values := mapDel c.values k,
                                   freqs := remFreqs c.freqs p k, len := c.len - 1 } ∧
      Inv { c with values := mapDel c.values k, freqs := remFreqs c.freqs p k, len := c.len - 1 } := by
  obtain ⟨el, hel, hf, hin⟩ := h.inBucket k e hk
  have hkey := h.keyEq k e hk
  refine ⟨el.addr, hf, ?_⟩
  have hwf : WF { c with values := mapDel c.values k } (some (k, el.addr)) := by
    constructor
    · exact nodup_keys_mapDel h.keysNodup k
    · intro k' e' hk'
      simp only [mapGet_mapDel] at hk'
      split at hk'
      · cases hk'
      · exact h.keyEq k' e' hk'
    · exact h.addrNodup
    · exact h.addrLt
    · intro k' e' hk'
      simp only [mapGet_mapDel] at hk'
      split at hk'
      · cases hk'
      · exact h.inBucket k' e' hk'
    · intro x hx k' hk'
      obtain ⟨e0, he0, hf0⟩ := h.fromBucket x hx k' hk'
      by_cases hkk : k = k'
      · subst hkk
        rw [hk] at he0; cases he0
        rw [hf] at hf0
        have hf1 : el.addr = x.addr := Option.some.inj hf0
        left; rw [hf1]
      · right; exact ⟨e0, by simp [mapGet_mapDel, hkk, he0], hf0⟩
    · exact h.entriesNodup
    · exact h.nonempty
    · exact h.sorted
    · exact h.freqPos
    · intro k0 p0 h0; cases h0; exact ⟨el, hel, rfl, hin⟩
    · intro k0 p0 h0 e' he'; cases h0
      simp [mapGet_mapDel] at he'
  obtain ⟨h1, h2⟩ := remEntry_spec hwf
  constructor
  · simp only [delNoLock, hkey, hf, h1]
  · refine WF.toInv (c := { c with values := mapDel c.values k, freqs := remFreqs c.freqs el.addr k, len := c.len - 1 }) ?_ ?_
    · exact { h2 with }
    · have := length_mapDel h.keysNodup (mapGet_eq_none_iff.not_left.1 (by rw [hk]; simp))
      have h3 := h.lenEq
      show c.len - 1 = ((mapDel c.values k).length : Int)
      omega

/-- Pairwise order after a new frequency is inserted behind `cf`. -/
theorem pairwise_insert {L1 L2 : List Int} {cf : Int}
    (h : (L1 ++ cf :: L2).Pairwise (fun a b => a < b))
    (h2 : ∀ x, L2.head? = some x → x ≠ cf + 1) :
    (L1 ++ cf :: (cf + 1) :: L2).Pairwise (fun a b => a < b) := by
  rw [List.pairwise_append] at h ⊢
  obtain ⟨hL1, hr, hx⟩ := h
  rw [List.pairwise_cons] at hr
  obtain ⟨hc, hL2⟩ := hr
  refine ⟨hL1, ?_, ?_⟩
  · rw [List.pairwise_cons]
    constructor
    · intro a ha
      rcases List.mem_cons.1 ha with ha | ha
      · omega
      · exact hc a ha
    · rw [List.pairwise_cons]
      refine ⟨?_, hL2⟩
      intro a ha
      cases L2 with
      | nil => simp at ha
      | cons y L2 =>
        have hy := hc y (by simp)
        have hy2 := h2 y (by simp)
        rcases List.mem_cons.1 ha with ha | ha
        · subst ha; omega
        · have := (List.pairwise_cons.1 hL2).1 a ha
          omega
  · intro a ha b hb
    rcases List.mem_cons.1 hb with hb | hb
    · subst hb; exact hx a ha b (by simp)
    · rcases List.mem_cons.1 hb with hb | hb
      · subst hb; have := hx a ha cf (by simp); omega
      · exact hx a ha b (by simp [hb])

theorem mem_updEntries_setInsert {np : Nat} {k k' : K} {el : Element K}
    (h : k' ∈ el.Value.entries) : k' ∈ (updEntries np (setInsert k) el).Value.entries := by
  by_cases hp : el.addr = np
  · rw [updEntries_entries_eq hp]; exact mem_setInsert.2 (Or.inr h)
  · rw [updEntries_of_ne hp]; exact h

/-- Facts shared by the two branches of `increment` on an entry of the key table,
once `k` has been added to the bucket at `np` of the extended list `l`. -/
theorem moveUp_finish {c : Cache K} (h : Inv c) {k : K} {e0 : cacheEntry K}
    (hk : mapGet c.values k = some e0) {cur : Element K}
    (hf0 : e0.freqNode = some cur.addr)
    (l : List (Element K)) (np : Nat) (e1 : cacheEntry K) (n' : Nat) (nel : Element K)
    (he1k : e1.key = k) (he1f : e1.freqNode = some np)
    (hl_nodup : (l.map Element.addr).Nodup)
    (hl_lt : ∀ el ∈ l, el.addr < n')
    (hl_sorted : (l.map (fun el => el.Value.freq)).Pairwise (fun a b => a < b))
    (hl_pos : ∀ el ∈ l, 1 ≤ el.Value.freq)
    (hl_sub : ∀ el ∈ c.freqs, el ∈ l)
    (hl_sup : ∀ el ∈ l, el ∈ c.freqs ∨ (el.addr = np ∧ el.Value.entries = []))
    (hnel : nel ∈ l) (hnela : nel.addr = np) (hnelf : nel.Value.freq = cur.Value.freq + 1)
    (hne : np ≠ cur.addr) :
    ∃ c', remEntry { c with values := mapSet c.values k e1,
                            freqs := modifyEntries l np (setInsert k), nextAddr := n' }
            (some cur.addr) k = .ok c' ∧ Inv c' ∧
      c'.values = mapSet c.values k e1 ∧
      c'.len = c.len ∧ c'.maxLen = c.maxLen ∧ c'.EvictionChannel = c.EvictionChannel ∧
      c'.cleanCycle = c.cleanCycle ∧
      bucketFreq c'.freqs np = some (cur.Value.freq + 1) ∧
      (∀ el ∈ c.freqs, (∃ k' ∈ el.Value.entries, k' ≠ k) →
        bucketFreq c'.freqs el.addr = some el.Value.freq) := by
  have htr : transit c k = some (k, cur.addr) := by simp [transit, hk, hf0]
  have hwf := addKey_WF h.toWF l np k e1 n' he1k he1f hl_nodup hl_lt hl_sorted hl_pos hl_sub
    hl_sup ⟨nel, hnel, hnela⟩ (by
      intro p0 hp0
      rw [htr] at hp0
      have : cur.addr = p0 := by simpa using hp0
      rw [← this]; exact hne)
  rw [htr] at hwf
  obtain ⟨h1, h2⟩ := remEntry_spec hwf
  have hn2 : ((modifyEntries l np (setInsert k)).map Element.addr).Nodup := by
    rw [map_addr_modifyEntries]; exact hl_nodup
  refine ⟨_, h1, ?_, rfl, rfl, rfl, rfl, rfl, ?_, ?_⟩
  · refine WF.toInv h2 ?_
    show c.len = ((mapSet c.values k e1).length : Int)
    have hmem : k ∈ c.values.map Prod.fst := by
      by_contra hc
      rw [mapGet_eq_none_iff.2 hc] at hk; cases hk
    rw [length_mapSet, if_pos hmem]
    exact h.lenEq
  · show bucketFreq (remFreqs (modifyEntries l np (setInsert k)) cur.addr k) np = _
    rw [bucketFreq_remFreqs_ne hne, bucketFreq_modifyEntries, ← hnela,
      bucketFreq_of_mem hl_nodup hnel, hnelf]
  · intro el hel ⟨k', hk', hkk⟩
    show bucketFreq (remFreqs (modifyEntries l np (setInsert k)) cur.addr k) el.addr = _
    have hmem : updEntries np (setInsert k) el ∈ modifyEntries l np (setInsert k) :=
      mem_modifyEntries.2 ⟨el, hl_sub el hel, rfl⟩
    have := bucketFreq_remFreqs (p := cur.addr) (k := k) hn2 hmem
      ⟨k', mem_updEntries_setInsert hk', hkk⟩
    rw [updEntries_addr, updEntries_freq] at this
    exact this

/-- Source: `increment`, on an entry of the key table (the branch `move up`). -/
theorem increment_up {c : Cache K} (h : Inv c) {k : K} {e0 e : cacheEntry K} (now : Int)
    (hk : mapGet c.values k = some e0) (hek : e.key = k) (hef : e.freqNode = e0.freqNode) :
    ∃ c' np cur, increment c e now = .ok c' ∧ Inv c' ∧
      cur ∈ c.freqs ∧ e0.freqNode = some cur.addr ∧
      c'.values = mapSet c.values k { e with freqNode := some np, visitAt := now } ∧
      c'.len = c.len ∧ c'.maxLen = c.maxLen ∧ c'.EvictionChannel = c.EvictionChannel ∧
      c'.cleanCycle = c.cleanCycle ∧
      bucketFreq c'.freqs np = some (cur.Value.freq + 1) ∧
      (∀ el ∈ c.freqs, (∃ k' ∈ el.Value.entries, k' ≠ k) →
        bucketFreq c'.freqs el.addr = some el.Value.freq) := by
  subst hek
  obtain ⟨cur, hcur, hf0, hin⟩ := h.inBucket _ e0 hk
  have hat : elemAt c.freqs cur.addr = some cur := elemAt_of_mem h.addrNodup hcur
  obtain ⟨L1, L2, hsplit, hL1⟩ := elemAt_split hat
  have hnext : Next c.freqs cur.addr = L2.head? := by
    rw [hsplit]; exact Next_append hL1 rfl
  have hfn : e.freqNode = some cur.addr := hef.trans hf0
  unfold increment
  simp only [hfn, hat, hnext]
  by_cases hnb : noBucketFor L2.head? (cur.Value.freq + 1) = true
  · -- a new bucket is spliced in behind the current one
    simp only [hnb, if_true]
    have hins : InsertAfter { addr := c.nextAddr, Value := { entries := [], freq := cur.Value.freq + 1 } }
        c.freqs cur.addr = some (L1 ++ cur :: { addr := c.nextAddr, Value := { entries := [], freq := cur.Value.freq + 1 } } :: L2) := by
      rw [hsplit]; exact InsertAfter_append hL1 rfl
    simp only [hins]
    have hperm : (L1 ++ cur :: ({ addr := c.nextAddr, Value := { entries := [], freq := cur.Value.freq + 1 } } : Element K) :: L2).Perm
        (({ addr := c.nextAddr, Value := { entries := [], freq := cur.Value.freq + 1 } } : Element K) :: c.freqs) := by
      rw [hsplit]
      have h1 : (cur :: ({ addr := c.nextAddr, Value := { entries := [], freq := cur.Value.freq + 1 } } : Element K) :: L2).Perm
          (({ addr := c.nextAddr, Value := { entries := [], freq := cur.Value.freq + 1 } } : Element K) :: cur :: L2) :=
        List.Perm.swap _ _ _
      exact (List.Perm.append_left L1 h1).trans List.perm_middle
    have hmem : ∀ el, el ∈ (L1 ++ cur :: ({ addr := c.nextAddr, Value := { entries := [], freq := cur.Value.freq + 1 } } : Element K) :: L2) ↔
        el = { addr := c.nextAddr, Value := { entries := [], freq := cur.Value.freq + 1 } } ∨ el ∈ c.freqs := by
      intro el; rw [hperm.mem_iff]; simp
    obtain ⟨c', hc'⟩ := moveUp_finish h hk hf0
      (L1 ++ cur :: { addr := c.nextAddr, Value := { entries := [], freq := cur.Value.freq + 1 } } :: L2)
      c.nextAddr { e with freqNode := some c.nextAddr, visitAt := now } (c.nextAddr + 1)
      { addr := c.nextAddr, Value := { entries := [], freq := cur.Value.freq + 1 } }
      rfl rfl
      (by
        rw [(hperm.map Element.addr).nodup_iff]
        simp only [List.map_cons, List.nodup_cons]
        refine ⟨?_, h.addrNodup⟩
        intro hc
        obtain ⟨x, hx, hxa⟩ := List.mem_map.1 hc
        have := h.addrLt x hx
        omega)
      (by
        intro el hel
        rcases (hmem el).1 hel with h0 | h0
        · subst h0; simp
        · have := h.addrLt el h0; omega)
      (by
        have hs := h.sorted
        rw [hsplit] at hs
        simp only [List.map_append, List.map_cons] at hs ⊢
        apply pairwise_insert hs
        intro x hx
        cases L2 with
        | nil => simp at hx
        | cons y L2 =>
          simp at hx; subst hx
          simpa [noBucketFor] using hnb)
      (by
        intro el hel
        rcases (hmem el).1 hel with h0 | h0
        · subst h0; have := h.freqPos cur hcur; simp; omega
        · exact h.freqPos el h0)
      (fun el hel => (hmem el).2 (Or.inr hel))
      (by
        intro el hel
        rcases (hmem el).1 hel with h0 | h0
        · subst h0; right; simp
        · left; exact h0)
      ((hmem _).2 (Or.inl rfl)) rfl rfl
      (by have := h.addrLt cur hcur; omega)
    exact ⟨c', c.nextAddr, cur, hc'.1, hc'.2.1, hcur, hf0, hc'.2.2⟩
  · -- the next bucket has the wanted frequency
    have hnb' : noBucketFor L2.head? (cur.Value.freq + 1) = false := by simpa using hnb
    simp only [hnb', Bool.false_eq_true, if_false]
    cases hL2 : L2 with
    | nil => simp [hL2, noBucketFor] at hnb
    | cons nxt L2' =>
      simp only [hL2, List.head?_cons, noBucketFor, decide_eq_true_eq, ne_eq, not_not] at hnb
      simp only [List.head?_cons]
      have hnxt : nxt ∈ c.freqs := by rw [hsplit, hL2]; simp
      have hne : nxt.addr ≠ cur.addr := by
        have hn := h.addrNodup
        rw [hsplit, hL2] at hn
        simp only [List.map_append, List.map_cons] at hn
        have := (List.nodup_append.1 hn).2.1
        rw [List.nodup_cons] at this
        intro hc
        exact this.1 (by rw [← hc]; simp)
      obtain ⟨c', hc'⟩ := moveUp_finish h hk hf0 c.freqs nxt.addr
        { e with freqNode := some nxt.addr, visitAt := now } c.nextAddr nxt rfl rfl
        h.addrNodup h.addrLt h.sorted h.freqPos (fun el hel => hel) (fun el hel => Or.inl hel)
        hnxt rfl hnb hne
      exact ⟨c', nxt.addr, cur, hc'.1, hc'.2.1, hcur, hf0, hc'.2.2⟩

theorem mapSet_mapSet {V : Type} (m : List (K × V)) (k : K) (v w : V) :
    mapSet (mapSet m k v) k w = mapSet m k w := by
  induction m with
  | nil => simp [mapSet]
  | cons p m ih =>
    obtain ⟨k0, v0⟩ := p
    by_cases h : k0 = k
    · simp [mapSet, h]
    · simp [mapSet, h, ih]

/-- Source: `increment`, on a freshly created entry (the branch `new entry`), called
by `Set` right after `c.values[key] = e`. -/
theorem increment_new {c : Cache K} (h : Inv c) {k : K} (hk : mapGet c.values k = none)
    (value : Value) (expireAt : Option Int) (now : Int) :
    ∃ c' np, increment
        { c with values := mapSet c.values k { key := k, value := value, freqNode := none, expireAt := expireAt, visitAt := 0 } }
        { key := k, value := value, freqNode := none, expireAt := expireAt, visitAt := 0 } now
        = .ok c' ∧
      Inv { c' with len := c'.len + 1 } ∧
      c'.values = mapSet c.values k
        { key := k, value := value, freqNode := some np, expireAt := expireAt, visitAt := now } ∧
      c'.len = c.len ∧ c'.maxLen = c.maxLen ∧ c'.EvictionChannel = c.EvictionChannel ∧
      c'.cleanCycle = c.cleanCycle ∧
      bucketFreq c'.freqs np = some 1 ∧
      (∀ el ∈ c.freqs, bucketFreq c'.freqs el.addr = some el.Value.freq) := by
  have htr : transit c k = none := by simp [transit, hk]
  have hnotin : k ∉ c.values.map Prod.fst := mapGet_eq_none_iff.1 hk
  have hlen : ∀ e1 : cacheEntry K, (c.len + 1 : Int) = ((mapSet c.values k e1).length : Int) := by
    intro e1
    rw [length_mapSet, if_neg hnotin]
    have := h.lenEq
    push_cast; omega
  unfold increment
  simp only []
  by_cases hnb : noBucketFor (Front c.freqs) 1 = true
  · simp only [hnb, if_true, PushFront, mapSet_mapSet]
    have hmem : ∀ el, el ∈ (({ addr := c.nextAddr, Value := { entries := [], freq := 1 } } : Element K) :: c.freqs) ↔
        el = { addr := c.nextAddr, Value := { entries := [], freq := 1 } } ∨ el ∈ c.freqs := by
      intro el; simp
    have hl_nodup : ((({ addr := c.nextAddr, Value := { entries := [], freq := 1 } } : Element K) :: c.freqs).map Element.addr).Nodup := by
      simp only [List.map_cons, List.nodup_cons]
      refine ⟨?_, h.addrNodup⟩
      intro hc
      obtain ⟨x, hx, hxa⟩ := List.mem_map.1 hc
      have := h.addrLt x hx
      omega
    have hwf := addKey_WF h.toWF
      (({ addr := c.nextAddr, Value := { entries := [], freq := 1 } } : Element K) :: c.freqs)
      c.nextAddr k
      { key := k, value := value, freqNode := some c.nextAddr, expireAt := expireAt, visitAt := now }
      (c.nextAddr + 1) rfl rfl hl_nodup
      (by
        intro el hel
        rcases (hmem el).1 hel with h0 | h0
        · subst h0; simp
        · have := h.addrLt el h0; omega)
      (by
        simp only [List.map_cons, List.pairwise_cons]
        refine ⟨?_, h.sorted⟩
        intro a ha
        obtain ⟨x, hx, rfl⟩ := List.mem_map.1 ha
        have hs := h.sorted
        cases hfr : c.freqs with
        | nil => rw [hfr] at hx; simp at hx
        | cons y L =>
          rw [hfr] at hs hx
          simp only [hfr, Front, List.head?_cons, noBucketFor, decide_eq_true_eq] at hnb
          have hy := h.freqPos y (by rw [hfr]; simp)
          rcases List.mem_cons.1 hx with hx | hx
          · subst hx; omega
          · simp only [List.map_cons, List.pairwise_cons] at hs
            have := hs.1 _ (List.mem_map_of_mem (fun el : Element K => el.Value.freq) hx)
            simp only [] at this
            omega)
      (by
        intro el hel
        rcases (hmem el).1 hel with h0 | h0
        · subst h0; simp
        · exact h.freqPos el h0)
      (fun el hel => (hmem el).2 (Or.inr hel))
      (by
        intro el hel
        rcases (hmem el).1 hel with h0 | h0
        · subst h0; right; simp
        · left; exact h0)
      ⟨_, (hmem _).2 (Or.inl rfl), rfl⟩
      (by intro p0 hp0; rw [htr] at hp0; cases hp0)
    rw [htr] at hwf
    refine ⟨_, c.nextAddr, rfl, ?_, rfl, rfl, rfl, rfl, rfl, ?_, ?_⟩
    · exact WF.toInv (c := { c with values := mapSet c.values k _, freqs := _, nextAddr := _, len := c.len + 1 })
        { hwf with } (hlen _)
    · show bucketFreq (modifyEntries _ _ _) _ = _
      rw [bucketFreq_modifyEntries]
      have hfresh : ({ addr := c.nextAddr, Value := { entries := [], freq := 1 } } : Element K) ∈
          (({ addr := c.nextAddr, Value := { entries := [], freq := 1 } } : Element K) :: c.freqs) :=
        (hmem _).2 (Or.inl rfl)
      exact bucketFreq_of_mem hl_nodup hfresh
    · intro el hel
      show bucketFreq (modifyEntries _ _ _) _ = _
      rw [bucketFreq_modifyEntries]
      exact bucketFreq_of_mem hl_nodup ((hmem _).2 (Or.inr hel))
  · have hnb' : noBucketFor (Front c.freqs) 1 = false := by simpa using hnb
    simp only [hnb', Bool.false_eq_true, if_false]
    cases hfr : Front c.freqs with
    | none => simp [hfr, noBucketFor] at hnb
    | some np =>
      simp only [hfr, noBucketFor, decide_eq_true_eq, ne_eq, not_not] at hnb
      simp only [mapSet_mapSet]
      have hnp : np ∈ c.freqs := by
        unfold Front at hfr
        exact List.mem_of_mem_head? hfr
      have hwf := addKey_WF h.toWF c.freqs np.addr k
        { key := k, value := value, freqNode := some np.addr, expireAt := expireAt, visitAt := now }
        c.nextAddr rfl rfl h.addrNodup h.addrLt h.sorted h.freqPos (fun el hel => hel)
        (fun el hel => Or.inl hel) ⟨np, hnp, rfl⟩
        (by intro p0 hp0; rw [htr] at hp0; cases hp0)
      rw [htr] at hwf
      refine ⟨_, np.addr, rfl, ?_, rfl, rfl, rfl, rfl, rfl, ?_, ?_⟩
      · exact WF.toInv (c := { c with values := mapSet c.values k _, freqs := _, len := c.len + 1 })
          { hwf with } (hlen _)
      · show bucketFreq (modifyEntries _ _ _) _ = _
        rw [bucketFreq_modifyEntries, bucketFreq_of_mem h.addrNodup hnp, hnb]
      · intro el hel
        show bucketFreq (modifyEntries _ _ _) _ = _
        rw [bucketFreq_modifyEntries]
        exact bucketFreq_of_mem h.addrNodup hel

theorem Evicted.refl (c : Cache K) : Evicted c c [] :=
  { values := by intro k; simp, evKeys := by simp, evVals := by simp,
    chan := by cases c.EvictionChannel <;> simp,
    room := by intro ch _; simp,
    len := by simp, maxLen := rfl,
    cleanCycle := rfl, freq := fun _ _ => rfl, low := by simp }

theorem Evicted.trans {c c1 c2 : Cache K} {evs1 evs2 : List (Eviction K)}
    (h1 : Evicted c c1 evs1) (h2 : Evicted c1 c2 evs2) : Evicted c c2 (evs1 ++ evs2) := by
  have hin1 : ∀ k, mapGet c1.values k ≠ none → k ∉ evs1.map Eviction.Key := by
    intro k hk hc
    rw [h1.values, if_pos hc] at hk; exact hk rfl
  have hin2 : ∀ k, mapGet c2.values k ≠ none → mapGet c1.values k ≠ none := by
    intro k hk hc
    rw [h2.values] at hk
    split at hk
    · exact hk rfl
    · exact hk hc
  constructor
  · intro k
    rw [h2.values, h1.values]
    simp only [List.map_append, List.mem_append]
    by_cases ha : k ∈ evs1.map Eviction.Key <;> by_cases hb : k ∈ evs2.map Eviction.Key <;>
      simp [ha, hb]
  · rw [List.map_append, List.nodup_append]
    refine ⟨h1.evKeys, h2.evKeys, ?_⟩
    intro a ha hb
    obtain ⟨ev, hev, rfl⟩ := List.mem_map.1 hb
    obtain ⟨e, he, _⟩ := h2.evVals ev hev
    exact hin1 ev.Key (by rw [he]; simp) ha
  · intro ev hev
    rcases List.mem_append.1 hev with hev | hev
    · exact h1.evVals ev hev
    · obtain ⟨e, he, hv⟩ := h2.evVals ev hev
      refine ⟨e, ?_, hv⟩
      have := hin1 ev.Key (by rw [he]; simp)
      rw [h1.values, if_neg this] at he
      exact he
  · rw [h2.chan, h1.chan]
    cases c.EvictionChannel <;> simp [Nat.sub_sub]
  · intro ch hch
    have r1 := h1.room ch hch
    have hc1 := h1.chan
    rw [hch] at hc1
    have r2 := h2.room _ hc1
    simp only [List.length_append] at r2 ⊢
    push_cast at r2 ⊢
    omega
  · rw [h2.len, h1.len]; simp; omega
  · rw [h2.maxLen, h1.maxLen]
  · rw [h2.cleanCycle, h1.cleanCycle]
  · intro k hk
    rw [h2.freq k hk, h1.freq k (hin2 k hk)]
  · intro ev hev k' hk' f f' hf hf'
    have hk1 := hin2 k' hk'
    rcases List.mem_append.1 hev with hev | hev
    · exact h1.low ev hev k' hk1 f f' hf hf'
    · obtain ⟨e, he, _⟩ := h2.evVals ev hev
      have hne : mapGet c1.values ev.Key ≠ none := by rw [he]; simp
      apply h2.low ev hev k' hk' f f'
      · rw [h1.freq _ hne]; exact hf
      · rw [h1.freq _ hk1]; exact hf'

theorem announced_values (c : Cache K) (e : cacheEntry K) :
    (announced c e).values = c.values := rfl
theorem announced_freqs (c : Cache K) (e : cacheEntry K) :
    (announced c e).freqs = c.freqs := rfl
theorem announced_len (c : Cache K) (e : cacheEntry K) : (announced c e).len = c.len := rfl
theorem announced_maxLen (c : Cache K) (e : cacheEntry K) :
    (announced c e).maxLen = c.maxLen := rfl
theorem announced_cleanCycle (c : Cache K) (e : cacheEntry K) :
    (announced c e).cleanCycle = c.cleanCycle := rfl
theorem announced_nextAddr (c : Cache K) (e : cacheEntry K) :
    (announced c e).nextAddr = c.nextAddr := rfl
theorem announced_chan (c : Cache K) (e : cacheEntry K) :
    (announced c e).EvictionChannel =
      c.EvictionChannel.map (fun ch =>
        { sent := ch.sent ++ [{ Key := e.key, Value := e.value }], room := ch.room - 1 }) := rfl

/-- The send of `notify` goes through when the channel is nil or has room. -/
theorem notify_ok {c : Cache K} (hroom : Room c 1) (e : cacheEntry K) :
    notify c e = .ok (announced c e) := by
  unfold notify announced
  cases hch : c.EvictionChannel with
  | none => simp only [Option.map_none']; rw [← hch]
  | some ch =>
    have := hroom ch hch
    have hne : ¬ ch.room = 0 := by omega
    simp only [hne, if_false, Option.map_some']

/-- The send of `notify` blocks when the channel has no room. -/
theorem notify_blocked {c : Cache K} {ch : Chan K} (hch : c.EvictionChannel = some ch)
    (hroom : ch.room = 0) (e : cacheEntry K) : notify c e = .error .blocked := by
  unfold notify
  simp only [hch, hroom, if_true]

/-- The invariant does not mention the eviction channel. -/
theorem Inv.congr {c c' : Cache K} (h : Inv c) (hv : c'.values = c.values)
    (hf : c'.freqs = c.freqs) (hl : c'.len = c.len) (hn : c'.nextAddr = c.nextAddr) : Inv c' := by
  constructor
  · rw [hv]; exact h.keysNodup
  · rw [hv]; exact h.keyEq
  · rw [hv, hl]; exact h.lenEq
  · rw [hf]; exact h.addrNodup
  · rw [hf, hn]; exact h.addrLt
  · rw [hv, hf]; exact h.inBucket
  · rw [hv, hf]; exact h.fromBucket
  · rw [hf]; exact h.entriesNodup
  · rw [hf]; exact h.nonempty
  · rw [hf]; exact h.sorted
  · rw [hf]; exact h.freqPos

theorem freqOf_eq {c : Cache K} (h : Inv c) {k : K} {e : cacheEntry K}
    (hk : mapGet c.values k = some e) :
    ∃ el ∈ c.freqs, e.freqNode = some el.addr ∧ k ∈ el.Value.entries ∧
      freqOf c k = some el.Value.freq := by
  obtain ⟨el, hel, hf, hin⟩ := h.inBucket k e hk
  refine ⟨el, hel, hf, hin, ?_⟩
  simp [freqOf, hk, hf, bucketFreq_of_mem h.addrNodup hel]

theorem freqOf_of_bucket {c : Cache K} (h : Inv c) {el : Element K} (hel : el ∈ c.freqs)
    {k : K} (hk : k ∈ el.Value.entries) : freqOf c k = some el.Value.freq := by
  obtain ⟨e, he, hf⟩ := h.fromBucket el hel k hk
  simp [freqOf, he, hf, bucketFreq_of_mem h.addrNodup hel]

theorem Front_le {l : List (Element K)} {el : Element K} (hfr : Front l = some el)
    (hs : (l.map (fun el => el.Value.freq)).Pairwise (fun a b => a < b)) :
    ∀ x ∈ l, el.Value.freq ≤ x.Value.freq := by
  cases l with
  | nil => simp [Front] at hfr
  | cons y L =>
    simp only [Front, List.head?_cons, Option.some.injEq] at hfr
    subst hfr
    intro x hx
    rcases List.mem_cons.1 hx with hx | hx
    · subst hx; exact le_refl _
    · simp only [List.map_cons, List.pairwise_cons] at hs
      have := hs.1 _ (List.mem_map_of_mem (fun el : Element K => el.Value.freq) hx)
      simp only [] at this
      omega

theorem Front_remFreqs {l : List (Element K)} {el : Element K} (hfr : Front l = some el)
    {k : K} (hne : setDelete k el.Value.entries ≠ []) :
    Front (remFreqs l el.addr k) = some (updEntries el.addr (setDelete k) el) := by
  cases l with
  | nil => simp [Front] at hfr
  | cons y L =>
    simp only [Front, List.head?_cons, Option.some.injEq] at hfr
    subst hfr
    have hat : elemAt (y :: L) y.addr = some y := by simp [elemAt]
    simp only [remFreqs, hat, List.length_eq_zero, if_neg hne, modifyEntries, List.map_cons, Front,
      List.head?_cons]

/-- One eviction step: the entry `k` of the lowest bucket is announced and deleted. -/
theorem evict_one {c : Cache K} (h : Inv c) {el : Element K} (hfr : Front c.freqs = some el)
    {k : K} (hk : k ∈ el.Value.entries) (hroom : Room c 1) :
    ∃ e c1, mapGet c.values k = some e ∧ notify c e = .ok (announced c e) ∧
      delNoLock (announced c e) e = .ok c1 ∧ Inv c1 ∧
      Evicted c c1 [{ Key := k, Value := e.value }] ∧
      c1.freqs = remFreqs c.freqs el.addr k := by
  have hel : el ∈ c.freqs := List.mem_of_mem_head? hfr
  obtain ⟨e, he, hf⟩ := h.fromBucket el hel k hk
  have hkey := h.keyEq k e he
  have hInv' : Inv (announced c e) :=
    h.congr (announced_values c e) (announced_freqs c e) (announced_len c e) (announced_nextAddr c e)
  have he' : mapGet (announced c e).values k = some e := by rw [announced_values]; exact he
  obtain ⟨p, hp, hdel, hInv1⟩ := delNoLock_spec hInv' he'
  have hpe : p = el.addr := by rw [hf] at hp; exact (Option.some.inj hp).symm
  subst hpe
  refine ⟨e, _, he, notify_ok hroom e, hdel, hInv1, ?_, ?_⟩
  · constructor
    · intro k'
      simp only [announced_values, mapGet_mapDel, List.map_cons, List.map_nil, List.mem_singleton]
      by_cases hkk : k = k'
      · simp [hkk]
      · simp [hkk, Ne.symm hkk]
    · simp
    · intro ev hev
      simp only [List.mem_singleton] at hev
      subst hev
      exact ⟨e, he, rfl⟩
    · simp only [announced_chan, hkey, List.length_singleton]
    · simpa using hroom
    · simp only [announced_len, List.length_singleton, Nat.cast_one]
    · simp only [announced_maxLen]
    · simp only [announced_cleanCycle]
    · intro k' hk'
      simp only [announced_values, announced_freqs, mapGet_mapDel] at hk' ⊢
      have hkk : k ≠ k' := by
        intro hc; simp [hc] at hk'
      simp only [hkk, if_false] at hk'
      cases he' : mapGet c.values k' with
      | none => exact absurd he' hk'
      | some e' =>
        obtain ⟨el', hel', hf', hin', hfq⟩ := freqOf_eq h he'
        rw [hfq]
        simp only [freqOf, mapGet_mapDel, hkk, if_false, he', hf', Option.some_bind, announced_values,
          announced_freqs]
        exact bucketFreq_remFreqs h.addrNodup hel' ⟨k', hin', Ne.symm hkk⟩
    · intro ev hev k' hk' f f' hf1 hf2
      simp only [List.mem_singleton] at hev
      subst hev
      simp only [announced_values, mapGet_mapDel] at hk'
      have hkk : k ≠ k' := by
        intro hc; simp [hc] at hk'
      simp only [hkk, if_false] at hk'
      cases he' : mapGet c.values k' with
      | none => exact absurd he' hk'
      | some e' =>
        obtain ⟨el', hel', _, _, hfq⟩ := freqOf_eq h he'
        rw [freqOf_of_bucket h hel hk] at hf1
        rw [hfq] at hf2
        cases hf1; cases hf2
        exact Front_le hfr h.sorted el' hel'
  · simp only [announced_freqs]

/-- What is left of the room of the channel after evictions. -/
theorem Evicted.room_left {c c' : Cache K} {evs : List (Eviction K)} (h : Evicted c c' evs)
    {n : Int} (hroom : Room c n) : Room c' (n - evs.length) := by
  intro ch' hch'
  have hc := h.chan
  rw [hch'] at hc
  cases hch : c.EvictionChannel with
  | none => rw [hch] at hc; cases hc
  | some ch =>
    rw [hch] at hc
    simp only [Option.map_some', Option.some.injEq] at hc
    have r1 := h.room ch hch
    have r2 := hroom ch hch
    rw [hc]
    simp only []
    omega

/-- A cache whose channel lacks room has a channel without that room. -/
theorem exists_chan_of_not_Room {c : Cache K} {n : Int} (h : ¬ Room c n) :
    ∃ ch, c.EvictionChannel = some ch ∧ (ch.room : Int) < n := by
  unfold Room at h
  push_neg at h
  exact h

/-- The inner loop of `evictNoLock` over keys `L` of the lowest bucket: it evicts, or
a send blocks for lack of room. -/
theorem evictBucket_spec (count : Int) : ∀ (L : List K) (c : Cache K) (i ev : Int),
    Inv c → L.Nodup →
    (∀ k ∈ L, ∃ el, Front c.freqs = some el ∧ k ∈ el.Value.entries) →
    (∃ c' evs, evictBucket count L c i ev = .ok (c', i + evs.length, ev + evs.length) ∧
      Inv c' ∧ Evicted c c' evs ∧
      (evs.length : Int) = max 0 (min (L.length : Int) (count - i))) ∨
    (evictBucket count L c i ev = .error .blocked ∧ ¬ Room c (count - i)) := by
  intro L
  induction L with
  | nil =>
    intro c i ev h _ _
    exact Or.inl ⟨c, [], by simp [evictBucket], h, Evicted.refl c, by simp⟩
  | cons k rest ih =>
    intro c i ev h hnd hL
    rw [List.nodup_cons] at hnd
    by_cases hi : i < count
    · obtain ⟨el, hfr, hk⟩ := hL k (by simp)
      by_cases hroom : Room c 1
      · obtain ⟨e, c1, he, hsend, hdel, hInv1, hEv1, hfreqs1⟩ := evict_one h hfr hk hroom
        have hrest : ∀ k' ∈ rest, ∃ el', Front c1.freqs = some el' ∧ k' ∈ el'.Value.entries := by
          intro k' hk'
          obtain ⟨el0, hfr0, hk0⟩ := hL k' (by simp [hk'])
          rw [hfr] at hfr0; cases hfr0
          have hkk : k' ≠ k := fun hc => hnd.1 (hc ▸ hk')
          have hmem : k' ∈ setDelete k el.Value.entries := mem_setDelete.2 ⟨hk0, hkk⟩
          have hne : setDelete k el.Value.entries ≠ [] := by
            intro h0; rw [h0] at hmem; simp at hmem
          refine ⟨_, by rw [hfreqs1]; exact Front_remFreqs hfr hne, ?_⟩
          rw [updEntries_entries_eq rfl]; exact hmem
        rcases ih c1 (i + 1) (ev + 1) hInv1 hnd.2 hrest with
          ⟨c', evs, hrun, hInv', hEv', hlen⟩ | ⟨hrun, hno⟩
        · left
          refine ⟨c', { Key := k, Value := e.value } :: evs, ?_, hInv', hEv1.trans hEv', ?_⟩
          · simp only [evictBucket, hi, if_true, he, hsend, hdel, hrun, List.length_cons]
            have e1 : i + 1 + (evs.length : Int) = i + ((evs.length + 1 : Nat) : Int) := by
              push_cast; omega
            have e2 : ev + 1 + (evs.length : Int) = ev + ((evs.length + 1 : Nat) : Int) := by
              push_cast; omega
            rw [e1, e2]
          · simp only [List.length_cons]; push_cast; omega
        · right
          refine ⟨by simp only [evictBucket, hi, if_true, he, hsend, hdel, hrun], ?_⟩
          intro hR
          apply hno
          have := hEv1.room_left hR
          simp only [List.length_singleton, Nat.cast_one] at this
          intro ch hch
          have := this ch hch
          omega
      · right
        obtain ⟨ch, hch, hlt⟩ := exists_chan_of_not_Room hroom
        have hel : el ∈ c.freqs := List.mem_of_mem_head? hfr
        obtain ⟨e, he, _⟩ := h.fromBucket el hel k hk
        have h0 : ch.room = 0 := by omega
        refine ⟨by simp only [evictBucket, hi, if_true, he, notify_blocked hch h0], ?_⟩
        intro hR
        have := hR ch hch
        omega
    · rcases ih c i ev h hnd.2 (fun k' hk' => hL k' (by simp [hk'])) with
        ⟨c', evs, hrun, hInv', hEv', hlen⟩ | ⟨hrun, hno⟩
      · left
        refine ⟨c', evs, ?_, hInv', hEv', ?_⟩
        · simp only [evictBucket, hi, if_false, hrun]
        · simp only [List.length_cons]; push_cast; omega
      · right
        exact ⟨by simp only [evictBucket, hi, if_false, hrun], hno⟩

theorem values_nil_of_freqs_nil {c : Cache K} (h : Inv c) (hf : c.freqs = []) : c.values = [] := by
  cases hv : c.values with
  | nil => rfl
  | cons p m =>
    have : mapGet c.values p.1 = some p.2 := by
      apply mapGet_of_mem h.keysNodup
      rw [hv]; simp
    obtain ⟨el, hel, _⟩ := h.inBucket _ _ this
    rw [hf] at hel; simp at hel

theorem Inv.len_nonneg {c : Cache K} (h : Inv c) : 0 ≤ c.len := by
  rw [h.lenEq]; exact Int.natCast_nonneg _

/-- The outer loop of `evictNoLock`: it returns after evicting `count - i` entries,
or it is still spinning when the fuel is used up, or a send blocks for lack of room. -/
theorem evictLoop_spec (pick : List K → List K) (hpick : ∀ l, (pick l).Perm l) (count : Int) :
    ∀ (fuel : Nat) (c : Cache K) (i ev : Int), Inv c →
    (∃ c' evs, evictLoop pick count fuel c i ev = .ok (c', ev + evs.length) ∧ Inv c' ∧
        Evicted c c' evs ∧ (evs.length : Int) = max 0 (count - i)) ∨
    (evictLoop pick count fuel c i ev = .error .spin ∧
        ((fuel : Int) < count - i ∨ c.len < count - i)) ∨
    (evictLoop pick count fuel c i ev = .error .blocked ∧ ¬ Room c (count - i)) := by
  intro fuel
  induction fuel with
  | zero =>
    intro c i ev h
    by_cases hi : i < count
    · right; left; exact ⟨by simp [evictLoop, hi], Or.inl (by simp; omega)⟩
    · left; exact ⟨c, [], by simp [evictLoop, hi], h, Evicted.refl c, by simp; omega⟩
  | succ fuel ih =>
    intro c i ev h
    by_cases hi : i < count
    · cases hfr : Front c.freqs with
      | none =>
        have hnil : c.freqs = [] := by
          cases hl : c.freqs with
          | nil => rfl
          | cons y L => rw [hl] at hfr; simp [Front] at hfr
        have hlen : c.len = 0 := by
          rw [h.lenEq, values_nil_of_freqs_nil h hnil]; rfl
        have heq : evictLoop pick count (fuel + 1) c i ev = evictLoop pick count fuel c i ev := by
          simp only [evictLoop, hi, if_true, hfr]
        rw [heq]
        rcases ih c i ev h with h1 | ⟨h1, _⟩ | h1
        · left; exact h1
        · right; left; exact ⟨h1, Or.inr (by omega)⟩
        · right; right; exact h1
      | some place =>
        have hplace : place ∈ c.freqs := List.mem_of_mem_head? hfr
        have hperm := hpick place.Value.entries
        have hnd : (pick place.Value.entries).Nodup :=
          hperm.nodup_iff.2 (h.entriesNodup place hplace)
        rcases evictBucket_spec count (pick place.Value.entries) c i ev h hnd
            (fun k hk => ⟨place, hfr, hperm.mem_iff.1 hk⟩) with
          ⟨c1, evs1, hrun1, hInv1, hEv1, hlen1⟩ | ⟨hrun1, hno1⟩
        · have hpos : 0 < (pick place.Value.entries).length := by
            rw [hperm.length_eq]
            exact List.length_pos.2 (h.nonempty place hplace)
          have heq : evictLoop pick count (fuel + 1) c i ev =
              evictLoop pick count fuel c1 (i + evs1.length) (ev + evs1.length) := by
            simp only [evictLoop, hi, if_true, hfr, hrun1]
          rw [heq]
          rcases ih c1 (i + evs1.length) (ev + evs1.length) hInv1 with
            ⟨c', evs2, hrun2, hInv2, hEv2, hlen2⟩ | ⟨h1, h2⟩ | ⟨h1, h2⟩
          · left
            refine ⟨c', evs1 ++ evs2, ?_, hInv2, hEv1.trans hEv2, ?_⟩
            · rw [hrun2]
              have e1 : ev + (evs1.length : Int) + (evs2.length : Int) =
                  ev + (((evs1 ++ evs2).length : Nat) : Int) := by
                simp only [List.length_append]; push_cast; omega
              rw [e1]
            · simp only [List.length_append]; push_cast; omega
          · right; left
            refine ⟨h1, ?_⟩
            have := hEv1.len
            rcases h2 with h2 | h2
            · left; push_cast; omega
            · right; omega
          · right; right
            refine ⟨h1, ?_⟩
            intro hR
            apply h2
            have := hEv1.room_left hR
            intro ch hch
            have := this ch hch
            omega
        · right; right
          exact ⟨by simp only [evictLoop, hi, if_true, hfr, hrun1], hno1⟩
    · left
      exact ⟨c, [], by simp [evictLoop, hi], h, Evicted.refl c, by simp; omega⟩

/-- Source: `evictNoLock`; a returned result is correct, whatever the fuel. -/
theorem evictNoLock_sound {pick : List K → List K} (hpick : ∀ l, (pick l).Perm l)
    {fuel : Nat} {c c' : Cache K} {count n : Int} (h : Inv c)
    (hrun : evictNoLock pick fuel c count = .ok (c', n)) :
    Inv c' ∧ ∃ evs, Evicted c c' evs ∧ n = evs.length ∧ (evs.length : Int) = max 0 count := by
  unfold evictNoLock at hrun
  rcases evictLoop_spec pick hpick count fuel c 0 0 h with
    ⟨c1, evs, h1, h2, h3, h4⟩ | ⟨h1, _⟩ | ⟨h1, _⟩
  · rw [h1] at hrun
    cases hrun
    exact ⟨h2, evs, h3, by simp, by simpa using h4⟩
  · rw [h1] at hrun; cases hrun
  · rw [h1] at hrun; cases hrun

/-- Source: `evictNoLock`; it returns when `count` does not exceed the size and the
channel takes `count` records. -/
theorem evictNoLock_ok {pick : List K → List K} (hpick : ∀ l, (pick l).Perm l)
    {fuel : Nat} {c : Cache K} {count : Int} (h : Inv c) (hc : count ≤ c.len)
    (hfuel : count ≤ fuel) (hroom : Room c count) :
    ∃ c' evs, evictNoLock pick fuel c count = .ok (c', (evs.length : Int)) ∧ Inv c' ∧
      Evicted c c' evs ∧ (evs.length : Int) = max 0 count := by
  unfold evictNoLock
  rcases evictLoop_spec pick hpick count fuel c 0 0 h with
    ⟨c1, evs, h1, h2, h3, h4⟩ | ⟨_, h2⟩ | ⟨_, h2⟩
  · exact ⟨c1, evs, by simpa using h1, h2, h3, by simpa using h4⟩
  · omega
  · exact absurd (by simpa using hroom) h2

/-- Source: `evictNoLock`; it never returns when `count` exceeds the size. -/
theorem evictNoLock_stuck {pick : List K → List K} (hpick : ∀ l, (pick l).Perm l)
    {c : Cache K} {count : Int} (h : Inv c) (hc : c.len < count) (fuel : Nat) :
    evictNoLock pick fuel c count = .error .spin ∨
      evictNoLock pick fuel c count = .error .blocked := by
  unfold evictNoLock
  rcases evictLoop_spec pick hpick count fuel c 0 0 h with
    ⟨c1, evs, h1, h2, h3, h4⟩ | ⟨h1, _⟩ | ⟨h1, _⟩
  · have := h3.len
    have := h2.len_nonneg
    omega
  · exact Or.inl h1
  · exact Or.inr h1

/-- Source: `evictNoLock`; with a nil channel it spins when `count` exceeds the size. -/
theorem evictNoLock_spin {pick : List K → List K} (hpick : ∀ l, (pick l).Perm l)
    {c : Cache K} {count : Int} (h : Inv c) (hc : c.len < count)
    (hnil : c.EvictionChannel = none) (fuel : Nat) :
    evictNoLock pick fuel c count = .error .spin := by
  unfold evictNoLock
  rcases evictLoop_spec pick hpick count fuel c 0 0 h with
    ⟨c1, evs, h1, h2, h3, h4⟩ | ⟨h1, _⟩ | ⟨_, h2⟩
  · have := h3.len
    have := h2.len_nonneg
    omega
  · exact h1
  · exact absurd (fun ch hch => by rw [hnil] at hch; cases hch) h2

/-- Source: `Cache.Get`, the three cases. -/
theorem Get_spec {c : Cache K} (h : Inv c) (k : K) (now : Int) :
    (mapGet c.values k = none ∧ Get c k now = .ok (c, Value.nil)) ∨
    (∃ e p, mapGet c.values k = some e ∧ expired e now = true ∧ e.freqNode = some p ∧
      Get c k now = .ok ({ c with values := mapDel c.values k, freqs := remFreqs c.freqs p k,
                                  len := c.len - 1 }, Value.nil) ∧
      Inv { c with values := mapDel c.values k, freqs := remFreqs c.freqs p k, len := c.len - 1 }) ∨
    (∃ e c' np cur, mapGet c.values k = some e ∧ expired e now = false ∧
      Get c k now = .ok (c', e.value) ∧ Inv c' ∧
      cur ∈ c.freqs ∧ e.freqNode = some cur.addr ∧
      c'.values = mapSet c.values k { e with freqNode := some np, visitAt := now } ∧
      c'.len = c.len ∧ c'.maxLen = c.maxLen ∧ c'.EvictionChannel = c.EvictionChannel ∧
      c'.cleanCycle = c.cleanCycle ∧
      bucketFreq c'.freqs np = some (cur.Value.freq + 1) ∧
      (∀ el ∈ c.freqs, (∃ k' ∈ el.Value.entries, k' ≠ k) →
        bucketFreq c'.freqs el.addr = some el.Value.freq)) := by
  cases hk : mapGet c.values k with
  | none => left; exact ⟨rfl, by simp [Get, hk]⟩
  | some e =>
    right
    by_cases hex : expired e now = true
    · left
      obtain ⟨p, hp, hdel, hInv⟩ := delNoLock_spec h hk
      exact ⟨e, p, rfl, hex, hp, by simp [Get, hk, hex, hdel], hInv⟩
    · right
      have hex' : expired e now = false := by simpa using hex
      obtain ⟨c', np, cur, hinc, hrest⟩ := increment_up h now hk (h.keyEq k e hk) rfl
      exact ⟨e, c', np, cur, rfl, hex', by simp [Get, hk, hex', hinc], hrest⟩

/-- Source: `Cache.Get` returns and keeps the invariant. -/
theorem Get_inv {c : Cache K} (h : Inv c) (k : K) (now : Int) :
    ∃ c' v, Get c k now = .ok (c', v) ∧ Inv c' := by
  rcases Get_spec h k now with ⟨_, h1⟩ | ⟨e, p, _, _, _, h1, h2⟩ | ⟨e, c', np, cur, _, _, h1, h2, _⟩
  · exact ⟨_, _, h1, h⟩
  · exact ⟨_, _, h1, h2⟩
  · exact ⟨_, _, h1, h2⟩

/-- Source: `Cache.Del` returns and keeps the invariant. -/
theorem Del_spec {c : Cache K} (h : Inv c) (k : K) :
    (mapGet c.values k = none ∧ Del c k = .ok c) ∨
    (∃ e p, mapGet c.values k = some e ∧ e.freqNode = some p ∧
      Del c k = .ok { c with values := mapDel c.values k, freqs := remFreqs c.freqs p k,
                             len := c.len - 1 } ∧
      Inv { c with values := mapDel c.values k, freqs := remFreqs c.freqs p k, len := c.len - 1 }) := by
  cases hk : mapGet c.values k with
  | none => left; exact ⟨rfl, by simp [Del, hk]⟩
  | some e =>
    right
    obtain ⟨p, hp, hdel, hInv⟩ := delNoLock_spec h hk
    exact ⟨e, p, rfl, hp, by simp [Del, hk, hdel], hInv⟩

theorem Del_inv {c : Cache K} (h : Inv c) (k : K) : ∃ c', Del c k = .ok c' ∧ Inv c' := by
  rcases Del_spec h k with ⟨_, h1⟩ | ⟨e, p, _, _, h1, h2⟩
  · exact ⟨_, h1, h⟩
  · exact ⟨_, h1, h2⟩

/-- Source: `Cache.Set` on a key that is present (the branch `overwrite`). -/
theorem Set_overwrite {c : Cache K} (h : Inv c) (pick : List K → List K) (fuel : Nat) {k : K}
    {e : cacheEntry K} (hk : mapGet c.values k = some e) (value : Value) (expireAt : Option Int)
    (now : Int) :
    ∃ c' np cur, Set pick fuel c k value expireAt now = .ok c' ∧ Inv c' ∧
      cur ∈ c.freqs ∧ e.freqNode = some cur.addr ∧
      c'.values = mapSet c.values k
        { key := e.key, value := value, freqNode := some np, expireAt := expireAt, visitAt := now } ∧
      c'.len = c.len ∧ c'.maxLen = c.maxLen ∧ c'.EvictionChannel = c.EvictionChannel ∧
      c'.cleanCycle = c.cleanCycle ∧
      bucketFreq c'.freqs np = some (cur.Value.freq + 1) ∧
      (∀ el ∈ c.freqs, (∃ k' ∈ el.Value.entries, k' ≠ k) →
        bucketFreq c'.freqs el.addr = some el.Value.freq) := by
  obtain ⟨c', np, cur, hinc, hrest⟩ := increment_up (e := { e with value := value, expireAt := expireAt })
    h now hk (h.keyEq k e hk) rfl
  exact ⟨c', np, cur, by simp [Set, hk, hinc], hrest⟩

/-- Source: `Cache.Set` on a key that is absent (the branch `insert`): the state `c2`
after the insertion and the size update, and the bounds management that follows. -/
theorem Set_insert {c : Cache K} (h : Inv c) (pick : List K → List K) (fuel : Nat) {k : K}
    (hk : mapGet c.values k = none) (value : Value) (expireAt : Option Int) (now : Int) :
    ∃ c2 np, Inv c2 ∧
      c2.values = mapSet c.values k
        { key := k, value := value, freqNode := some np, expireAt := expireAt, visitAt := now } ∧
      c2.len = c.len + 1 ∧ c2.maxLen = c.maxLen ∧ c2.EvictionChannel = c.EvictionChannel ∧
      c2.cleanCycle = c.cleanCycle ∧
      bucketFreq c2.freqs np = some 1 ∧
      (∀ el ∈ c.freqs, bucketFreq c2.freqs el.addr = some el.Value.freq) ∧
      Set pick fuel c k value expireAt now =
        if c.maxLen > 0 ∧ c.len + 1 > c.maxLen * 2 then
          match evictNoLock pick fuel c2 (c.len + 1 - c.maxLen) with
          | .error f => .error f
          | .ok (c3, _) => .ok c3
        else .ok c2 := by
  obtain ⟨c1, np, hinc, hInv, hv, hl, hm, hch, hcc, hb1, hb2⟩ :=
    increment_new h hk value expireAt now
  refine ⟨{ c1 with len := c1.len + 1 }, np, hInv, hv, by simp [hl], hm, hch, hcc, hb1, hb2, ?_⟩
  simp only [Set, hk, hinc, hm, hl]
  by_cases h1 : c.maxLen > 0
  · by_cases h2 : c.len + 1 > c.maxLen * 2
    · simp only [h1, h2, if_true, and_self]
      try rfl
    · simp only [h1, h2, if_true, if_false, and_false]
  · simp only [h1, if_false, false_and]

/-- Source: `Cache.Set` keeps the invariant whenever it returns. -/
theorem Set_sound {c c' : Cache K} (h : Inv c) {pick : List K → List K}
    (hpick : ∀ l, (pick l).Perm l) {fuel : Nat} {k : K} {value : Value} {expireAt : Option Int}
    {now : Int} (hrun : Set pick fuel c k value expireAt now = .ok c') : Inv c' := by
  cases hk : mapGet c.values k with
  | some e =>
    obtain ⟨c1, _, _, h1, h2, _⟩ := Set_overwrite h pick fuel hk value expireAt now
    rw [h1] at hrun; cases hrun; exact h2
  | none =>
    obtain ⟨c2, np, hInv2, _, _, _, _, _, _, _, hset⟩ := Set_insert h pick fuel hk value expireAt now
    rw [hset] at hrun
    split at hrun
    · cases hev : evictNoLock pick fuel c2 (c.len + 1 - c.maxLen) with
      | error f => rw [hev] at hrun; cases hrun
      | ok r =>
        obtain ⟨c3, n⟩ := r
        rw [hev] at hrun
        cases hrun
        exact (evictNoLock_sound hpick hInv2 hev).1
    · cases hrun; exact hInv2

/-- A state with the same channel has the same room. -/
theorem Room.sameChan {c c' : Cache K} {n : Int} (h : Room c n)
    (hch : c'.EvictionChannel = c.EvictionChannel) : Room c' n := by
  intro ch hc
  rw [hch] at hc
  exact h ch hc

/-- A nil channel takes every number of records. -/
theorem Room.of_nil {c : Cache K} (h : c.EvictionChannel = none) (n : Int) : Room c n := by
  intro ch hc
  rw [h] at hc
  cases hc

/-- Room for many records is room for fewer. -/
theorem Room.mono {c : Cache K} {n m : Int} (h : Room c n) (hle : m ≤ n) : Room c m :=
  fun ch hc => le_trans hle (h ch hc)

/-- A channel with room for `n` records takes `n` records. -/
theorem Room.of_some {c : Cache K} {ch : Chan K} {n : Int} (h : c.EvictionChannel = some ch)
    (hn : n ≤ ch.room) : Room c n := by
  intro ch' hc
  rw [h] at hc
  cases hc
  exact hn

/-- A channel that takes the records of an eviction down to the capacity takes the
records that `Set` sends. -/
theorem SetRoom_of_Room {c : Cache K} (h : Room c (c.len + 1 - c.maxLen)) (k : K) :
    SetRoom c k :=
  fun _ _ _ => h

/-- A nil channel takes the records that `Set` sends. -/
theorem SetRoom_of_nil {c : Cache K} (h : c.EvictionChannel = none) (k : K) : SetRoom c k :=
  fun _ _ _ => Room.of_nil h _

/-- Source: `Cache.Set` returns when the fuel covers the size after the insertion and
the channel takes the records of the entries to evict. -/
theorem Set_ok {c : Cache K} (h : Inv c) {pick : List K → List K}
    (hpick : ∀ l, (pick l).Perm l) {fuel : Nat} (hfuel : c.len + 1 ≤ fuel) (k : K)
    (hroom : SetRoom c k) (value : Value) (expireAt : Option Int) (now : Int) :
    ∃ c', Set pick fuel c k value expireAt now = .ok c' ∧ Inv c' ∧ c'.len ≤ c.len + 1 ∧
      c'.maxLen = c.maxLen := by
  cases hk : mapGet c.values k with
  | some e =>
    obtain ⟨c1, _, _, h1, h2, _, _, _, h3, h4, _⟩ := Set_overwrite h pick fuel hk value expireAt now
    exact ⟨c1, h1, h2, by omega, h4⟩
  | none =>
    obtain ⟨c2, np, hInv2, _, hl2, hm2, hch2, _, _, _, hset⟩ :=
      Set_insert h pick fuel hk value expireAt now
    rw [hset]
    split
    · rename_i hc
      have hcnt : c.len + 1 - c.maxLen ≤ c2.len := by omega
      have hfl : c.len + 1 - c.maxLen ≤ (fuel : Int) := by omega
      obtain ⟨c3, evs, hev, hInv3, hEv, hn⟩ :=
        evictNoLock_ok hpick hInv2 hcnt hfl ((hroom hk hc.1 (by omega)).sameChan hch2)
      rw [hev]
      refine ⟨c3, rfl, hInv3, ?_, ?_⟩
      · have := hEv.len; omega
      · rw [hEv.maxLen, hm2]
    · exact ⟨c2, rfl, hInv2, by omega, hm2⟩

/-- The loop of `ScanAndClean` returns, keeps the invariant and does not grow the
cache. -/
theorem scanLoop_inv (lookBackTime now : Int) : ∀ (rest : List (K × cacheEntry K)) (c : Cache K),
    Inv c → (rest.map Prod.fst).Nodup → (∀ p ∈ rest, mapGet c.values p.1 = some p.2) →
    ∃ c', scanLoop lookBackTime now rest c = .ok c' ∧ Inv c' ∧ c'.len ≤ c.len ∧
      c'.maxLen = c.maxLen := by
  intro rest
  induction rest with
  | nil => intro c h _ _; exact ⟨c, rfl, h, le_refl _, rfl⟩
  | cons p rest ih =>
    intro c h hnd hrest
    obtain ⟨k0, e0⟩ := p
    simp only [List.map_cons, List.nodup_cons] at hnd
    by_cases hcond : (expired e0 now || decide (e0.visitAt < lookBackTime)) = true
    · have hk0 := hrest (k0, e0) (by simp)
      obtain ⟨p, hp, hdel, hInv⟩ := delNoLock_spec h hk0
      obtain ⟨c', h1, h2, h3, h4⟩ := ih _ hInv hnd.2 (by
        intro q hq
        have hne : k0 ≠ q.1 := fun hc => hnd.1 (hc ▸ List.mem_map_of_mem Prod.fst hq)
        simp only [mapGet_mapDel, hne, if_false]
        exact hrest q (by simp [hq]))
      refine ⟨c', by simp only [scanLoop, hcond, if_true, hdel, h1], h2, ?_, h4⟩
      simp only [] at h3
      omega
    · have hcond' : (expired e0 now || decide (e0.visitAt < lookBackTime)) = false := by
        simpa using hcond
      obtain ⟨c', h1, h2, h3, h4⟩ := ih c h hnd.2 (fun q hq => hrest q (by simp [hq]))
      exact ⟨c', by simp only [scanLoop, hcond', Bool.false_eq_true, if_false, h1], h2, h3, h4⟩

/-- Source: `Cache.ScanAndClean` returns, keeps the invariant and does not grow the
cache. -/
theorem ScanAndClean_inv {c : Cache K} (h : Inv c) (now : Int) :
    ∃ c', ScanAndClean c now = .ok c' ∧ Inv c' ∧ c'.len ≤ c.len ∧ c'.maxLen = c.maxLen := by
  unfold ScanAndClean
  exact scanLoop_inv _ now c.values c h h.keysNodup
    (fun p hp => mapGet_of_mem h.keysNodup hp)

end lemmas

end lfu

namespace lfu

section lemmas2

variable {K V : Type} [DecidableEq K]

theorem mem_keys_iff {c : Cache K} {k : K} : k ∈ keys c ↔ mapGet c.values k ≠ none := by
  unfold keys
  rw [ne_eq, mapGet_eq_none_iff, not_not]

theorem not_mem_keys_iff {c : Cache K} {k : K} : k ∉ keys c ↔ mapGet c.values k = none := by
  rw [mem_keys_iff, ne_eq, not_not]

/-- The empty cache satisfies the invariant. -/
theorem Inv_empty (maxLen cleanCycle : Int) (chan : Option (Chan K)) :
    Inv ({ newCache maxLen cleanCycle with EvictionChannel := chan } : Cache K) := by
  constructor <;> simp [newCache, mapGet]

theorem Inv_newCache (maxLen cleanCycle : Int) : Inv (newCache maxLen cleanCycle : Cache K) :=
  Inv_empty maxLen cleanCycle none

/-- Every call that returns keeps the invariant. -/
theorem step_inv {pick : List K → List K} (hpick : ∀ l, (pick l).Perm l) {fuel : Nat}
    {c c' : Cache K} (h : Inv c) {op : Op K} (hrun : step pick fuel c op = .ok c') : Inv c' := by
  cases op with
  | Get key now =>
    obtain ⟨c1, v, h1, h2⟩ := Get_inv h key now
    simp only [step, h1] at hrun
    cases hrun; exact h2
  | Set key value expireAt now => exact Set_sound h hpick hrun
  | Del key =>
    obtain ⟨c1, h1, h2⟩ := Del_inv h key
    simp only [step, h1] at hrun
    cases hrun; exact h2
  | Evict count =>
    simp only [step, Evict] at hrun
    cases hev : evictNoLock pick fuel c count with
    | error f => rw [hev] at hrun; cases hrun
    | ok r =>
      obtain ⟨c1, n⟩ := r
      rw [hev] at hrun
      cases hrun
      exact (evictNoLock_sound hpick h hev).1
  | ScanAndClean now =>
    obtain ⟨c1, h1, h2, _⟩ := ScanAndClean_inv h now
    simp only [step, h1] at hrun
    cases hrun; exact h2

/-- Every sequence of calls that returns keeps the invariant. -/
theorem run_inv {pick : List K → List K} (hpick : ∀ l, (pick l).Perm l) {fuel : Nat} :
    ∀ (ops : List (Op K)) {c c' : Cache K}, Inv c → run pick fuel ops c = .ok c' → Inv c' := by
  intro ops
  induction ops with
  | nil => intro c c' h hrun; simp only [run] at hrun; cases hrun; exact h
  | cons op ops ih =>
    intro c c' h hrun
    simp only [run] at hrun
    cases hs : step pick fuel c op with
    | error f => rw [hs] at hrun; cases hrun
    | ok c1 =>
      rw [hs] at hrun
      exact ih (step_inv hpick h hs) hrun

/-- In a state that satisfies the invariant a key lies in one bucket only. -/
theorem bucket_unique {c : Cache K} (h : Inv c) {k : K} {el el' : Element K}
    (hel : el ∈ c.freqs) (hk : k ∈ el.Value.entries)
    (hel' : el' ∈ c.freqs) (hk' : k ∈ el'.Value.entries) : el' = el := by
  obtain ⟨e, he, hf⟩ := h.fromBucket el hel k hk
  obtain ⟨e', he', hf'⟩ := h.fromBucket el' hel' k hk'
  rw [he] at he'; cases he'
  rw [hf] at hf'
  have ha : el.addr = el'.addr := Option.some.inj hf'
  have h1 := elemAt_of_mem h.addrNodup hel
  have h2 := elemAt_of_mem h.addrNodup hel'
  rw [ha, h2] at h1
  exact Option.some.inj h1

/-- `Get` reports `getVal`, and does not change what later calls of `Get` at the same
time report. -/
theorem Get_getVal {c : Cache K} (h : Inv c) (k : K) (now : Int) :
    ∃ c', Get c k now = .ok (c', getVal c k now) ∧ Inv c' ∧
      (∀ k', getVal c' k' now = getVal c k' now) ∧ c'.len ≤ c.len ∧ c'.maxLen = c.maxLen := by
  rcases Get_spec h k now with ⟨hk, h1⟩ | ⟨e, p, hk, hex, _, h1, h2⟩ |
    ⟨e, c', np, cur, hk, hex, h1, h2, _, _, hv, hl, hm, _⟩
  · exact ⟨c, by simp [getVal, hk, h1], h, fun _ => rfl, le_refl _, rfl⟩
  · refine ⟨_, by simp [getVal, hk, hex, h1], h2, ?_, by simp, rfl⟩
    intro k'
    simp only [getVal, mapGet_mapDel]
    by_cases hkk : k = k'
    · subst hkk; simp [hk, hex]
    · simp [hkk]
  · refine ⟨c', by simp [getVal, hk, hex, h1], h2, ?_, by omega, hm⟩
    intro k'
    simp only [getVal, hv, mapGet_mapSet]
    by_cases hkk : k = k'
    · subst hkk
      simp only [if_true, hk]
      have : expired ({ e with freqNode := some np, visitAt := now } : cacheEntry K) now =
          expired e now := rfl
      rw [this]
    · simp [hkk]

/-- Source: `Cache.MGet`, its loop. -/
theorem MGetLoop_spec (now : Int) : ∀ (ks : List K) (c : Cache K) (res0 : List (K × Value)),
    Inv c →
    ∃ c' res, MGetLoop now ks c res0 = .ok (c', res) ∧ Inv c' ∧
      (∀ k, mapGet res k = if k ∈ ks then some (getVal c k now) else mapGet res0 k) ∧
      (∀ k', getVal c' k' now = getVal c k' now) ∧ c'.len ≤ c.len ∧ c'.maxLen = c.maxLen := by
  intro ks
  induction ks with
  | nil => intro c res0 h; exact ⟨c, res0, rfl, h, by simp, fun _ => rfl, le_refl _, rfl⟩
  | cons k ks ih =>
    intro c res0 h
    obtain ⟨c1, h1, hInv1, hg1, hl1, hm1⟩ := Get_getVal h k now
    obtain ⟨c', res, h2, hInv2, hres, hg2, hl2, hm2⟩ := ih c1 (mapSet res0 k (getVal c k now)) hInv1
    refine ⟨c', res, by simp only [MGetLoop, h1, h2], hInv2, ?_, ?_, by omega, by rw [hm2, hm1]⟩
    · intro k'
      rw [hres k']
      by_cases hin : k' ∈ ks
      · simp [hin, hg1]
      · simp only [hin, if_false, mapGet_mapSet, List.mem_cons]
        by_cases hkk : k = k'
        · subst hkk; simp
        · simp [hkk, Ne.symm hkk]
    · intro k'; rw [hg2, hg1]

/-- Source: `Cache.MGet`. -/
theorem MGet_spec {c : Cache K} (h : Inv c) (ks : List K) (now : Int) :
    ∃ c' res, MGet c ks now = .ok (c', res) ∧ Inv c' ∧
      (∀ k, mapGet res k = if k ∈ ks then some (getVal c k now) else none) ∧
      (∀ k', getVal c' k' now = getVal c k' now) ∧ c'.len ≤ c.len ∧ c'.maxLen = c.maxLen := by
  obtain ⟨c', res, h1, h2, h3, h4⟩ := MGetLoop_spec now ks c [] h
  exact ⟨c', res, h1, h2, by simpa [mapGet] using h3, h4⟩

end lemmas2

end lfu

namespace lfu

section claims

variable {K : Type} [DecidableEq K]

/-- Source: `Cache.Set` leaves the entry record of every other key that stays. -/
theorem Set_other {pick : List K → List K} (hpick : ∀ l, (pick l).Perm l) {fuel : Nat}
    {c c1 : Cache K} (hInv : Inv c) {k k' : K} {v : Value} {t : Option Int} {now : Int}
    (hrun : Set pick fuel c k v t now = .ok c1) (hkk : k' ≠ k) {e' : cacheEntry K}
    (he : mapGet c1.values k' = some e') : mapGet c.values k' = some e' := by
  have hne : ¬ k = k' := fun hc => hkk hc.symm
  cases hk : mapGet c.values k with
  | some e0 =>
    obtain ⟨c', np, cur, h1, _, _, _, hv, _⟩ := Set_overwrite hInv pick fuel hk v t now
    rw [h1] at hrun; cases hrun
    rw [hv, mapGet_mapSet, if_neg hne] at he
    exact he
  | none =>
    obtain ⟨c2, np, hInv2, hv2, _, _, _, _, _, _, hset⟩ := Set_insert hInv pick fuel hk v t now
    rw [hset] at hrun
    split at hrun
    · cases hev : evictNoLock pick fuel c2 (c.len + 1 - c.maxLen) with
      | error f => rw [hev] at hrun; cases hrun
      | ok r =>
        obtain ⟨c3, n⟩ := r
        rw [hev] at hrun
        cases hrun
        obtain ⟨_, evs, hEv, _⟩ := evictNoLock_sound hpick hInv2 hev
        rw [hEv.values] at he
        split at he
        · cases he
        · rw [hv2, mapGet_mapSet, if_neg hne] at he
          exact he
    · cases hrun
      rw [hv2, mapGet_mapSet, if_neg hne] at he
      exact he

/-- The keys of the evictions are the keys that have left the cache. -/
theorem Evicted.keys_iff {c c' : Cache K} {evs : List (Eviction K)} (h : Evicted c c' evs)
    (k : K) : k ∈ evs.map Eviction.Key ↔ k ∈ keys c ∧ k ∉ keys c' := by
  rw [mem_keys_iff, not_mem_keys_iff, h.values k]
  constructor
  · intro hk
    obtain ⟨ev, hev, hkey⟩ := List.mem_map.1 hk
    obtain ⟨e, he, _⟩ := h.evVals ev hev
    rw [hkey] at he
    exact ⟨by rw [he]; simp, by rw [if_pos hk]⟩
  · rintro ⟨h1, h2⟩
    by_contra hc
    rw [if_neg hc] at h2
    exact h1 h2

/-- What `Set` sends on the eviction channel: one record for every entry that has
left the cache, with the value the entry had. -/
theorem Set_evictions {pick : List K → List K} (hpick : ∀ l, (pick l).Perm l) {fuel : Nat}
    {c c' : Cache K} (hInv : Inv c) {k : K} {v : Value} {t : Option Int} {now : Int}
    (hrun : Set pick fuel c k v t now = .ok c') :
    ∃ evs : List (Eviction K),
      c'.EvictionChannel = c.EvictionChannel.map (fun ch =>
        { sent := ch.sent ++ evs, room := ch.room - evs.length }) ∧
      (evs.map Eviction.Key).Nodup ∧
      (∀ k', k' ∈ evs.map Eviction.Key ↔ (k' ∈ keys c ∨ k' = k) ∧ k' ∉ keys c') ∧
      (∀ ev ∈ evs, if ev.Key = k then ev.Value = v
        else ∃ e, mapGet c.values ev.Key = some e ∧ ev.Value = e.value) ∧
      c'.len = (if k ∈ keys c then c.len else c.len + 1) - evs.length := by
  cases hk : mapGet c.values k with
  | some e0 =>
    obtain ⟨c1, np, cur, h1, _, _, _, hv, hl, _, hch, _⟩ := Set_overwrite hInv pick fuel hk v t now
    rw [h1] at hrun; cases hrun
    have hin : k ∈ keys c := mem_keys_iff.2 (by rw [hk]; simp)
    refine ⟨[], by rw [hch]; cases c.EvictionChannel <;> simp, by simp, ?_, by simp, ?_⟩
    · intro k'
      simp only [List.map_nil, List.not_mem_nil, false_iff, not_and, not_not]
      intro hk'
      rw [mem_keys_iff, hv, mapGet_mapSet]
      split
      · simp
      · rename_i hne
        rcases hk' with h | h
        · exact mem_keys_iff.1 h
        · exact absurd h.symm hne
    · simp [hin, hl]
  | none =>
    obtain ⟨c2, np, hInv2, hv2, hl2, _, hch2, _, _, _, hset⟩ := Set_insert hInv pick fuel hk v t now
    have hnin : k ∉ keys c := not_mem_keys_iff.2 hk
    have hkeys2 : ∀ k', k' ∈ keys c2 ↔ (k' ∈ keys c ∨ k' = k) := by
      intro k'
      rw [mem_keys_iff, mem_keys_iff, hv2, mapGet_mapSet]
      by_cases hkk : k = k'
      · simp [hkk]
      · simp [hkk, Ne.symm hkk]
    rw [hset] at hrun
    split at hrun
    · cases hev : evictNoLock pick fuel c2 (c.len + 1 - c.maxLen) with
      | error f => rw [hev] at hrun; cases hrun
      | ok r =>
        obtain ⟨c3, n⟩ := r
        rw [hev] at hrun
        cases hrun
        obtain ⟨_, evs, hEv, _, _⟩ := evictNoLock_sound hpick hInv2 hev
        refine ⟨evs, by rw [hEv.chan, hch2], hEv.evKeys, ?_, ?_, ?_⟩
        · intro k'
          rw [hEv.keys_iff k', hkeys2 k']
        · intro ev hev'
          obtain ⟨e, he, hval⟩ := hEv.evVals ev hev'
          rw [hv2, mapGet_mapSet] at he
          by_cases hkk : ev.Key = k
          · rw [if_pos hkk]
            rw [if_pos hkk.symm] at he
            cases he
            exact hval.symm
          · rw [if_neg hkk]
            rw [if_neg (fun hc => hkk hc.symm)] at he
            exact ⟨e, he, hval.symm⟩
        · rw [hEv.len, hl2, if_neg hnin]
    · cases hrun
      refine ⟨[], by rw [hch2]; cases c.EvictionChannel <;> simp, by simp, ?_, by simp, ?_⟩
      · intro k'
        simp only [List.map_nil, List.not_mem_nil, false_iff, not_and, not_not]
        intro hk'
        exact (hkeys2 k').2 hk'
      · simp [hnin, hl2]

theorem coldAndHot_reached : run id 10 coldAndHotOps (newCache 1000 30) = .ok coldAndHot := rfl

theorem coldAndHot_inv : Inv coldAndHot :=
  run_inv (fun l => List.Perm.refl l) coldAndHotOps (Inv_newCache 1000 30) coldAndHot_reached

theorem twoHot_reached : run id 10 twoHotOps (newCache 1 60) = .ok twoHot := rfl

theorem twoHot_inv : Inv twoHot :=
  run_inv (fun l => List.Perm.refl l) twoHotOps (Inv_newCache 1 60) twoHot_reached

/-- C1: whenever `Evict(count)` returns, every entry it removed has a bucket
frequency less than or equal to the frequency of every entry that is still in the
cache, and the entries that remain keep their frequency. -/
theorem C1_evict_removes_lowest_frequencies (pick : List K → List K)
    (hpick : ∀ l, (pick l).Perm l) (fuel : Nat) (c c' : Cache K) (count n : Int)
    (hInv : Inv c) (hrun : Evict pick fuel c count = .ok (c', n)) :
    ∀ k, k ∈ keys c → k ∉ keys c' → ∀ k', k' ∈ keys c' →
      ∃ f f', freqOf c k = some f ∧ freqOf c k' = some f' ∧ freqOf c' k' = some f' ∧ f ≤ f' := by
  intro k hk hk' k' hk2
  obtain ⟨hInv', evs, hEv, _, _⟩ := evictNoLock_sound hpick hInv hrun
  rw [mem_keys_iff] at hk hk2
  rw [not_mem_keys_iff] at hk'
  have hkev : k ∈ evs.map Eviction.Key := by
    by_contra hc
    rw [hEv.values, if_neg hc] at hk'
    exact hk hk'
  obtain ⟨ev, hev, hevk⟩ := List.mem_map.1 hkev
  have hk2c : mapGet c.values k' ≠ none := by
    intro hc
    rw [hEv.values] at hk2
    split at hk2
    · exact hk2 rfl
    · exact hk2 hc
  cases he : mapGet c.values k with
  | none => exact absurd he hk
  | some e =>
    cases he2 : mapGet c.values k' with
    | none => exact absurd he2 hk2c
    | some e2 =>
      obtain ⟨el, _, _, _, hf⟩ := freqOf_eq hInv he
      obtain ⟨el2, _, _, _, hf2⟩ := freqOf_eq hInv he2
      refine ⟨_, _, hf, hf2, by rw [hEv.freq k' hk2, hf2], ?_⟩
      exact hEv.low ev hev k' hk2 _ _ (by rw [hevk]; exact hf) hf2

/-- Witness of C1: `Evict(1)` on a cache holding key 1 at frequency 2 and key 2 at
frequency 1 removes key 2. -/
theorem C1_witness :
    Evict id 10 coldAndHot 1 = .ok (onlyHot, 1) ∧
    ∀ k, k ∈ keys coldAndHot → k ∉ keys onlyHot → ∀ k', k' ∈ keys onlyHot →
      ∃ f f', freqOf coldAndHot k = some f ∧ freqOf coldAndHot k' = some f' ∧
        freqOf onlyHot k' = some f' ∧ f ≤ f' :=
  ⟨rfl, C1_evict_removes_lowest_frequencies id (fun l => List.Perm.refl l) 10 coldAndHot onlyHot
    1 1 coldAndHot_inv rfl⟩

/-- C2: a `Set` of a new key into a cache of capacity `maxLen > 0` returns when the
eviction channel, if there is one, takes the records of the entries to evict.  The
state after it satisfies the invariant, its size is the number of its keys, and its
keys are the old keys and the new key less the keys of the entries `evs` evicted, whose
records are what has been sent on the channel; the entries that stay are unchanged.
When the size after the insertion exceeds `2 * maxLen`, exactly `size - maxLen` entries
are evicted and the size is at most `maxLen` afterwards; when the size after the
insertion is in `(maxLen, 2 * maxLen]`, no entry is evicted, the size is the old size
plus one, every old entry is still there, the new key is there and nothing is sent. -/
theorem C2_capacity_hysteresis (pick : List K → List K) (hpick : ∀ l, (pick l).Perm l)
    (fuel : Nat) (c : Cache K) (k : K) (value : Value) (expireAt : Option Int) (now : Int)
    (hInv : Inv c) (hk : k ∉ keys c) (hmax : 0 < c.maxLen)
    (hfuel : c.len + 1 - c.maxLen ≤ fuel) (hroom : SetRoom c k) :
    ∃ c' evs, Set pick fuel c k value expireAt now = .ok c' ∧ Inv c' ∧
      c'.len = (keys c').length ∧ c'.len = c.len + 1 - evs.length ∧
      (evs.map Eviction.Key).Nodup ∧
      (∀ k', k' ∈ evs.map Eviction.Key ↔ (k' ∈ keys c ∨ k' = k) ∧ k' ∉ keys c') ∧
      (∀ k' e, k' ∈ keys c' → mapGet c.values k' = some e → mapGet c'.values k' = some e) ∧
      c'.EvictionChannel = c.EvictionChannel.map (fun ch =>
        { sent := ch.sent ++ evs, room := ch.room - evs.length }) ∧
      (2 * c.maxLen < c.len + 1 →
        (evs.length : Int) = c.len + 1 - c.maxLen ∧ c'.len ≤ c.maxLen) ∧
      (c.maxLen < c.len + 1 → c.len + 1 ≤ 2 * c.maxLen →
        evs = [] ∧ c'.len = c.len + 1 ∧ k ∈ keys c' ∧
        (∀ k' e, mapGet c.values k' = some e → mapGet c'.values k' = some e) ∧
        c'.EvictionChannel = c.EvictionChannel) := by
  have hk0 := hk
  rw [not_mem_keys_iff] at hk
  obtain ⟨c2, np, hInv2, hv2, hl2, hm2, hch2, _, _, _, hset⟩ :=
    Set_insert hInv pick fuel hk value expireAt now
  have hret : ∃ c', Set pick fuel c k value expireAt now = .ok c' ∧
      (2 * c.maxLen < c.len + 1 → c'.len = c.maxLen) ∧
      (c.maxLen < c.len + 1 → c.len + 1 ≤ 2 * c.maxLen →
        c'.len = c.len + 1 ∧ k ∈ keys c' ∧
        (∀ k' e, mapGet c.values k' = some e → mapGet c'.values k' = some e) ∧
        c'.EvictionChannel = c.EvictionChannel) := by
    rw [hset]
    by_cases hbig : c.len + 1 > c.maxLen * 2
    · have hcnt : c.len + 1 - c.maxLen ≤ c2.len := by omega
      obtain ⟨c3, evs, hev, hInv3, hEv, hn⟩ :=
        evictNoLock_ok hpick hInv2 hcnt hfuel ((hroom hk hmax (by omega)).sameChan hch2)
      have hcond : c.maxLen > 0 ∧ c.len + 1 > c.maxLen * 2 := ⟨hmax, hbig⟩
      rw [if_pos hcond, hev]
      refine ⟨c3, rfl, ?_, ?_⟩
      · intro _
        have := hEv.len
        omega
      · intro _ h2; omega
    · have hcond : ¬ (c.maxLen > 0 ∧ c.len + 1 > c.maxLen * 2) := fun h => hbig h.2
      rw [if_neg hcond]
      refine ⟨c2, rfl, ?_, ?_⟩
      · intro h1; omega
      · intro _ _
        refine ⟨hl2, ?_, ?_, hch2⟩
        · rw [mem_keys_iff, hv2, mapGet_mapSet]; simp
        · intro k' e he
          rw [hv2, mapGet_mapSet]
          have : k ≠ k' := by
            intro hc; subst hc; rw [hk] at he; cases he
          simp [this, he]
  obtain ⟨c', hrun, hbig, hsmall⟩ := hret
  have hInv' : Inv c' := Set_sound hInv hpick hrun
  obtain ⟨evs, h1, h2, h3, h4, h5⟩ := Set_evictions hpick hInv hrun
  rw [if_neg hk0] at h5
  refine ⟨c', evs, hrun, hInv', by simp [keys, hInv'.lenEq], h5, h2, h3, ?_, h1, ?_, ?_⟩
  · intro k' e hin he
    rw [mem_keys_iff] at hin
    cases he' : mapGet c'.values k' with
    | none => exact absurd he' hin
    | some e' =>
      have hkk : k' ≠ k := by
        intro hc; subst hc; rw [hk] at he; cases he
      rw [Set_other hpick hInv hrun hkk he'] at he
      exact he
  · intro hb
    have := hbig hb
    exact ⟨by omega, by omega⟩
  · intro ha hb
    obtain ⟨q1, q2, q3, q4⟩ := hsmall ha hb
    refine ⟨?_, q1, q2, q3, q4⟩
    have : evs.length = 0 := by omega
    exact List.length_eq_zero.1 this

/-- Witness of C2: inserting key 3 into a cache of capacity 1 that holds two keys
evicts two entries and leaves one. -/
theorem C2_witness :
    Inv twoHot ∧ 3 ∉ keys twoHot ∧ 0 < twoHot.maxLen ∧
    Set id 10 twoHot 3 (.str "v") (some 100) 10 = .ok twoHotAfterSet ∧
    2 * twoHot.maxLen < twoHot.len + 1 ∧ keys twoHotAfterSet = [1] ∧
    ∃ c' evs, Set id 10 twoHot 3 (.str "v") (some 100) 10 = .ok c' ∧ Inv c' ∧
      c'.len = (keys c').length ∧ c'.len = twoHot.len + 1 - evs.length ∧
      (evs.map Eviction.Key).Nodup ∧
      (∀ k', k' ∈ evs.map Eviction.Key ↔ (k' ∈ keys twoHot ∨ k' = 3) ∧ k' ∉ keys c') ∧
      (∀ k' e, k' ∈ keys c' → mapGet twoHot.values k' = some e →
        mapGet c'.values k' = some e) ∧
      c'.EvictionChannel = twoHot.EvictionChannel.map (fun ch =>
        { sent := ch.sent ++ evs, room := ch.room - evs.length }) ∧
      (2 * twoHot.maxLen < twoHot.len + 1 →
        (evs.length : Int) = twoHot.len + 1 - twoHot.maxLen ∧ c'.len ≤ twoHot.maxLen) ∧
      (twoHot.maxLen < twoHot.len + 1 → twoHot.len + 1 ≤ 2 * twoHot.maxLen →
        evs = [] ∧ c'.len = twoHot.len + 1 ∧ 3 ∈ keys c' ∧
        (∀ k' e, mapGet twoHot.values k' = some e → mapGet c'.values k' = some e) ∧
        c'.EvictionChannel = twoHot.EvictionChannel) :=
  ⟨twoHot_inv, by decide, by decide, rfl, by decide, rfl,
    C2_capacity_hysteresis id (fun l => List.Perm.refl l) 10 twoHot 3 (.str "v") (some 100) 10
      twoHot_inv (by decide) (by decide) (by decide) (SetRoom_of_nil rfl 3)⟩

/-- C3: on an empty cache `Evict(1)` does not return: for every amount of fuel the
loop of `evictNoLock` is still running. -/
theorem C3_evict_spins_on_empty_cache (pick : List K → List K) (fuel : Nat)
    (maxLen cleanCycle : Int) :
    Evict pick fuel (newCache maxLen cleanCycle : Cache K) 1 = .error .spin := by
  unfold Evict evictNoLock
  induction fuel with
  | zero => simp [evictLoop]
  | succ fuel ih => simpa [evictLoop, Front, newCache] using ih

/-- C4: after every sequence of calls on an empty cache that returns, the size counter
is the number of keys of the key table, whose keys are distinct, and every entry of
the table is a member of exactly one bucket of the list, the one its `freqNode`
points to. -/
theorem C4_size_and_bucket_membership (pick : List K → List K)
    (hpick : ∀ l, (pick l).Perm l) (fuel : Nat) (maxLen cleanCycle : Int)
    (chan : Option (Chan K)) (ops : List (Op K)) (c : Cache K)
    (hrun : run pick fuel ops { newCache maxLen cleanCycle with EvictionChannel := chan }
      = .ok c) :
    c.len = (keys c).length ∧ (keys c).Nodup ∧
    ∀ k e, (k, e) ∈ c.values →
      ∃ el, el ∈ c.freqs ∧ e.freqNode = some el.addr ∧ k ∈ el.Value.entries ∧
        ∀ el', el' ∈ c.freqs → k ∈ el'.Value.entries → el' = el := by
  have h := run_inv hpick ops (Inv_empty maxLen cleanCycle chan) hrun
  refine ⟨by simp [keys, h.lenEq], h.keysNodup, ?_⟩
  intro k e hke
  obtain ⟨el, hel, hf, hin⟩ := h.inBucket k e (mapGet_of_mem h.keysNodup hke)
  exact ⟨el, hel, hf, hin, fun el' hel' hk' => bucket_unique h hel hin hel' hk'⟩

/-- Witness of C4: the calls `twoHotOps` on a new cache of capacity 1. -/
theorem C4_witness :
    run id 10 twoHotOps { newCache 1 60 with EvictionChannel := none } = .ok twoHot ∧
    twoHot.len = (keys twoHot).length ∧ (keys twoHot).Nodup ∧
    ∀ k e, (k, e) ∈ twoHot.values →
      ∃ el, el ∈ twoHot.freqs ∧ e.freqNode = some el.addr ∧ k ∈ el.Value.entries ∧
        ∀ el', el' ∈ twoHot.freqs → k ∈ el'.Value.entries → el' = el :=
  ⟨rfl, C4_size_and_bucket_membership id (fun l => List.Perm.refl l) 10 1 60 none twoHotOps
    twoHot rfl⟩

/-- C5: after every sequence of calls on an empty cache that returns, the bucket list
ascends strictly in frequency from head to tail, so that no two buckets share a
frequency, every bucket frequency is at least 1, and no bucket of the list is empty. -/
theorem C5_bucket_list_ordered (pick : List K → List K)
    (hpick : ∀ l, (pick l).Perm l) (fuel : Nat) (maxLen cleanCycle : Int)
    (chan : Option (Chan K)) (ops : List (Op K)) (c : Cache K)
    (hrun : run pick fuel ops { newCache maxLen cleanCycle with EvictionChannel := chan }
      = .ok c) :
    (c.freqs.map (fun el => el.Value.freq)).Pairwise (fun a b => a < b) ∧
    (c.freqs.map (fun el => el.Value.freq)).Nodup ∧
    (∀ el, el ∈ c.freqs → 1 ≤ el.Value.freq) ∧
    (∀ el, el ∈ c.freqs → el.Value.entries ≠ []) := by
  have h := run_inv hpick ops (Inv_empty maxLen cleanCycle chan) hrun
  refine ⟨h.sorted, ?_, h.freqPos, h.nonempty⟩
  exact h.sorted.imp (fun hab => ne_of_lt hab)

/-- Witness of C5: the calls `coldAndHotOps` on a new cache of capacity 1000. -/
theorem C5_witness :
    run id 10 coldAndHotOps { newCache 1000 30 with EvictionChannel := none }
      = .ok coldAndHot ∧
    (coldAndHot.freqs.map (fun el => el.Value.freq)).Pairwise (fun a b => a < b) ∧
    (coldAndHot.freqs.map (fun el => el.Value.freq)).Nodup ∧
    (∀ el, el ∈ coldAndHot.freqs → 1 ≤ el.Value.freq) ∧
    (∀ el, el ∈ coldAndHot.freqs → el.Value.entries ≠ []) :=
  ⟨rfl, C5_bucket_list_ordered id (fun l => List.Perm.refl l) 10 1000 30 none coldAndHotOps
    coldAndHot rfl⟩

end claims

end lfu

namespace lfu

section claims2

variable {K : Type} [DecidableEq K]

/-- After `Set(k, v, t)` the entry of `k`, when it is in the cache, holds `v` and `t`. -/
theorem Set_entry {pick : List K → List K} (hpick : ∀ l, (pick l).Perm l) {fuel : Nat}
    {c c1 : Cache K} (hInv : Inv c) {k : K} {v : Value} {t : Option Int} {now : Int}
    (hrun : Set pick fuel c k v t now = .ok c1) {e : cacheEntry K}
    (he : mapGet c1.values k = some e) : e.value = v ∧ e.expireAt = t := by
  cases hk : mapGet c.values k with
  | some e0 =>
    obtain ⟨c', np, cur, h1, _, _, _, hv, _⟩ := Set_overwrite hInv pick fuel hk v t now
    rw [h1] at hrun; cases hrun
    rw [hv, mapGet_mapSet, if_pos rfl] at he
    cases he; exact ⟨rfl, rfl⟩
  | none =>
    obtain ⟨c2, np, hInv2, hv2, _, _, _, _, _, _, hset⟩ := Set_insert hInv pick fuel hk v t now
    rw [hset] at hrun
    split at hrun
    · cases hev : evictNoLock pick fuel c2 (c.len + 1 - c.maxLen) with
      | error f => rw [hev] at hrun; cases hrun
      | ok r =>
        obtain ⟨c3, n⟩ := r
        rw [hev] at hrun
        cases hrun
        obtain ⟨_, evs, hEv, _⟩ := evictNoLock_sound hpick hInv2 hev
        rw [hEv.values] at he
        split at he
        · cases he
        · rw [hv2, mapGet_mapSet, if_pos rfl] at he
          cases he; exact ⟨rfl, rfl⟩
    · cases hrun
      rw [hv2, mapGet_mapSet, if_pos rfl] at he
      cases he; exact ⟨rfl, rfl⟩

/-- A `Set` that triggers no capacity eviction leaves its key in the cache. -/
theorem Set_keeps_key {pick : List K → List K} {fuel : Nat} {c c1 : Cache K} (hInv : Inv c)
    {k : K} {v : Value} {t : Option Int} {now : Int}
    (hrun : Set pick fuel c k v t now = .ok c1)
    (hroom : c.maxLen ≤ 0 ∨ c.len + 1 ≤ 2 * c.maxLen ∨ k ∈ keys c) : k ∈ keys c1 := by
  rw [mem_keys_iff]
  cases hk : mapGet c.values k with
  | some e0 =>
    obtain ⟨c', np, cur, h1, _, _, _, hv, _⟩ := Set_overwrite hInv pick fuel hk v t now
    rw [h1] at hrun; cases hrun
    rw [hv, mapGet_mapSet, if_pos rfl]; simp
  | none =>
    obtain ⟨c2, np, hInv2, hv2, _, _, _, _, _, _, hset⟩ := Set_insert hInv pick fuel hk v t now
    have hcond : ¬ (c.maxLen > 0 ∧ c.len + 1 > c.maxLen * 2) := by
      rintro ⟨h1, h2⟩
      rcases hroom with h | h | h
      · omega
      · omega
      · rw [mem_keys_iff] at h; exact h hk
    rw [hset, if_neg hcond] at hrun
    cases hrun
    rw [hv2, mapGet_mapSet, if_pos rfl]; simp

/-- Counterexample to C6: in a cache of capacity 1 that holds the keys 1 and 2 at
frequency 2, `Set(3, "v", 100)` evicts the entry it has just inserted, and the `Get(3)`
that follows at time 50 reports nil. -/
theorem C6_counterexample :
    run id 10 twoHotOps (newCache 1 60) = .ok twoHot ∧
    Set id 10 twoHot 3 (.str "v") (some 100) 10 = .ok twoHotAfterSet ∧
    Get twoHotAfterSet 3 50 = .ok (twoHotAfterSet, Value.nil) ∧
    (50 : Int) ≤ 100 ∧ Value.nil ≠ Value.str "v" :=
  ⟨rfl, rfl, rfl, by decide, by decide⟩

/-- C6, amended: `Set(k, v, t)` returns when the eviction channel, if there is one, takes
the records of the entries to evict, and provided the entry has not been evicted by
the capacity eviction of that same `Set` (which cannot happen when the capacity is
disabled, when the size after the insertion is at most `2 * maxLen`, or when `k` was
present), a `Get(k)` at any time not after `t` returns `v`, and a `Get(k)` at any time
after `t` reports nil, removes the entry and decrements the size by one. -/
theorem C6_set_then_get_until_expiry (pick : List K → List K) (hpick : ∀ l, (pick l).Perm l)
    (fuel : Nat) (c : Cache K) (k : K) (v : Value) (t now : Int)
    (hInv : Inv c) (hfuel : c.len + 1 ≤ fuel) (hroom : SetRoom c k) :
    ∃ c1, Set pick fuel c k v (some t) now = .ok c1 ∧
      ((c.maxLen ≤ 0 ∨ c.len + 1 ≤ 2 * c.maxLen ∨ k ∈ keys c) → k ∈ keys c1) ∧
      (k ∈ keys c1 →
        (∀ now', now' ≤ t → ∃ c2, Get c1 k now' = .ok (c2, v)) ∧
        (∀ now', t < now' →
          ∃ c2, Get c1 k now' = .ok (c2, Value.nil) ∧ k ∉ keys c2 ∧ c2.len = c1.len - 1)) := by
  obtain ⟨c1, hrun, hInv1, _, _⟩ := Set_ok hInv hpick hfuel k hroom v (some t) now
  refine ⟨c1, hrun, fun hroom => Set_keeps_key hInv hrun hroom, ?_⟩
  intro hin
  rw [mem_keys_iff] at hin
  cases he : mapGet c1.values k with
  | none => exact absurd he hin
  | some e =>
    obtain ⟨hval, hexp⟩ := Set_entry hpick hInv hrun he
    constructor
    · intro now' hnow
      have hex : expired e now' = false := by
        simp only [expired, hexp, decide_eq_false_iff_not, not_lt]; exact hnow
      rcases Get_spec hInv1 k now' with ⟨hk, _⟩ | ⟨e', p, hk, hex', _⟩ |
        ⟨e', c2, np, cur, hk, _, h1, _⟩
      · rw [he] at hk; cases hk
      · rw [he] at hk; cases hk; rw [hex] at hex'; cases hex'
      · rw [he] at hk; cases hk; exact ⟨c2, by rw [h1, hval]⟩
    · intro now' hnow
      have hex : expired e now' = true := by
        simp only [expired, hexp, decide_eq_true_eq]; exact hnow
      rcases Get_spec hInv1 k now' with ⟨hk, _⟩ | ⟨e', p, hk, _, _, h1, _⟩ |
        ⟨e', c2, np, cur, hk, hex', _⟩
      · rw [he] at hk; cases hk
      · refine ⟨_, h1, ?_, rfl⟩
        rw [not_mem_keys_iff]
        simp [mapGet_mapDel]
      · rw [he] at hk; cases hk; rw [hex] at hex'; cases hex'

/-- Witness of C6, amended: `Set(3, "v", 100)` on a new cache of capacity 1. -/
theorem C6_witness :
    Inv (newCache 1 60 : Cache Nat) ∧ (newCache 1 60 : Cache Nat).len + 1 ≤ ((10 : Nat) : Int) ∧
    ∃ c1, Set id 10 (newCache 1 60 : Cache Nat) 3 (.str "v") (some 100) 10 = .ok c1 ∧
      (((newCache 1 60 : Cache Nat).maxLen ≤ 0 ∨
        (newCache 1 60 : Cache Nat).len + 1 ≤ 2 * (newCache 1 60 : Cache Nat).maxLen ∨
        3 ∈ keys (newCache 1 60 : Cache Nat)) → 3 ∈ keys c1) ∧
      (3 ∈ keys c1 →
        (∀ now', now' ≤ 100 → ∃ c2, Get c1 3 now' = .ok (c2, .str "v")) ∧
        (∀ now', 100 < now' →
          ∃ c2, Get c1 3 now' = .ok (c2, Value.nil) ∧ 3 ∉ keys c2 ∧ c2.len = c1.len - 1)) :=
  ⟨Inv_newCache 1 60, by decide,
    C6_set_then_get_until_expiry id (fun l => List.Perm.refl l) 10 (newCache 1 60) 3 (.str "v")
      100 10 (Inv_newCache 1 60) (by decide) (SetRoom_of_nil rfl 3)⟩

end claims2

end lfu

namespace lfu

section bounded

variable {K : Type} [DecidableEq K]

theorem Bounded_of_le {c c' : Cache K} (hb : Bounded c) (hl : c'.len ≤ c.len)
    (hm : c'.maxLen = c.maxLen) : Bounded c' := by
  intro hpos
  rw [hm] at hpos ⊢
  exact le_trans hl (hb hpos)

/-- Source: `Cache.Set` stays within the size bound whenever it returns. -/
theorem Set_sound_bounded {c c' : Cache K} (h : Inv c) (hb : Bounded c)
    {pick : List K → List K} (hpick : ∀ l, (pick l).Perm l) {fuel : Nat} {k : K}
    {value : Value} {expireAt : Option Int} {now : Int}
    (hrun : Set pick fuel c k value expireAt now = .ok c') : Bounded c' := by
  cases hk : mapGet c.values k with
  | some e =>
    obtain ⟨c1, _, _, h1, _, _, _, _, h3, h4, _⟩ := Set_overwrite h pick fuel hk value expireAt now
    rw [h1] at hrun; cases hrun
    exact Bounded_of_le hb (le_of_eq h3) h4
  | none =>
    obtain ⟨c2, np, hInv2, _, hl2, hm2, _, _, _, _, hset⟩ :=
      Set_insert h pick fuel hk value expireAt now
    rw [hset] at hrun
    split at hrun
    · rename_i hc
      cases hev : evictNoLock pick fuel c2 (c.len + 1 - c.maxLen) with
      | error f => rw [hev] at hrun; cases hrun
      | ok r =>
        obtain ⟨c3, n⟩ := r
        rw [hev] at hrun
        cases hrun
        obtain ⟨_, evs, hEv, _, hn⟩ := evictNoLock_sound hpick hInv2 hev
        intro _
        have := hEv.len
        rw [hEv.maxLen, hm2]
        omega
    · rename_i hc
      cases hrun
      intro hpos
      rw [hm2] at hpos ⊢
      rw [hl2]
      by_contra hcon
      exact hc ⟨hpos, by omega⟩

/-- Every call that returns keeps the size bound. -/
theorem step_bounded {pick : List K → List K} (hpick : ∀ l, (pick l).Perm l) {fuel : Nat}
    {c c' : Cache K} (h : Inv c) (hb : Bounded c) {op : Op K}
    (hrun : step pick fuel c op = .ok c') : Bounded c' := by
  cases op with
  | Get key now =>
    obtain ⟨c1, h1, _, _, h3, h4⟩ := Get_getVal h key now
    simp only [step, h1] at hrun
    cases hrun; exact Bounded_of_le hb h3 h4
  | Set key value expireAt now => exact Set_sound_bounded h hb hpick hrun
  | Del key =>
    rcases Del_spec h key with ⟨_, h1⟩ | ⟨e, p, _, _, h1, _⟩
    · simp only [step, h1] at hrun; cases hrun; exact hb
    · simp only [step, h1] at hrun; cases hrun
      exact Bounded_of_le hb (by simp) rfl
  | Evict count =>
    simp only [step, Evict] at hrun
    cases hev : evictNoLock pick fuel c count with
    | error f => rw [hev] at hrun; cases hrun
    | ok r =>
      obtain ⟨c1, n⟩ := r
      rw [hev] at hrun
      cases hrun
      obtain ⟨_, evs, hEv, _⟩ := evictNoLock_sound hpick h hev
      exact Bounded_of_le hb (by rw [hEv.len]; omega) hEv.maxLen
  | ScanAndClean now =>
    obtain ⟨c1, h1, _, h3, h4⟩ := ScanAndClean_inv h now
    simp only [step, h1] at hrun
    cases hrun; exact Bounded_of_le hb h3 h4

/-- Every state reached from an empty cache is within the size bound. -/
theorem run_bounded {pick : List K → List K} (hpick : ∀ l, (pick l).Perm l) {fuel : Nat} :
    ∀ (ops : List (Op K)) {c c' : Cache K}, Inv c → Bounded c →
      run pick fuel ops c = .ok c' → Bounded c' := by
  intro ops
  induction ops with
  | nil => intro c c' _ hb hrun; simp only [run] at hrun; cases hrun; exact hb
  | cons op ops ih =>
    intro c c' h hb hrun
    simp only [run] at hrun
    cases hs : step pick fuel c op with
    | error f => rw [hs] at hrun; cases hrun
    | ok c1 =>
      rw [hs] at hrun
      exact ih (step_inv hpick h hs) (step_bounded hpick h hb hs) hrun

/-- Source: `Cache.Get` sends nothing. -/
theorem Get_chan {c c' : Cache K} (h : Inv c) {k : K} {now : Int} {v : Value}
    (hrun : Get c k now = .ok (c', v)) : c'.EvictionChannel = c.EvictionChannel := by
  rcases Get_spec h k now with ⟨_, h1⟩ | ⟨e, p, _, _, _, h1, _⟩ |
    ⟨e, c1, np, cur, _, _, h1, _, _, _, _, _, _, hch, _⟩
  · rw [h1] at hrun; cases hrun; rfl
  · rw [h1] at hrun; cases hrun; rfl
  · rw [h1] at hrun; cases hrun; exact hch

/-- Source: `Cache.MGet` sends nothing. -/
theorem MGetLoop_chan (now : Int) : ∀ (ks : List K) (c c' : Cache K) (res0 res : List (K × Value)),
    Inv c → MGetLoop now ks c res0 = .ok (c', res) →
    c'.EvictionChannel = c.EvictionChannel := by
  intro ks
  induction ks with
  | nil => intro c c' res0 res _ hrun; simp only [MGetLoop] at hrun; cases hrun; rfl
  | cons k ks ih =>
    intro c c' res0 res h hrun
    simp only [MGetLoop] at hrun
    obtain ⟨c1, v, h1, hInv1⟩ := Get_inv h k now
    rw [h1] at hrun
    rw [ih c1 c' _ res hInv1 hrun, Get_chan h h1]

/-- Source: `Cache.Set` leaves a nil channel nil. -/
theorem Set_chan_nil {pick : List K → List K} (hpick : ∀ l, (pick l).Perm l) {fuel : Nat}
    {c c' : Cache K} (h : Inv c) {k : K} {v : Value} {t : Option Int} {now : Int}
    (hrun : Set pick fuel c k v t now = .ok c') (hnil : c.EvictionChannel = none) :
    c'.EvictionChannel = none := by
  obtain ⟨evs, h1, _⟩ := Set_evictions hpick h hrun
  rw [h1, hnil]; rfl

/-- Source: `Cache.Set`, from a state within the size bound: it returns with a fuel
of `maxLen + 1`, when the channel takes the records of the entries to evict, and stays
within the bound. -/
theorem Set_bounded {c : Cache K} (h : Inv c) (hb : Bounded c) {pick : List K → List K}
    (hpick : ∀ l, (pick l).Perm l) {fuel : Nat} (hfuel : c.maxLen + 1 ≤ fuel)
    (hroom : Room c (c.len + 1 - c.maxLen)) (k : K)
    (value : Value) (expireAt : Option Int) (now : Int) :
    ∃ c', Set pick fuel c k value expireAt now = .ok c' ∧ Inv c' ∧ Bounded c' ∧
      c'.maxLen = c.maxLen := by
  cases hk : mapGet c.values k with
  | some e =>
    obtain ⟨c1, _, _, h1, h2, _, _, _, h3, h4, _⟩ := Set_overwrite h pick fuel hk value expireAt now
    refine ⟨c1, h1, h2, ?_, h4⟩
    intro hpos; rw [h3, h4]; rw [h4] at hpos; exact hb hpos
  | none =>
    obtain ⟨c2, np, hInv2, _, hl2, hm2, hch2, _, _, _, hset⟩ :=
      Set_insert h pick fuel hk value expireAt now
    rw [hset]
    split
    · rename_i hc
      have hlen := hb hc.1
      have hcnt : c.len + 1 - c.maxLen ≤ c2.len := by omega
      have hfl : c.len + 1 - c.maxLen ≤ (fuel : Int) := by omega
      obtain ⟨c3, evs, hev, hInv3, hEv, hn⟩ :=
        evictNoLock_ok hpick hInv2 hcnt hfl (hroom.sameChan hch2)
      rw [hev]
      refine ⟨c3, rfl, hInv3, ?_, by rw [hEv.maxLen, hm2]⟩
      intro _
      have := hEv.len
      rw [hEv.maxLen, hm2]
      omega
    · rename_i hc
      refine ⟨c2, rfl, hInv2, ?_, hm2⟩
      intro hpos
      rw [hm2] at hpos ⊢
      rw [hl2]
      by_contra hcon
      exact hc ⟨hpos, by omega⟩

/-- Source: `Cache.MSet`, from a state within the size bound and with a nil channel. -/
theorem MSet_bounded {pick : List K → List K} (hpick : ∀ l, (pick l).Perm l) {fuel : Nat}
    (expiresAt : Option Int) (now : Int) :
    ∀ (kvs : List (K × Value)) (c : Cache K), Inv c → Bounded c → c.maxLen + 1 ≤ fuel →
    c.EvictionChannel = none →
    ∃ c', MSet pick fuel kvs c expiresAt now = .ok c' ∧ Inv c' ∧ Bounded c' ∧
      c'.maxLen = c.maxLen ∧ c'.EvictionChannel = none := by
  intro kvs
  induction kvs with
  | nil => intro c h hb _ hnil; exact ⟨c, rfl, h, hb, rfl, hnil⟩
  | cons p kvs ih =>
    intro c h hb hfuel hnil
    obtain ⟨k, v⟩ := p
    obtain ⟨c1, h1, hInv1, hb1, hm1⟩ :=
      Set_bounded h hb hpick hfuel (Room.of_nil hnil _) k v expiresAt now
    obtain ⟨c', h2, hInv2, hb2, hm2, hn2⟩ := ih c1 hInv1 hb1 (by rw [hm1]; exact hfuel)
      (Set_chan_nil hpick h h1 hnil)
    exact ⟨c', by simp only [MSet, h1, h2], hInv2, hb2, by rw [hm2, hm1], hn2⟩


end bounded

end lfu

namespace cache

open lfu

section tierlemmas

variable {K R : Type} [DecidableEq K]

/-- Source: `LocalCache.Get`. -/
theorem localGet_spec {l : LocalCache K} (h : Inv l.cache) (k : K) (now : Int) :
    ∃ c', lfu.Get l.cache k now = .ok (c', getVal l.cache k now) ∧ Inv c' ∧
      (∀ k', getVal c' k' now = getVal l.cache k' now) ∧ c'.len ≤ l.cache.len ∧
      c'.maxLen = l.cache.maxLen ∧
      LocalCache.Get l k now =
        .ok ({ l with cache := c' }, getVal l.cache k now,
             !decide (getVal l.cache k now = Value.nil)) := by
  obtain ⟨c', h1, h2, h3, h4, h5⟩ := Get_getVal h k now
  refine ⟨c', h1, h2, h3, h4, h5, ?_⟩
  simp only [LocalCache.Get, h1]
  split
  · rename_i hv; simp [hv]
  · rename_i hv; simp [hv]

theorem collectValues_spec (valueMap : List (K × Value)) :
    ∀ (keyList : List K) (values : List (K × Value)) (k : K),
    mapGet (collectValues valueMap keyList values) k =
      if k ∈ keyList ∧ (∃ v, mapGet valueMap k = some v ∧ v ≠ Value.nil) then mapGet valueMap k
      else mapGet values k := by
  intro keyList
  induction keyList with
  | nil => intro values k; simp [collectValues]
  | cons k0 keyList ih =>
    intro values k
    simp only [collectValues]
    cases h0 : mapGet valueMap k0 with
    | none =>
      simp only [ih]
      by_cases hk : k = k0
      · subst hk; simp [h0]
      · simp [hk]
    | some v0 =>
      by_cases hv : v0 = Value.nil
      · simp only [hv, ne_eq, not_true_eq_false, if_false, ih]
        by_cases hk : k = k0
        · subst hk; simp [h0, hv]
        · simp [hk]
      · simp only [ne_eq, hv, not_false_eq_true, if_true, ih, mapGet_mapSet]
        by_cases hk : k = k0
        · subst hk; simp [h0, hv]
        · simp [hk, Ne.symm hk]

/-- Source: `LocalCache.MultiGet`: the result holds the requested keys for which
`Get` reports a non-nil value. -/
theorem localMultiGet_spec {l : LocalCache K} (h : Inv l.cache) (ks : List K)
    (now : Int) :
    ∃ l' vals, LocalCache.MultiGet l ks now = .ok (l', vals) ∧ Inv l'.cache ∧
      l'.DefaultExpiredDuration = l.DefaultExpiredDuration ∧
      l'.cache.len ≤ l.cache.len ∧ l'.cache.maxLen = l.cache.maxLen ∧
      (∀ k, mapGet vals k =
        if k ∈ ks ∧ getVal l.cache k now ≠ Value.nil then some (getVal l.cache k now)
        else none) := by
  by_cases hks : ks.length = 0
  · refine ⟨l, [], by simp [LocalCache.MultiGet, hks], h, rfl, le_refl _, rfl, ?_⟩
    intro k
    have : ks = [] := List.length_eq_zero.1 hks
    simp [this, mapGet]
  · obtain ⟨c', res, h1, h2, h3, _, h5, h6⟩ := MGet_spec h ks now
    refine ⟨{ l with cache := c' }, collectValues res ks [],
      by simp only [LocalCache.MultiGet, hks, if_false, h1], h2, rfl, h5, h6, ?_⟩
    intro k
    rw [collectValues_spec, h3 k]
    by_cases hk : k ∈ ks
    · by_cases hv : getVal l.cache k now = Value.nil
      · simp [hk, hv, mapGet]
      · simp [hk, hv]
    · simp [hk, mapGet]

/-- Source: `LocalCache.Set` returns when the fuel covers the size after the insertion
and the channel takes the records of the entries to evict. -/
theorem localSet_spec (env : Env K R) (hpick : ∀ ls, (env.pick ls).Perm ls)
    {l : LocalCache K} (h : Inv l.cache) (hfuel : l.cache.len + 1 ≤ env.fuel) (k : K)
    (hroom : SetRoom l.cache k) (v : Value) (now : Int) :
    ∃ c', lfu.Set env.pick env.fuel l.cache k v (some (now + l.DefaultExpiredDuration)) now
        = .ok c' ∧ Inv c' ∧ LocalCache.Set env l k v now = .ok { l with cache := c' } := by
  obtain ⟨c', h1, h2, _⟩ :=
    Set_ok h hpick hfuel k hroom v (some (now + l.DefaultExpiredDuration)) now
  exact ⟨c', h1, h2, by simp only [LocalCache.Set, h1]⟩

/-- Source: `LocalCache.MultiGet` sends nothing. -/
theorem localMultiGet_chan {l l' : LocalCache K} (h : Inv l.cache) {ks : List K}
    {now : Int} {vals : List (K × Value)}
    (hrun : LocalCache.MultiGet l ks now = .ok (l', vals)) :
    l'.cache.EvictionChannel = l.cache.EvictionChannel := by
  unfold LocalCache.MultiGet at hrun
  split at hrun
  · cases hrun; rfl
  · cases hm : lfu.MGet l.cache ks now with
    | error f => rw [hm] at hrun; cases hrun
    | ok r =>
      obtain ⟨c1, valueMap⟩ := r
      rw [hm] at hrun
      cases hrun
      exact MGetLoop_chan now ks l.cache c1 [] valueMap h hm

/-- Source: `LocalCache.MultiSet`, from a state within the size bound and with a nil
channel. -/
theorem localMultiSet_bounded (env : Env K R) (hpick : ∀ ls, (env.pick ls).Perm ls)
    {l : LocalCache K} (h : Inv l.cache) (hb : Bounded l.cache)
    (hfuel : l.cache.maxLen + 1 ≤ env.fuel) (hnil : l.cache.EvictionChannel = none)
    (kvs : List (K × Value)) (now : Int) :
    ∃ l', LocalCache.MultiSet env l kvs now = .ok l' ∧ Inv l'.cache ∧ Bounded l'.cache ∧
      l'.cache.maxLen = l.cache.maxLen ∧
      l'.DefaultExpiredDuration = l.DefaultExpiredDuration ∧
      l'.cache.EvictionChannel = none := by
  unfold LocalCache.MultiSet
  by_cases hk : kvs.length = 0
  · simp only [hk, if_true]; exact ⟨l, rfl, h, hb, rfl, rfl, hnil⟩
  · simp only [hk, if_false]
    by_cases hd : l.DefaultExpiredDuration > 0
    · simp only [hd, if_true]
      obtain ⟨c', h1, h2, h3, h4, h5⟩ :=
        MSet_bounded hpick (some (now + l.DefaultExpiredDuration)) now
          (nonNilPairs kvs []) l.cache h hb hfuel hnil
      rw [h1]; exact ⟨_, rfl, h2, h3, h4, rfl, h5⟩
    · simp only [hd, if_false]
      obtain ⟨c', h1, h2, h3, h4, h5⟩ := MSet_bounded hpick none now
        (nonNilPairs kvs []) l.cache h hb hfuel hnil
      rw [h1]; exact ⟨_, rfl, h2, h3, h4, rfl, h5⟩

/-- The pairs that `LocalCache.MultiSet` hands to the engine have a non-nil value and
come from its argument. -/
theorem nonNilPairs_sound : ∀ (kvs kvMap : List (K × Value)) (k : K) (v : Value),
    mapGet (nonNilPairs kvs kvMap) k = some v →
      (v ≠ Value.nil ∧ (k, v) ∈ kvs) ∨ mapGet kvMap k = some v := by
  intro kvs
  induction kvs with
  | nil => intro kvMap k v h; right; simpa [nonNilPairs] using h
  | cons p kvs ih =>
    intro kvMap k v h
    obtain ⟨k0, v0⟩ := p
    simp only [nonNilPairs] at h
    split at h
    · rename_i hv0
      rcases ih _ k v h with ⟨h1, h2⟩ | h1
      · left; exact ⟨h1, List.mem_cons_of_mem _ h2⟩
      · rw [mapGet_mapSet] at h1
        split at h1
        · rename_i hk; cases h1; subst hk; left; exact ⟨hv0, by simp⟩
        · right; exact h1
    · rcases ih _ k v h with ⟨h1, h2⟩ | h1
      · left; exact ⟨h1, List.mem_cons_of_mem _ h2⟩
      · right; exact h1

/-- A pair with a nil value is not handed to the engine. -/
theorem nonNilPairs_nil_free (kvs : List (K × Value)) (k : K) :
    mapGet (nonNilPairs kvs []) k ≠ some Value.nil := by
  intro h
  rcases nonNilPairs_sound kvs [] k Value.nil h with ⟨h1, _⟩ | h1
  · exact h1 rfl
  · simp [mapGet] at h1

theorem successfulValues_str : ∀ (results : List (K × Option String)) (values : List (K × Value))
    (k : K) (v : Value), mapGet (successfulValues results values) k = some v →
      (∃ s, v = Value.str s) ∨ mapGet values k = some v := by
  intro results
  induction results with
  | nil => intro values k v h; right; simpa [successfulValues] using h
  | cons p results ih =>
    intro values k v h
    obtain ⟨k0, o⟩ := p
    cases o with
    | none => simp only [successfulValues] at h; exact ih _ k v h
    | some s =>
      simp only [successfulValues] at h
      rcases ih _ k v h with h1 | h1
      · left; exact h1
      · rw [mapGet_mapSet] at h1
        split at h1
        · cases h1; left; exact ⟨s, rfl⟩
        · right; exact h1

/-- Source: `RedisCache.MultiGet` returns strings only. -/
theorem redisMultiGet_str (env : Env K R) (r : RedisCache R) (ks : List K) (k : K)
    (v : Value) (h : mapGet (RedisCache.MultiGet env r ks).2 k = some v) : ∃ s, v = Value.str s := by
  unfold RedisCache.MultiGet at h
  split at h
  · simp [mapGet] at h
  · split at h
    rename_i conn execOk outs _
    split at h
    · rcases successfulValues_str _ _ k v h with h1 | h1
      · exact h1
      · simp [mapGet] at h1
    · simp [mapGet] at h

theorem marshalled_ok {jm : Value → Option String} {v : Value} (hv : v ≠ Value.strPtr none) :
    MarshalToValue jm v = .ok (marshalled jm v) := by
  unfold marshalled
  cases v with
  | nil => simp [MarshalToValue]
  | str s => simp [MarshalToValue]
  | strPtr p =>
    cases p with
    | none => exact absurd rfl hv
    | some s => simp [MarshalToValue]
  | other n => simp [MarshalToValue]

/-- The loop of `MultiGetValuesAndMisses`, when no value of `vMap` is a nil pointer
to a string. -/
theorem valuesAndMisses_spec (jm : Value → Option String) (vMap : List (K × Value)) :
    ∀ (ks misses0 : List K) (values0 : List (K × Value)),
    (∀ k ∈ ks, mapGet vMap k ≠ some (Value.strPtr none)) →
    ∃ values1, valuesAndMisses jm vMap ks misses0 values0 =
        .ok (misses0 ++ missesOf vMap ks, values1) ∧
      ∀ k, mapGet values1 k =
        if k ∈ ks then
          match mapGet vMap k with
          | some v => some (Value.str (marshalled jm v))
          | none => mapGet values0 k
        else mapGet values0 k := by
  intro ks
  induction ks with
  | nil => intro misses0 values0 _; exact ⟨values0, by simp [valuesAndMisses, missesOf], by simp⟩
  | cons k0 ks ih =>
    intro misses0 values0 hptr
    have hptr' : ∀ k ∈ ks, mapGet vMap k ≠ some (Value.strPtr none) :=
      fun k hk => hptr k (List.mem_cons_of_mem _ hk)
    cases h0 : mapGet vMap k0 with
    | none =>
      obtain ⟨values1, h1, h2⟩ := ih (misses0 ++ [k0]) values0 hptr'
      refine ⟨values1, ?_, ?_⟩
      · simp only [valuesAndMisses, h0, h1, missesOf, List.filter_cons, Option.isNone_none,
          if_true, List.append_assoc, List.singleton_append]
      · intro k
        rw [h2 k]
        by_cases hk : k = k0
        · subst hk; simp [h0]
        · simp [hk]
    | some v0 =>
      have hv0 : v0 ≠ Value.strPtr none := by
        intro hc; exact hptr k0 (by simp) (by rw [h0, hc])
      obtain ⟨values1, h1, h2⟩ := ih misses0 (mapSet values0 k0 (Value.str (marshalled jm v0))) hptr'
      refine ⟨values1, ?_, ?_⟩
      · simp only [valuesAndMisses, h0, marshalled_ok hv0, h1, missesOf, List.filter_cons,
          Option.isNone_some, Bool.false_eq_true, if_false]
      · intro k
        rw [h2 k]
        by_cases hk : k = k0
        · subst hk
          by_cases hin : k ∈ ks
          · simp [hin, h0]
          · simp [hin, h0, mapGet_mapSet]
        · simp only [List.mem_cons, hk, false_or, mapGet_mapSet, Ne.symm hk, if_false]

theorem loadedValues_spec (missMap : List (K × Value)) :
    ∀ (ms : List K) (values0 : List (K × Value)) (k : K),
    mapGet (loadedValues missMap ms values0) k =
      if k ∈ ms then
        match mapGet missMap k with
        | some v => some v
        | none => mapGet values0 k
      else mapGet values0 k := by
  intro ms
  induction ms with
  | nil => intro values0 k; simp [loadedValues]
  | cons k0 ms ih =>
    intro values0 k
    simp only [loadedValues]
    cases h0 : mapGet missMap k0 with
    | none =>
      simp only [ih]
      by_cases hk : k = k0
      · subst hk; simp [h0]
      · simp [hk]
    | some v0 =>
      simp only [ih]
      by_cases hk : k = k0
      · subst hk
        by_cases hin : k ∈ ms
        · simp [hin, h0]
        · simp [hin, h0, mapGet_mapSet]
      · simp only [List.mem_cons, hk, false_or, mapGet_mapSet, Ne.symm hk, if_false]

theorem mem_missesOf {vMap : List (K × Value)} {ks : List K} {k : K} :
    k ∈ missesOf vMap ks ↔ k ∈ ks ∧ mapGet vMap k = none := by
  unfold missesOf
  simp [List.mem_filter]

end tierlemmas

end cache

namespace cache

open lfu

section orchestrator

variable {K R : Type} [DecidableEq K]

theorem MultiGetValuesAndMisses_spec {S : Type} (jm : Value → Option String)
    (f : List K → Except Fault (S × List (K × Value))) (ks : List K)
    (values0 : List (K × Value)) {tier : S} {vMap : List (K × Value)}
    (hf : f ks = .ok (tier, vMap))
    (hptr : ∀ k ∈ ks, mapGet vMap k ≠ some (Value.strPtr none)) :
    ∃ values1, MultiGetValuesAndMisses jm f ks values0 =
        .ok (tier, missesOf vMap ks, vMap, values1) ∧
      ∀ k, mapGet values1 k =
        if k ∈ ks then
          match mapGet vMap k with
          | some v => some (Value.str (marshalled jm v))
          | none => mapGet values0 k
        else mapGet values0 k := by
  obtain ⟨values1, h1, h2⟩ := valuesAndMisses_spec jm vMap ks [] values0 hptr
  refine ⟨values1, ?_, h2⟩
  simp only [MultiGetValuesAndMisses, hf, h1, List.nil_append]

/-- Source: `LayeredCache.MultiGet`, for a non-empty list of keys, a local tier whose
engine satisfies the invariant and the size bound and has no eviction channel (the
`cache` package never sets one), and no nil pointer to a string among the values the
local tier serves. -/
theorem layeredMultiGet_spec (env : Env K R) (l : LayeredCache K R) (ks : List K)
    (now : Int) (hks : ks ≠ []) (hpick : ∀ ls, (env.pick ls).Perm ls)
    (hInv : Inv l.localCache.cache) (hb : Bounded l.localCache.cache)
    (hfuel : l.localCache.cache.maxLen + 1 ≤ env.fuel)
    (hnil : l.localCache.cache.EvictionChannel = none)
    (hptr : ∀ k ∈ ks, getVal l.localCache.cache k now ≠ Value.strPtr none) :
    ∃ l' result local1 vMap1 redis2 vMap2 loaded local3,
      LayeredCache.MultiGet env l ks now = .ok (l', result) ∧
      LocalCache.MultiGet l.localCache ks now = .ok (local1, vMap1) ∧
      RedisCache.MultiGet env l.redisCache (missesOf vMap1 ks) = (redis2, vMap2) ∧
      loaded = (if missesOf vMap2 (missesOf vMap1 ks) = [] then []
                else l.dbLoader (missesOf vMap2 (missesOf vMap1 ks))) ∧
      LocalCache.MultiSet env local1 vMap2 now = .ok local3 ∧
      LocalCache.MultiSet env local3 loaded now = .ok l'.localCache ∧
      l'.redisCache = RedisCache.MultiSet env redis2 loaded ∧
      l'.dbLoader = l.dbLoader ∧
      l'.trace = l.trace ++
        (if missesOf vMap1 ks = [] then [] else [Call.remoteMultiGet (missesOf vMap1 ks)]) ++
        (if missesOf vMap2 (missesOf vMap1 ks) = [] then []
         else [Call.load (missesOf vMap2 (missesOf vMap1 ks))]) ++
        (if loaded = [] then [] else [Call.remoteMultiSet loaded]) ∧
      (∀ k, mapGet result k =
        if k ∈ ks then
          match mapGet vMap1 k with
          | some v => some (Value.str (marshalled env.jsonMarshal v))
          | none =>
            match mapGet vMap2 k with
            | some v => some (Value.str (marshalled env.jsonMarshal v))
            | none => mapGet loaded k
        else none) ∧
      (∀ k, mapGet vMap1 k =
        if k ∈ ks ∧ getVal l.localCache.cache k now ≠ Value.nil
        then some (getVal l.localCache.cache k now) else none) ∧
      Inv l'.localCache.cache ∧ Bounded l'.localCache.cache ∧
      l'.localCache.cache.maxLen = l.localCache.cache.maxLen ∧
      l'.localCache.cache.EvictionChannel = none := by
  have hlen : ¬ ks.length = 0 := fun h => hks (List.length_eq_zero.1 h)
  -- the local tier
  obtain ⟨local1, vMap1, hA, hInv1, hd1, hl1, hm1, hv1⟩ :=
    localMultiGet_spec hInv ks now
  have hb1 : Bounded local1.cache := Bounded_of_le hb hl1 hm1
  have hfuel1 : local1.cache.maxLen + 1 ≤ env.fuel := by rw [hm1]; exact hfuel
  have hptr1 : ∀ k ∈ ks, mapGet vMap1 k ≠ some (Value.strPtr none) := by
    intro k hk hc
    rw [hv1 k] at hc
    split at hc
    · exact hptr k hk (Option.some.inj hc)
    · cases hc
  obtain ⟨values1, hB, hvals1⟩ := MultiGetValuesAndMisses_spec env.jsonMarshal
    (fun ks => l.localCache.MultiGet ks now) ks [] hA hptr1
  -- the remote tier
  cases hR : RedisCache.MultiGet env l.redisCache (missesOf vMap1 ks) with
  | mk redis2 vMap2 =>
  have hptr2 : ∀ k ∈ missesOf vMap1 ks, mapGet vMap2 k ≠ some (Value.strPtr none) := by
    intro k _ hc
    have := redisMultiGet_str env l.redisCache (missesOf vMap1 ks) k _ (by rw [hR]; exact hc)
    obtain ⟨s, hs⟩ := this
    cases hs
  have hR2 : (fun ks => (Except.ok (l.redisCache.MultiGet env ks) :
      Except Fault (RedisCache R × List (K × Value)))) (missesOf vMap1 ks) = .ok (redis2, vMap2) := by
    simp only [hR]
  obtain ⟨values2, hC, hvals2⟩ := MultiGetValuesAndMisses_spec env.jsonMarshal
    (fun ks => .ok (l.redisCache.MultiGet env ks)) (missesOf vMap1 ks) values1 hR2 hptr2
  have hnil1 : local1.cache.EvictionChannel = none := by
    rw [localMultiGet_chan hInv hA]; exact hnil
  obtain ⟨local3, hD, hInv3, hb3, hm3, hd3, hnil3⟩ :=
    localMultiSet_bounded env hpick hInv1 hb1 hfuel1 hnil1 vMap2 now
  have hfuel3 : local3.cache.maxLen + 1 ≤ env.fuel := by rw [hm3]; exact hfuel1
  obtain ⟨local5, hE, hInv5, hb5, hm5, hd5, hnil5⟩ :=
    localMultiSet_bounded env hpick hInv3 hb3 hfuel3 hnil3
      (if missesOf vMap2 (missesOf vMap1 ks) = [] then []
       else l.dbLoader (missesOf vMap2 (missesOf vMap1 ks))) now
  have hm15 : local5.cache.maxLen = l.localCache.cache.maxLen := by rw [hm5, hm3, hm1]
  -- the value of the result for a key without a local hit
  have hres1 : ∀ k, mapGet values1 k =
      if k ∈ ks then
        match mapGet vMap1 k with
        | some v => some (Value.str (marshalled env.jsonMarshal v))
        | none => none
      else none := by
    intro k; rw [hvals1 k]; simp [mapGet]
  have hres2 : ∀ k, mapGet values2 k =
      if k ∈ ks then
        match mapGet vMap1 k with
        | some v => some (Value.str (marshalled env.jsonMarshal v))
        | none =>
          match mapGet vMap2 k with
          | some v => some (Value.str (marshalled env.jsonMarshal v))
          | none => none
      else none := by
    intro k
    rw [hvals2 k, hres1 k]
    by_cases hk : k ∈ ks
    · cases h1 : mapGet vMap1 k with
      | some v =>
        have : k ∉ missesOf vMap1 ks := by
          rw [mem_missesOf]; intro hc; rw [hc.2] at h1; cases h1
        simp [hk, this]
      | none =>
        have : k ∈ missesOf vMap1 ks := mem_missesOf.2 ⟨hk, h1⟩
        simp only [this, hk, if_true]
    · have : k ∉ missesOf vMap1 ks := by
        rw [mem_missesOf]; intro hc; exact hk hc.1
      simp [hk, this]
  unfold LayeredCache.MultiGet
  simp only [hlen, if_false, hB]
  by_cases hm1e : missesOf vMap1 ks = []
  · -- every key was found in the local tier
    have hR' : redis2 = l.redisCache ∧ vMap2 = [] := by
      rw [hm1e] at hR
      simp only [RedisCache.MultiGet, List.length_nil, if_true, Prod.mk.injEq] at hR
      exact ⟨hR.1.symm, hR.2.symm⟩
    obtain ⟨hr2, hv2⟩ := hR'
    subst hr2; subst hv2
    have hD' : local3 = local1 := by
      simp only [LocalCache.MultiSet, List.length_nil, if_true] at hD
      cases hD; rfl
    subst hD'
    have hE' : local5 = local3 := by
      rw [hm1e] at hE
      simp only [missesOf, List.filter_nil, if_true, LocalCache.MultiSet, List.length_nil] at hE
      cases hE; rfl
    subst hE'
    refine ⟨{ l with localCache := local5 }, values1, local5, vMap1, l.redisCache, [], [], local5,
      ?_, hA, hR, ?_, hD, ?_, ?_, rfl, ?_, ?_, hv1, hInv5, hb5, hm15, hnil5⟩
    · simp only [hm1e, List.length_nil, if_true]
    · rw [hm1e]; simp [missesOf]
    · simp [LocalCache.MultiSet]
    · simp [RedisCache.MultiSet]
    · rw [hm1e]; simp [missesOf]
    · intro k
      rw [hres1 k]
      by_cases hk : k ∈ ks
      · cases h1 : mapGet vMap1 k with
        | some v => simp [hk]
        | none =>
          have : k ∈ missesOf vMap1 ks := mem_missesOf.2 ⟨hk, h1⟩
          rw [hm1e] at this; simp at this
      · simp [hk]
  · have hm1l : ¬ (missesOf vMap1 ks).length = 0 := fun h => hm1e (List.length_eq_zero.1 h)
    simp only [hm1l, if_false, hC]
    have hD2 : backfillLocal env local1 vMap2 now = .ok local3 := by
      unfold backfillLocal
      by_cases hv2 : vMap2.length > 0
      · simp only [hv2, if_true, hD]
      · have : vMap2 = [] := List.length_eq_zero.1 (by omega)
        subst this
        have hD' : local3 = local1 := by
          simp only [LocalCache.MultiSet, List.length_nil, if_true] at hD
          cases hD; rfl
        subst hD'
        simp
    simp only [hD2]
    by_cases hm2e : missesOf vMap2 (missesOf vMap1 ks) = []
    · -- every remaining key was found in the remote tier
      have hE' : local5 = local3 := by
        simp only [hm2e, if_true, LocalCache.MultiSet, List.length_nil] at hE
        cases hE; rfl
      subst hE'
      refine ⟨{ l with localCache := local5, redisCache := redis2,
                       trace := l.trace ++ [Call.remoteMultiGet (missesOf vMap1 ks)] },
        values2, local1, vMap1, redis2, vMap2, [], local5,
        by simp only [hm2e, List.length_nil, if_true], hA, hR, ?_, hD, ?_, ?_, rfl, ?_, ?_,
        hv1, hInv5, hb5, hm15, hnil5⟩
      · simp [hm2e]
      · simp [LocalCache.MultiSet]
      · simp [RedisCache.MultiSet]
      · simp [hm1e, hm2e]
      · intro k
        rw [hres2 k]
        by_cases hk : k ∈ ks
        · simp only [hk, if_true]
          cases h1 : mapGet vMap1 k with
          | some v => rfl
          | none =>
            cases h2 : mapGet vMap2 k with
            | some v => rfl
            | none =>
              have : k ∈ missesOf vMap2 (missesOf vMap1 ks) :=
                mem_missesOf.2 ⟨mem_missesOf.2 ⟨hk, h1⟩, h2⟩
              rw [hm2e] at this; simp at this
        · simp [hk]
    · have hm2l : ¬ (missesOf vMap2 (missesOf vMap1 ks)).length = 0 :=
        fun h => hm2e (List.length_eq_zero.1 h)
      simp only [hm2l, if_false]
      simp only [hm2e, if_false] at hE
      have hvals3 : ∀ k, mapGet (loadedValues (l.dbLoader (missesOf vMap2 (missesOf vMap1 ks)))
            (missesOf vMap2 (missesOf vMap1 ks)) values2) k =
          if k ∈ ks then
            match mapGet vMap1 k with
            | some v => some (Value.str (marshalled env.jsonMarshal v))
            | none =>
              match mapGet vMap2 k with
              | some v => some (Value.str (marshalled env.jsonMarshal v))
              | none => mapGet (l.dbLoader (missesOf vMap2 (missesOf vMap1 ks))) k
          else none := by
        intro k
        rw [loadedValues_spec, hres2 k]
        by_cases hk : k ∈ ks
        · cases h1 : mapGet vMap1 k with
          | some v =>
            have : k ∉ missesOf vMap2 (missesOf vMap1 ks) := by
              rw [mem_missesOf, mem_missesOf]; intro hc; rw [hc.1.2] at h1; cases h1
            simp [hk, this]
          | none =>
            cases h2 : mapGet vMap2 k with
            | some v =>
              have : k ∉ missesOf vMap2 (missesOf vMap1 ks) := by
                rw [mem_missesOf]; intro hc; rw [hc.2] at h2; cases h2
              simp [hk, this]
            | none =>
              have : k ∈ missesOf vMap2 (missesOf vMap1 ks) :=
                mem_missesOf.2 ⟨mem_missesOf.2 ⟨hk, h1⟩, h2⟩
              simp only [this, hk, if_true]
              cases mapGet (l.dbLoader (missesOf vMap2 (missesOf vMap1 ks))) k <;> rfl
        · have : k ∉ missesOf vMap2 (missesOf vMap1 ks) := by
            rw [mem_missesOf, mem_missesOf]; intro hc; exact hk hc.1.1
          simp [hk, this]
      by_cases hld : (l.dbLoader (missesOf vMap2 (missesOf vMap1 ks))).length > 0
      · have hldne : l.dbLoader (missesOf vMap2 (missesOf vMap1 ks)) ≠ [] := by
          intro hc; rw [hc] at hld; simp at hld
        simp only [hld, if_true, hE]
        refine ⟨_, _, local1, vMap1, redis2, vMap2, l.dbLoader (missesOf vMap2 (missesOf vMap1 ks)),
          local3, rfl, hA, hR, by simp [hm2e], hD, hE, rfl, rfl, ?_, hvals3, hv1, hInv5, hb5,
          hm15, hnil5⟩
        simp [hm1e, hm2e, hldne]
      · have hldnil : l.dbLoader (missesOf vMap2 (missesOf vMap1 ks)) = [] :=
          List.length_eq_zero.1 (by omega)
        have hE' : local5 = local3 := by
          simp only [hldnil, LocalCache.MultiSet, List.length_nil, if_true] at hE
          cases hE; rfl
        subst hE'
        simp only [hld, if_false]
        refine ⟨_, _, local1, vMap1, redis2, vMap2, l.dbLoader (missesOf vMap2 (missesOf vMap1 ks)),
          local5, rfl, hA, hR, by simp [hm2e], hD, ?_, ?_, rfl, ?_, hvals3, hv1, hInv5, hb5,
          hm15, hnil5⟩
        · simp [hldnil, LocalCache.MultiSet]
        · simp [hldnil, RedisCache.MultiSet]
        · simp [hm1e, hm2e, hldnil]

end orchestrator

end cache

namespace lfu

section keysets

variable {K : Type} [DecidableEq K]

end keysets

end lfu

namespace cache

open lfu

section keysets

variable {K R : Type} [DecidableEq K]

theorem localMultiSet_inv (env : Env K R) (hpick : ∀ ls, (env.pick ls).Perm ls)
    {l l' : LocalCache K} (h : Inv l.cache) {kvs : List (K × Value)} {now : Int}
    (hrun : LocalCache.MultiSet env l kvs now = .ok l') : Inv l'.cache := by
  have hms : ∀ (t : Option Int) (kvs : List (K × Value)) (c c' : Cache K), Inv c →
      MSet env.pick env.fuel kvs c t now = .ok c' → Inv c' := by
    intro t kvs
    induction kvs with
    | nil => intro c c' hc hr; simp only [MSet] at hr; cases hr; exact hc
    | cons p kvs ih =>
      intro c c' hc hr
      obtain ⟨k, v⟩ := p
      simp only [MSet] at hr
      cases hs : lfu.Set env.pick env.fuel c k v t now with
      | error f => rw [hs] at hr; cases hr
      | ok c1 => rw [hs] at hr; exact ih c1 c' (Set_sound hc hpick hs) hr
  unfold LocalCache.MultiSet at hrun
  split at hrun
  · cases hrun; exact h
  · simp only [] at hrun
    split at hrun
    · cases hm : MSet env.pick env.fuel (nonNilPairs kvs []) l.cache
          (some (now + l.DefaultExpiredDuration)) now with
      | error f => rw [hm] at hrun; cases hrun
      | ok c1 => rw [hm] at hrun; cases hrun; exact hms _ _ _ _ h hm
    · cases hm : MSet env.pick env.fuel (nonNilPairs kvs []) l.cache none now with
      | error f => rw [hm] at hrun; cases hrun
      | ok c1 => rw [hm] at hrun; cases hrun; exact hms _ _ _ _ h hm

end keysets

end cache

namespace cache

open lfu

section claims

variable {K R : Type} [DecidableEq K]

/-- Source: `LayeredCache.Get` when the local tier has a non-nil value: the value is
returned, and neither the remote tier nor the loader is called. -/
theorem layeredGet_local_hit (env : Env K R) (l : LayeredCache K R) (key : K) (now : Int)
    (hInv : Inv l.localCache.cache) (hv : getVal l.localCache.cache key now ≠ Value.nil) :
    ∃ l2, LayeredCache.Get env l key now = .ok (l2, getVal l.localCache.cache key now) ∧
      l2.trace = l.trace ∧ l2.redisCache = l.redisCache ∧ l2.dbLoader = l.dbLoader ∧
      Inv l2.localCache.cache := by
  obtain ⟨c', _, hInv', _, _, _, hget⟩ := localGet_spec hInv key now
  refine ⟨{ l with localCache := { l.localCache with cache := c' } }, ?_, rfl, rfl, rfl, hInv'⟩
  simp only [LayeredCache.Get, hget, hv, decide_False, Bool.not_false, if_true]

/-- Counterexample to C7: with a local capacity of 1 and the keys 1 and 2 at frequency
2 in the local tier, `Get(3)` loads "v" and writes it to both tiers, but the local write
is undone by the capacity eviction it triggers; the `Get(3)` that follows calls the
remote tier. -/
theorem C7_counterexample :
    getAll demoEnv [(1, 0), (2, 1), (1, 2), (2, 3)] demoLayered =
      .ok (demoWarm, [.str "v", .str "v", .str "v", .str "v"]) ∧
    getVal demoWarm.localCache.cache 3 4 = Value.nil ∧
    (demoEnv.client.Get demoWarm.redisCache.redis (demoEnv.keyString 3)).2 = none ∧
    mapGet (demoWarm.dbLoader [3]) 3 = some (.str "v") ∧
    LayeredCache.Get demoEnv demoWarm 3 4 = .ok (demoMissed, .str "v") ∧
    3 ∉ keys demoMissed.localCache.cache ∧
    (LayeredCache.Get demoEnv demoMissed 3 5).toOption.map
        (fun r => (r.2, r.1.trace.drop demoMissed.trace.length)) =
      some (.str "v", [Call.remoteGet 3]) :=
  ⟨rfl, rfl, rfl, rfl, rfl, by decide, rfl⟩

/-- C7, amended: from a state where the local tier and the remote tier both miss `K`
and the loader maps `K` to `V`, `Get(K)` returns `V` after one read of the remote tier
and one call of the loader, and writes `V` under `K` to the local and to the remote tier.  The
entry stays in the local tier when the capacity is disabled or the size after the write
is at most twice the capacity; and provided it has stayed and `V` is not nil, a
following `Get(K)` within the default time-to-live returns `V` from the local tier
without calling the remote tier or the loader.  The first `Get(K)` returns when the
eviction channel of the local engine, if it has one, takes the records of the entries
that the local write evicts; the `cache` package sets no channel. -/
theorem C7_get_cascade_then_local_hit (env : Env K R) (l : LayeredCache K R) (key : K)
    (V : Value) (now : Int) (hpick : ∀ ls, (env.pick ls).Perm ls)
    (hInv : Inv l.localCache.cache) (hfuel : l.localCache.cache.len + 1 ≤ env.fuel)
    (hroom : Room l.localCache.cache
      (l.localCache.cache.len + 1 - l.localCache.cache.maxLen))
    (hlocal : getVal l.localCache.cache key now = Value.nil)
    (hremote : (env.client.Get l.redisCache.redis (env.keyString key)).2 = none)
    (hload : mapGet (l.dbLoader [key]) key = some V) :
    ∃ l1 local0 redis0, LayeredCache.Get env l key now = .ok (l1, V) ∧
      LocalCache.Get l.localCache key now = .ok (local0, Value.nil, false) ∧
      RedisCache.Get env l.redisCache key = (redis0, Value.nil, false) ∧
      LocalCache.Set env local0 key V now = .ok l1.localCache ∧
      l1.redisCache = RedisCache.Set env redis0 key V ∧
      l1.trace = l.trace ++ [Call.remoteGet key, Call.load [key], Call.remoteSet key V] ∧
      ((l.localCache.cache.maxLen ≤ 0 ∨
          l.localCache.cache.len + 1 ≤ 2 * l.localCache.cache.maxLen) →
        key ∈ keys l1.localCache.cache) ∧
      (V ≠ Value.nil → key ∈ keys l1.localCache.cache →
        ∀ now', now' ≤ now + l.localCache.DefaultExpiredDuration →
          ∃ l2, LayeredCache.Get env l1 key now' = .ok (l2, V) ∧ l2.trace = l1.trace ∧
            l2.redisCache = l1.redisCache) := by
  obtain ⟨c0, hg0, hInv0, _, hlen0, hmax0, hget⟩ := localGet_spec hInv key now
  rw [hlocal] at hget
  have hfuel0 : c0.len + 1 ≤ (env.fuel : Int) := by omega
  have hroom0 : Room c0 (c0.len + 1 - c0.maxLen) :=
    (hroom.sameChan (Get_chan hInv hg0)).mono (by rw [hmax0]; omega)
  obtain ⟨c1, hset1, hInv1, hlset⟩ := localSet_spec env hpick
    (l := { l.localCache with cache := c0 }) hInv0 hfuel0 key (SetRoom_of_Room hroom0 key) V
    now
  cases hcg : env.client.Get l.redisCache.redis (env.keyString key) with
  | mk conn o =>
  rw [hcg] at hremote
  simp only [] at hremote
  subst hremote
  have hrg : RedisCache.Get env l.redisCache key =
      ({ l.redisCache with redis := conn }, Value.nil, false) := by
    simp only [RedisCache.Get, hcg]
  refine ⟨{ l with localCache := { l.localCache with cache := c1 },
                   redisCache := RedisCache.Set env { l.redisCache with redis := conn } key V,
                   trace := l.trace ++ [Call.remoteGet key] ++ [Call.load [key]] ++
                     [Call.remoteSet key V] },
    { l.localCache with cache := c0 }, { l.redisCache with redis := conn },
    ?_, by simpa using hget, hrg, hlset, rfl, by simp, ?_, ?_⟩
  · simp only [LayeredCache.Get, hget, decide_True, Bool.not_true, Bool.false_eq_true, if_false,
      hrg, hload, hlset]
  · intro hroom
    apply Set_keeps_key hInv0 hset1
    rcases hroom with h | h
    · left; rw [hmax0]; exact h
    · right; left; rw [hmax0]; omega
  · intro hV hin now' hnow
    rw [mem_keys_iff] at hin
    cases he : mapGet c1.values key with
    | none => exact absurd he hin
    | some e =>
      obtain ⟨hval, hexp⟩ := Set_entry hpick hInv0 hset1 he
      have hgv : getVal c1 key now' = V := by
        have hex : expired e now' = false := by
          simp only [expired, hexp, decide_eq_false_iff_not, not_lt]; exact hnow
        simp only [getVal, he, hex, Bool.false_eq_true, if_false, hval]
      obtain ⟨l2, h1, h2, h3, _⟩ := layeredGet_local_hit env
        { l with localCache := { l.localCache with cache := c1 },
                 redisCache := RedisCache.Set env { l.redisCache with redis := conn } key V,
                 trace := l.trace ++ [Call.remoteGet key] ++ [Call.load [key]] ++
                   [Call.remoteSet key V] }
        key now' hInv1 (by rw [hgv]; exact hV)
      rw [hgv] at h1
      exact ⟨l2, h1, h2, h3⟩

/-- Witness of C7, amended: `Get(3)` on a layered cache with empty tiers, a local
capacity of 1 and a loader that knows "v" for every key. -/
theorem C7_witness :
    Inv demoLayered.localCache.cache ∧
    demoLayered.localCache.cache.len + 1 ≤ (demoEnv.fuel : Int) ∧
    demoLayered.localCache.cache.EvictionChannel = none ∧
    getVal demoLayered.localCache.cache 3 0 = Value.nil ∧
    (demoEnv.client.Get demoLayered.redisCache.redis (demoEnv.keyString 3)).2 = none ∧
    mapGet (demoLayered.dbLoader [3]) 3 = some (.str "v") ∧
    ∃ l1 local0 redis0, LayeredCache.Get demoEnv demoLayered 3 0 = .ok (l1, .str "v") ∧
      LocalCache.Get demoLayered.localCache 3 0 = .ok (local0, Value.nil, false) ∧
      RedisCache.Get demoEnv demoLayered.redisCache 3 = (redis0, Value.nil, false) ∧
      LocalCache.Set demoEnv local0 3 (.str "v") 0 = .ok l1.localCache ∧
      l1.redisCache = RedisCache.Set demoEnv redis0 3 (.str "v") ∧
      l1.trace = demoLayered.trace ++
        [Call.remoteGet 3, Call.load [3], Call.remoteSet 3 (.str "v")] ∧
      ((demoLayered.localCache.cache.maxLen ≤ 0 ∨
          demoLayered.localCache.cache.len + 1 ≤ 2 * demoLayered.localCache.cache.maxLen) →
        3 ∈ keys l1.localCache.cache) ∧
      (Value.str "v" ≠ Value.nil → 3 ∈ keys l1.localCache.cache →
        ∀ now', now' ≤ 0 + demoLayered.localCache.DefaultExpiredDuration →
          ∃ l2, LayeredCache.Get demoEnv l1 3 now' = .ok (l2, .str "v") ∧ l2.trace = l1.trace ∧
            l2.redisCache = l1.redisCache) :=
  ⟨Inv_newCache 1 Minute, by decide, rfl, rfl, rfl, rfl,
    C7_get_cascade_then_local_hit demoEnv demoLayered 3 (.str "v") 0
      (fun ls => List.Perm.refl ls) (Inv_newCache 1 Minute) (by decide) (Room.of_nil rfl _)
      rfl rfl rfl⟩

end claims

end cache

namespace cache

open lfu

section claims2

variable {K R : Type} [DecidableEq K]

/-- Counterexample to C9: on an empty cache the mapping returned by `MGet([7])` contains
the key 7, mapped to nil, although `Get(7)` finds no entry. -/
theorem C9_counterexample :
    MGet (newCache 10 60 : Cache Nat) [7] 0 = .ok (newCache 10 60, [(7, Value.nil)]) ∧
    mapGet [((7 : Nat), Value.nil)] 7 = some Value.nil ∧
    7 ∉ keys (newCache 10 60 : Cache Nat) ∧
    Get (newCache 10 60 : Cache Nat) 7 0 = .ok (newCache 10 60, Value.nil) :=
  ⟨rfl, rfl, by decide, rfl⟩

/-- C9, amended: the mapping returned by the engine's `MGet` contains every requested
key and no other key, each mapped to what `Get` returns for it, which is nil for a key
that is absent or expired.  The keys mapped to nil are left out one level up: the
mapping returned by `LocalCache.MultiGet` contains a key if and only if the key was
requested and `Get` returns a non-nil value for it. -/
theorem C9_mget_maps_every_requested_key (c : Cache K) (ks : List K) (now : Int)
    (hInv : Inv c) :
    ∃ c' res, MGet c ks now = .ok (c', res) ∧
      (∀ k, mapGet res k = if k ∈ ks then some (getVal c k now) else none) ∧
      (∀ k, ∃ c1, lfu.Get c k now = .ok (c1, getVal c k now)) ∧
      (∀ k, getVal c k now ≠ Value.nil → k ∈ keys c) ∧
      (∀ l : LocalCache K, l.cache = c →
        ∃ l' vals, LocalCache.MultiGet l ks now = .ok (l', vals) ∧
          ∀ k, mapGet vals k =
            if k ∈ ks ∧ getVal c k now ≠ Value.nil then some (getVal c k now) else none) := by
  obtain ⟨c', res, h1, _, h2, _⟩ := MGet_spec hInv ks now
  refine ⟨c', res, h1, h2, ?_, ?_, ?_⟩
  · intro k
    obtain ⟨c1, h3, _⟩ := Get_getVal hInv k now
    exact ⟨c1, h3⟩
  · intro k hk
    rw [mem_keys_iff]
    intro hc
    simp [getVal, hc] at hk
  · intro l hl
    subst hl
    obtain ⟨l', vals, h3, _, _, _, _, h4⟩ := localMultiGet_spec hInv ks now
    exact ⟨l', vals, h3, h4⟩

/-- Witness of C9, amended: `MGet([1, 7])` on a cache that holds the keys 1 and 2. -/
theorem C9_witness :
    Inv coldAndHot ∧
    ∃ c' res, MGet coldAndHot [1, 7] 10 = .ok (c', res) ∧
      (∀ k, mapGet res k = if k ∈ [1, 7] then some (getVal coldAndHot k 10) else none) ∧
      (∀ k, ∃ c1, lfu.Get coldAndHot k 10 = .ok (c1, getVal coldAndHot k 10)) ∧
      (∀ k, getVal coldAndHot k 10 ≠ Value.nil → k ∈ keys coldAndHot) ∧
      (∀ l : LocalCache Nat, l.cache = coldAndHot →
        ∃ l' vals, LocalCache.MultiGet l [1, 7] 10 = .ok (l', vals) ∧
          ∀ k, mapGet vals k =
            if k ∈ [1, 7] ∧ getVal coldAndHot k 10 ≠ Value.nil
            then some (getVal coldAndHot k 10) else none) :=
  ⟨coldAndHot_inv, C9_mget_maps_every_requested_key coldAndHot [1, 7] 10 coldAndHot_inv⟩

/-- C10: `NewLocalCache(cap, d)` does not use `d`: the default time-to-live is one
minute for every `d`, also through `NewLayeredCache`; with `d = 0` an entry written by
`Set` at time 0 expires at one minute and is gone for a `Get` after that. -/
theorem C10_default_ttl_ignores_argument :
    (∀ cap d : Int, (NewLocalCache cap d : LocalCache Nat).DefaultExpiredDuration = Minute) ∧
    (∀ memCap memExpire redisExpire : Int,
      (NewLayeredCache ([] : List (String × String)) demoLoader memCap memExpire
        redisExpire).localCache.DefaultExpiredDuration = Minute) ∧
    (LocalCache.Set demoEnv (NewLocalCache 10 0) 1 (.str "v") 0).toOption.map
        (fun l => l.cache.values.map (fun p => p.2.expireAt)) = some [some Minute] ∧
    ((LocalCache.Set demoEnv (NewLocalCache 10 0) 1 (.str "v") 0).toOption.bind
        (fun l => (LocalCache.Get l 1 (Minute + 1)).toOption)).map (fun r => r.2) =
      some (Value.nil, false) :=
  ⟨fun _ _ => rfl, fun _ _ _ => rfl, by decide, by decide⟩

end claims2

end cache

namespace lfu

section claims3

variable {K : Type} [DecidableEq K]

/-- Removing the entry of `k` leaves the frequency of every other key. -/
theorem freqOf_del {c : Cache K} (h : Inv c) {k k' : K} (p : Nat) (n : Int) (hkk : k ≠ k') :
    freqOf { c with values := mapDel c.values k, freqs := remFreqs c.freqs p k, len := n } k' =
      freqOf c k' := by
  cases he' : mapGet c.values k' with
  | none => simp [freqOf, mapGet_mapDel, hkk, he']
  | some e' =>
    obtain ⟨el', hel', hf', hin', hfq⟩ := freqOf_eq h he'
    rw [hfq]
    simp only [freqOf, mapGet_mapDel, hkk, if_false, he', hf', Option.some_bind]
    exact bucketFreq_remFreqs h.addrNodup hel' ⟨k', hin', Ne.symm hkk⟩

/-- When the entry of `k` is moved, the frequency of every other key stays. -/
theorem freqOf_frame {c c' : Cache K} (h : Inv c) {k k' : K} {e1 : cacheEntry K}
    (hv : c'.values = mapSet c.values k e1)
    (hfr : ∀ el ∈ c.freqs, (∃ k'' ∈ el.Value.entries, k'' ≠ k) →
      bucketFreq c'.freqs el.addr = some el.Value.freq)
    (hkk : k' ≠ k) : freqOf c' k' = freqOf c k' := by
  have hne : ¬ k = k' := fun hc => hkk hc.symm
  cases he' : mapGet c.values k' with
  | none => simp [freqOf, hv, mapGet_mapSet, hne, he']
  | some e' =>
    obtain ⟨el', hel', hf', hin', hfq⟩ := freqOf_eq h he'
    rw [hfq]
    simp only [freqOf, hv, mapGet_mapSet, hne, if_false, he', hf', Option.some_bind]
    exact hfr el' hel' ⟨k', hin', hkk⟩

/-- The frequency of an entry before it is moved is that of its bucket. -/
theorem freqOf_cur {c : Cache K} (h : Inv c) {k : K} {e : cacheEntry K} {cur : Element K}
    (hk : mapGet c.values k = some e) (hcur : cur ∈ c.freqs)
    (hf : e.freqNode = some cur.addr) : freqOf c k = some cur.Value.freq := by
  simp only [freqOf, hk, hf, Option.some_bind]
  exact bucketFreq_of_mem h.addrNodup hcur

/-- C20: `Get` of a key that is not in the cache returns nil and leaves the state as
it is. -/
theorem C20_get_absent_changes_nothing (c : Cache K) (k : K) (now : Int)
    (hk : k ∉ keys c) : Get c k now = .ok (c, Value.nil) := by
  rw [not_mem_keys_iff] at hk
  simp only [Get, hk]

/-- Witness of C20: `Get(7)` on a cache that holds the keys 1 and 2. -/
theorem C20_witness : 7 ∉ keys coldAndHot ∧ Get coldAndHot 7 10 = .ok (coldAndHot, Value.nil) :=
  ⟨by decide, C20_get_absent_changes_nothing coldAndHot 7 10 (by decide)⟩

/-- C16: `Del(k)` returns; afterwards `k` is absent and `Get(k)` reports nil; the size
is one less when `k` was present, and the state is unchanged when it was not; every
other entry stays as it is; a second `Del(k)` changes nothing. -/
theorem C16_del_removes_key_idempotent (c : Cache K) (k : K) (hInv : Inv c) :
    ∃ c', Del c k = .ok c' ∧ k ∉ keys c' ∧
      (∀ now, Get c' k now = .ok (c', Value.nil)) ∧
      (k ∈ keys c → c'.len = c.len - 1) ∧
      (k ∉ keys c → c' = c) ∧
      (∀ k', k' ≠ k → mapGet c'.values k' = mapGet c.values k' ∧ freqOf c' k' = freqOf c k') ∧
      Del c' k = .ok c' := by
  rcases Del_spec hInv k with ⟨hk, h1⟩ | ⟨e, p, hk, hp, h1, _⟩
  · have hk' : k ∉ keys c := not_mem_keys_iff.2 hk
    refine ⟨c, h1, hk', fun now => by simp only [Get, hk], fun hc => absurd hc hk',
      fun _ => rfl, fun _ _ => ⟨rfl, rfl⟩, h1⟩
  · have hnone : mapGet (mapDel c.values k) k = none := by simp [mapGet_mapDel]
    refine ⟨_, h1, not_mem_keys_iff.2 hnone, fun now => by simp only [Get, hnone],
      fun _ => rfl, fun hc => absurd (mem_keys_iff.2 (by rw [hk]; simp)) hc, ?_,
      by simp only [Del, hnone]⟩
    intro k' hkk
    have hne : k ≠ k' := fun hc => hkk hc.symm
    exact ⟨by simp [mapGet_mapDel, hne], freqOf_del hInv p _ hne⟩

/-- Witness of C16: `Del(2)` on a cache that holds the keys 1 and 2. -/
theorem C16_witness :
    ∃ c', Del coldAndHot 2 = .ok c' ∧ 2 ∉ keys c' ∧
      (∀ now, Get c' 2 now = .ok (c', Value.nil)) ∧
      (2 ∈ keys coldAndHot → c'.len = coldAndHot.len - 1) ∧
      (2 ∉ keys coldAndHot → c' = coldAndHot) ∧
      (∀ k', k' ≠ 2 → mapGet c'.values k' = mapGet coldAndHot.values k' ∧
        freqOf c' k' = freqOf coldAndHot k') ∧
      Del c' 2 = .ok c' :=
  C16_del_removes_key_idempotent coldAndHot 2 coldAndHot_inv

/-- C11: `Set(k, v, t)` on a key that is present returns, leaves the size and the keys
as they are, stores `v` and `t` in the entry, raises the frequency of the entry by
exactly one, leaves every other entry and its frequency, and sends nothing on the
eviction channel. -/
theorem C11_set_existing_key (pick : List K → List K) (fuel : Nat) (c : Cache K) (k : K)
    (v : Value) (t : Option Int) (now : Int) (hInv : Inv c) (hk : k ∈ keys c) :
    ∃ c', Set pick fuel c k v t now = .ok c' ∧ c'.len = c.len ∧ keys c' = keys c ∧
      (∃ e', mapGet c'.values k = some e' ∧ e'.value = v ∧ e'.expireAt = t) ∧
      (∃ F, freqOf c k = some F ∧ freqOf c' k = some (F + 1)) ∧
      (∀ k', k' ≠ k → mapGet c'.values k' = mapGet c.values k' ∧ freqOf c' k' = freqOf c k') ∧
      c'.EvictionChannel = c.EvictionChannel := by
  rw [mem_keys_iff] at hk
  cases he : mapGet c.values k with
  | none => exact absurd he hk
  | some e =>
    obtain ⟨c', np, cur, h1, _, hcur, hf, hv, hl, _, hch, _, hnp, hfr⟩ :=
      Set_overwrite hInv pick fuel he v t now
    refine ⟨c', h1, hl, ?_, ?_, ?_, ?_, hch⟩
    · have hin : k ∈ c.values.map Prod.fst := by
        have := mapGet_mem he
        exact List.mem_map.2 ⟨_, this, rfl⟩
      simp only [keys, hv, keys_mapSet, hin, if_true]
    · exact ⟨_, by rw [hv, mapGet_mapSet, if_pos rfl], rfl, rfl⟩
    · refine ⟨cur.Value.freq, freqOf_cur hInv he hcur hf, ?_⟩
      simp only [freqOf, hv, mapGet_mapSet, if_true, Option.some_bind, hnp]
    · intro k' hkk
      have hne : ¬ k = k' := fun hc => hkk hc.symm
      exact ⟨by simp [hv, mapGet_mapSet, hne], freqOf_frame hInv hv hfr hkk⟩

/-- Witness of C11: `Set(1, "z", 200)` on a cache that holds the keys 1 and 2. -/
theorem C11_witness :
    1 ∈ keys coldAndHot ∧
    ∃ c', Set id 10 coldAndHot 1 (.str "z") (some 200) 7 = .ok c' ∧ c'.len = coldAndHot.len ∧
      keys c' = keys coldAndHot ∧
      (∃ e', mapGet c'.values 1 = some e' ∧ e'.value = .str "z" ∧ e'.expireAt = some 200) ∧
      (∃ F, freqOf coldAndHot 1 = some F ∧ freqOf c' 1 = some (F + 1)) ∧
      (∀ k', k' ≠ 1 → mapGet c'.values k' = mapGet coldAndHot.values k' ∧
        freqOf c' k' = freqOf coldAndHot k') ∧
      c'.EvictionChannel = coldAndHot.EvictionChannel :=
  ⟨by decide, C11_set_existing_key id 10 coldAndHot 1 (.str "z") (some 200) 7 coldAndHot_inv
    (by decide)⟩

/-- The loop of `ScanAndClean` over the snapshot `rest`: the entries of the snapshot
that meet the test are removed, everything else stays. -/
theorem scanLoop_spec (lookBackTime now : Int) :
    ∀ (rest : List (K × cacheEntry K)) (c : Cache K),
    Inv c → (rest.map Prod.fst).Nodup → (∀ p ∈ rest, mapGet c.values p.1 = some p.2) →
    ∃ c', scanLoop lookBackTime now rest c = .ok c' ∧ Inv c' ∧
      (∀ k, mapGet c'.values k =
        if (mapGet rest k).any (fun e => expired e now || decide (e.visitAt < lookBackTime))
        then none else mapGet c.values k) ∧
      (∀ k, mapGet c'.values k ≠ none → freqOf c' k = freqOf c k) ∧
      c'.len = c.len -
        (rest.filter (fun p => expired p.2 now || decide (p.2.visitAt < lookBackTime))).length ∧
      c'.EvictionChannel = c.EvictionChannel ∧ c'.maxLen = c.maxLen ∧
      c'.cleanCycle = c.cleanCycle := by
  intro rest
  induction rest with
  | nil =>
    intro c h _ _
    exact ⟨c, rfl, h, by simp [mapGet], fun _ _ => rfl, by simp, rfl, rfl, rfl⟩
  | cons p rest ih =>
    intro c h hnd hrest
    obtain ⟨k0, e0⟩ := p
    simp only [List.map_cons, List.nodup_cons] at hnd
    have hk0 : mapGet c.values k0 = some e0 := hrest (k0, e0) (by simp)
    have hnone : mapGet rest k0 = none := mapGet_eq_none_iff.2 hnd.1
    by_cases hcond : (expired e0 now || decide (e0.visitAt < lookBackTime)) = true
    · obtain ⟨p, hp, hdel, hInv⟩ := delNoLock_spec h hk0
      obtain ⟨c', h1, h2, h3, h4, h5, h6, h7, h8⟩ := ih _ hInv hnd.2 (by
        intro q hq
        have hne : k0 ≠ q.1 := fun hc => hnd.1 (hc ▸ List.mem_map_of_mem Prod.fst hq)
        simp only [mapGet_mapDel, hne, if_false]
        exact hrest q (by simp [hq]))
      refine ⟨c', by simp only [scanLoop, hcond, if_true, hdel, h1], h2, ?_, ?_, ?_, h6, h7, h8⟩
      · intro k
        rw [h3 k]
        by_cases hkk : k0 = k
        · subst hkk
          simp [mapGet, hnone, hcond, mapGet_mapDel]
        · simp only [mapGet, hkk, if_false, mapGet_mapDel]
      · intro k hk
        rw [h4 k hk]
        have hkk : k0 ≠ k := by
          intro hc
          subst hc
          rw [h3 k0] at hk
          simp [hnone, mapGet_mapDel] at hk
        exact freqOf_del h p _ hkk
      · rw [h5]
        simp only [List.filter_cons, hcond, if_true, List.length_cons]
        push_cast
        omega
    · have hcond' : (expired e0 now || decide (e0.visitAt < lookBackTime)) = false := by
        simpa using hcond
      obtain ⟨c', h1, h2, h3, h4, h5, h6, h7, h8⟩ :=
        ih c h hnd.2 (fun q hq => hrest q (by simp [hq]))
      refine ⟨c', by simp only [scanLoop, hcond', Bool.false_eq_true, if_false, h1], h2, ?_, h4,
        ?_, h6, h7, h8⟩
      · intro k
        rw [h3 k]
        by_cases hkk : k0 = k
        · subst hkk
          simp [mapGet, hnone, hcond']
        · simp only [mapGet, hkk, if_false]
      · rw [h5]
        simp only [List.filter_cons, hcond', Bool.false_eq_true, if_false]

/-- The test `e.expireAt != nil && e.expireAt.Before(now)` in words. -/
theorem expired_iff (e : cacheEntry K) (now : Int) :
    expired e now = true ↔ ∃ t, e.expireAt = some t ∧ t < now := by
  unfold expired
  cases h : e.expireAt with
  | none => simp
  | some t => simp

/-- Source: `-c.cleanCycle` is the negative of the interval unless the interval is the
least value of `time.Duration`. -/
theorem negDuration_eq {d : Int} (hlo : -(2 ^ 63) < d) (hhi : d < 2 ^ 63) :
    negDuration d = -d := by
  unfold negDuration
  omega

/-- Counterexample to C12: with the least value of `time.Duration` as the sweep interval,
`-c.cleanCycle` is that value again and the look-back time lies far in the past.  The
entry of key 2 was last accessed at time 0, which is earlier than 34 minus the
interval, and has not expired; the sweep at time 34 leaves it in the cache. -/
theorem C12_counterexample :
    run id 10 coldAndHotOps (newCache 1000 minDuration) = .ok coldAndHotMin ∧
    mapGet coldAndHotMin.values 2 = some ⟨2, .str "b", some 0, some 100, 0⟩ ∧
    (0 : Int) < 34 - coldAndHotMin.cleanCycle ∧
    ScanAndClean coldAndHotMin 34 = .ok coldAndHotMin ∧
    2 ∈ keys coldAndHotMin :=
  ⟨rfl, rfl, by decide, rfl, by decide⟩

/-- C12, amended: for every sweep interval of `time.Duration` other than its least
value, `ScanAndClean` runs its loop over the key table with `now` minus the interval as
the look-back time; for every order `snap` in which the table is ranged over, the loop
returns, removes exactly the entries whose expiry is set and earlier than `now` or whose
last access is earlier than `now` minus the sweep interval, leaves every other entry
with its value, expiry and frequency, lowers the size by the number of entries removed,
and sends nothing on the eviction channel. -/
theorem C12_sweep_removes_expired_and_idle (c : Cache K) (now : Int)
    (snap : List (K × cacheEntry K)) (hInv : Inv c) (hsnap : snap.Perm c.values)
    (hlo : -(2 ^ 63) < c.cleanCycle) (hhi : c.cleanCycle < 2 ^ 63) :
    ScanAndClean c now = scanLoop (now - c.cleanCycle) now c.values c ∧
    ∃ c', scanLoop (now - c.cleanCycle) now snap c = .ok c' ∧
      (∀ k e, mapGet c.values k = some e →
        (((∃ t, e.expireAt = some t ∧ t < now) ∨ e.visitAt < now - c.cleanCycle) →
          k ∉ keys c') ∧
        (¬ ((∃ t, e.expireAt = some t ∧ t < now) ∨ e.visitAt < now - c.cleanCycle) →
          mapGet c'.values k = some e ∧ freqOf c' k = freqOf c k)) ∧
      (∀ k, k ∈ keys c' → k ∈ keys c) ∧
      c'.len = c.len - ((keys c).filter (fun k => decide (k ∉ keys c'))).length ∧
      c'.EvictionChannel = c.EvictionChannel := by
  refine ⟨by unfold ScanAndClean; rw [negDuration_eq hlo hhi, Int.sub_eq_add_neg], ?_⟩
  have hnd : (snap.map Prod.fst).Nodup := (hsnap.map Prod.fst).nodup_iff.2 hInv.keysNodup
  have hcur : ∀ p ∈ snap, mapGet c.values p.1 = some p.2 := fun p hp =>
    mapGet_of_mem hInv.keysNodup (hsnap.mem_iff.1 hp)
  have hsame : ∀ k e, mapGet c.values k = some e → mapGet snap k = some e := fun k e he =>
    mapGet_of_mem hnd (hsnap.mem_iff.2 (mapGet_mem he))
  obtain ⟨c', h1, hInv', h3, h4, h5, h6, _, _⟩ :=
    scanLoop_spec (now - c.cleanCycle) now snap c hInv hnd hcur
  have htest : ∀ e : cacheEntry K,
      (expired e now || decide (e.visitAt < now - c.cleanCycle)) = true ↔
        ((∃ t, e.expireAt = some t ∧ t < now) ∨ e.visitAt < now - c.cleanCycle) := by
    intro e
    rw [Bool.or_eq_true, expired_iff, decide_eq_true_eq]
  have hgone : ∀ k e, mapGet c.values k = some e →
      (k ∉ keys c' ↔ (expired e now || decide (e.visitAt < now - c.cleanCycle)) = true) := by
    intro k e he
    rw [not_mem_keys_iff, h3 k, hsame k e he, Option.any_some]
    by_cases hd : (expired e now || decide (e.visitAt < now - c.cleanCycle)) = true
    · simp [hd]
    · simp [hd, he]
  refine ⟨c', h1, ?_, ?_, ?_, h6⟩
  · intro k e he
    constructor
    · intro hd
      exact (hgone k e he).2 ((htest e).2 hd)
    · intro hd
      have hd' : ¬ (expired e now || decide (e.visitAt < now - c.cleanCycle)) = true :=
        fun hc => hd ((htest e).1 hc)
      have hv : mapGet c'.values k = some e := by
        rw [h3 k, hsame k e he, Option.any_some, if_neg hd', he]
      exact ⟨hv, h4 k (by rw [hv]; simp)⟩
  · intro k hk
    rw [mem_keys_iff] at hk ⊢
    intro hc
    apply hk
    rw [h3 k, hc]
    split <;> rfl
  · rw [h5]
    have e1 : (snap.filter
        (fun p => expired p.2 now || decide (p.2.visitAt < now - c.cleanCycle))).length =
        (c.values.filter
          (fun p => expired p.2 now || decide (p.2.visitAt < now - c.cleanCycle))).length :=
      (hsnap.filter _).length_eq
    have e2 : (keys c).filter (fun k => decide (k ∉ keys c')) =
        (c.values.filter
          (fun p => expired p.2 now || decide (p.2.visitAt < now - c.cleanCycle))).map
          Prod.fst := by
      have hkc : keys c = c.values.map Prod.fst := rfl
      rw [hkc, List.filter_map]
      congr 1
      apply List.filter_congr
      intro p hp
      have he := mapGet_of_mem hInv.keysNodup hp
      have := hgone p.1 p.2 he
      simp only [Function.comp]
      by_cases hd : (expired p.2 now || decide (p.2.visitAt < now - c.cleanCycle)) = true
      · rw [hd, decide_eq_true_eq]; exact this.2 hd
      · have hd' : (expired p.2 now || decide (p.2.visitAt < now - c.cleanCycle)) = false := by
          simpa using hd
        rw [hd', decide_eq_false_iff_not]
        exact fun hc => hd (this.1 hc)
    rw [e1, e2, List.length_map]

/-- Witness of C12, amended: the sweep at time 34 with an interval of 30 on a cache
whose key 2 was last accessed at time 0 and whose key 1 at time 5. -/
theorem C12_witness :
    -(2 ^ 63) < coldAndHot.cleanCycle ∧ coldAndHot.cleanCycle < 2 ^ 63 ∧
    ScanAndClean coldAndHot 34 =
      scanLoop (34 - coldAndHot.cleanCycle) 34 coldAndHot.values coldAndHot ∧
    ∃ c', scanLoop (34 - coldAndHot.cleanCycle) 34 coldAndHot.values coldAndHot = .ok c' ∧
      (∀ k e, mapGet coldAndHot.values k = some e →
        (((∃ t, e.expireAt = some t ∧ t < 34) ∨ e.visitAt < 34 - coldAndHot.cleanCycle) →
          k ∉ keys c') ∧
        (¬ ((∃ t, e.expireAt = some t ∧ t < 34) ∨ e.visitAt < 34 - coldAndHot.cleanCycle) →
          mapGet c'.values k = some e ∧ freqOf c' k = freqOf coldAndHot k)) ∧
      (∀ k, k ∈ keys c' → k ∈ keys coldAndHot) ∧
      c'.len = coldAndHot.len -
        ((keys coldAndHot).filter (fun k => decide (k ∉ keys c'))).length ∧
      c'.EvictionChannel = coldAndHot.EvictionChannel :=
  ⟨by decide, by decide,
    C12_sweep_removes_expired_and_idle coldAndHot 34 coldAndHot.values coldAndHot_inv
      (List.Perm.refl _) (by decide) (by decide)⟩

/-- Source: `Cache.ScanAndClean` returns and sends nothing. -/
theorem ScanAndClean_chan {c : Cache K} (h : Inv c) (now : Int) :
    ∃ c', ScanAndClean c now = .ok c' ∧ Inv c' ∧ c'.len ≤ c.len ∧ c'.maxLen = c.maxLen ∧
      c'.EvictionChannel = c.EvictionChannel := by
  obtain ⟨c', h1, h2, h3, h4⟩ := ScanAndClean_inv h now
  obtain ⟨c1, h5, _, _, _, _, h6, _⟩ :=
    scanLoop_spec (now + negDuration c.cleanCycle) now c.values c h h.keysNodup
      (fun p hp => mapGet_of_mem h.keysNodup hp)
  have heq : c1 = c' := by
    have h7 : ScanAndClean c now = .ok c1 := h5
    rw [h1] at h7
    cases h7; rfl
  subst heq
  exact ⟨c1, h1, h2, h3, h4, h6⟩

/-- Source: `Cache.Del` returns and sends nothing. -/
theorem Del_chan {c : Cache K} (h : Inv c) (k : K) :
    ∃ c', Del c k = .ok c' ∧ c'.EvictionChannel = c.EvictionChannel := by
  rcases Del_spec h k with ⟨_, h1⟩ | ⟨e, p, _, _, h1, _⟩
  · exact ⟨c, h1, rfl⟩
  · exact ⟨_, h1, rfl⟩

/-- C13: with an eviction channel in place that takes the records, `Evict(count)` for a
count within the size and `Set` return and send exactly one record for every entry
they remove, after the records sent before, with the key of the entry and the value it
holds, so that the number of records is the number of entries evicted, which is what
`Evict` returns; `Del`, `Get` and `ScanAndClean` return and send nothing. -/
theorem C13_one_notification_per_eviction (pick : List K → List K)
    (hpick : ∀ l, (pick l).Perm l) (fuel : Nat) (c : Cache K) (ch : Chan K) (count : Int)
    (k : K) (v : Value) (t : Option Int) (now : Int)
    (hInv : Inv c) (hchan : c.EvictionChannel = some ch)
    (hcount : count ≤ c.len) (hcfuel : count ≤ fuel) (hcroom : count ≤ ch.room)
    (hfuel : c.len + 1 ≤ fuel) (hroom : SetRoom c k) :
    (∃ c' evs, Evict pick fuel c count = .ok (c', (evs.length : Int)) ∧
      c'.EvictionChannel = some { sent := ch.sent ++ evs, room := ch.room - evs.length } ∧
      (evs.length : Int) = max 0 count ∧ c'.len = c.len - evs.length ∧
      (evs.map Eviction.Key).Nodup ∧
      (∀ k', k' ∈ evs.map Eviction.Key ↔ k' ∈ keys c ∧ k' ∉ keys c') ∧
      (∀ ev ∈ evs, ∃ e, mapGet c.values ev.Key = some e ∧ ev.Value = e.value)) ∧
    (∃ c' evs, Set pick fuel c k v t now = .ok c' ∧
      c'.EvictionChannel = some { sent := ch.sent ++ evs, room := ch.room - evs.length } ∧
      c'.len = (if k ∈ keys c then c.len else c.len + 1) - evs.length ∧
      (evs.map Eviction.Key).Nodup ∧
      (∀ k', k' ∈ evs.map Eviction.Key ↔ (k' ∈ keys c ∨ k' = k) ∧ k' ∉ keys c') ∧
      (∀ ev ∈ evs, if ev.Key = k then ev.Value = v
        else ∃ e, mapGet c.values ev.Key = some e ∧ ev.Value = e.value)) ∧
    (∀ k', ∃ c', Del c k' = .ok c' ∧ c'.EvictionChannel = some ch) ∧
    (∀ k' now', ∃ c' v', Get c k' now' = .ok (c', v') ∧ c'.EvictionChannel = some ch) ∧
    (∀ now', ∃ c', ScanAndClean c now' = .ok c' ∧ c'.EvictionChannel = some ch) := by
  have hr1 : Room c count := Room.of_some hchan hcroom
  refine ⟨?_, ?_, ?_, ?_, ?_⟩
  · obtain ⟨c', evs, hrun, _, hEv, hn⟩ := evictNoLock_ok hpick hInv hcount hcfuel hr1
    refine ⟨c', evs, hrun, by rw [hEv.chan, hchan]; rfl, hn, hEv.len, hEv.evKeys,
      hEv.keys_iff, ?_⟩
    intro ev hev
    obtain ⟨e, he, hval⟩ := hEv.evVals ev hev
    exact ⟨e, he, hval.symm⟩
  · obtain ⟨c', hrun, _⟩ := Set_ok hInv hpick hfuel k hroom v t now
    obtain ⟨evs, h1, h2, h3, h4, h5⟩ := Set_evictions hpick hInv hrun
    exact ⟨c', evs, hrun, by rw [h1, hchan]; rfl, h5, h2, h3, h4⟩
  · intro k'
    obtain ⟨c', h1, h2⟩ := Del_chan hInv k'
    exact ⟨c', h1, by rw [h2, hchan]⟩
  · intro k' now'
    obtain ⟨c', v', h1, _⟩ := Get_inv hInv k' now'
    exact ⟨c', v', h1, by rw [Get_chan hInv h1, hchan]⟩
  · intro now'
    obtain ⟨c', h1, _, _, _, h2⟩ := ScanAndClean_chan hInv now'
    exact ⟨c', h1, by rw [h2, hchan]⟩

/-- The example cache with a channel satisfies the invariant. -/
theorem twoHotChan_inv : Inv twoHotChan :=
  twoHot_inv.congr rfl rfl rfl rfl

/-- Witness of C13: on a cache of capacity 1 that holds the keys 1 and 2 at frequency 2
and has a channel with room for two records, `Evict(1)` sends the record of key 2, and
`Set(3, "v", 100)` sends the record of the new entry and then that of key 2. -/
theorem C13_witness :
    twoHotChan.EvictionChannel = some ⟨[], 2⟩ ∧
    Evict id 10 twoHotChan 1 = .ok (twoHotChanEvicted, 1) ∧
    twoHotChanEvicted.EvictionChannel = some ⟨[⟨2, .str "b"⟩], 1⟩ ∧
    keys twoHotChanEvicted = [1] ∧
    Set id 10 twoHotChan 3 (.str "v") (some 100) 10 = .ok twoHotChanAfterSet ∧
    twoHotChanAfterSet.EvictionChannel = some ⟨[⟨3, .str "v"⟩, ⟨2, .str "b"⟩], 0⟩ ∧
    keys twoHotChanAfterSet = [1] ∧
    (∃ c' evs, Evict id 10 twoHotChan 1 = .ok (c', (evs.length : Int)) ∧
      c'.EvictionChannel = some ⟨[] ++ evs, 2 - evs.length⟩ ∧
      (evs.length : Int) = max 0 1 ∧ c'.len = twoHotChan.len - evs.length ∧
      (evs.map Eviction.Key).Nodup ∧
      (∀ k', k' ∈ evs.map Eviction.Key ↔ k' ∈ keys twoHotChan ∧ k' ∉ keys c') ∧
      (∀ ev ∈ evs, ∃ e, mapGet twoHotChan.values ev.Key = some e ∧ ev.Value = e.value)) ∧
    (∃ c' evs, Set id 10 twoHotChan 3 (.str "v") (some 100) 10 = .ok c' ∧
      c'.EvictionChannel = some ⟨[] ++ evs, 2 - evs.length⟩ ∧
      c'.len = (if 3 ∈ keys twoHotChan then twoHotChan.len else twoHotChan.len + 1) -
        evs.length ∧
      (evs.map Eviction.Key).Nodup ∧
      (∀ k', k' ∈ evs.map Eviction.Key ↔ (k' ∈ keys twoHotChan ∨ k' = 3) ∧ k' ∉ keys c') ∧
      (∀ ev ∈ evs, if ev.Key = 3 then ev.Value = .str "v"
        else ∃ e, mapGet twoHotChan.values ev.Key = some e ∧ ev.Value = e.value)) ∧
    (∀ k', ∃ c', Del twoHotChan k' = .ok c' ∧ c'.EvictionChannel = some ⟨[], 2⟩) ∧
    (∀ k' now', ∃ c' v', Get twoHotChan k' now' = .ok (c', v') ∧
      c'.EvictionChannel = some ⟨[], 2⟩) ∧
    (∀ now', ∃ c', ScanAndClean twoHotChan now' = .ok c' ∧
      c'.EvictionChannel = some ⟨[], 2⟩) :=
  ⟨rfl, rfl, rfl, rfl, rfl, rfl, rfl,
    C13_one_notification_per_eviction id (fun l => List.Perm.refl l) 10 twoHotChan ⟨[], 2⟩ 1
      3 (.str "v") (some 100) 10 twoHotChan_inv rfl (by decide) (by decide) (by decide)
      (by decide) (fun _ _ _ => Room.of_some rfl (by decide))⟩

/-- A run that returns has returned after every prefix of its calls. -/
theorem run_append (pick : List K → List K) (fuel : Nat) :
    ∀ (pre suf : List (Op K)) (c c' : Cache K), run pick fuel (pre ++ suf) c = .ok c' →
      ∃ c1, run pick fuel pre c = .ok c1 ∧ run pick fuel suf c1 = .ok c' := by
  intro pre
  induction pre with
  | nil => intro suf c c' h; exact ⟨c, rfl, h⟩
  | cons op pre ih =>
    intro suf c c' h
    simp only [List.cons_append, run] at h ⊢
    cases hs : step pick fuel c op with
    | error f => rw [hs] at h; cases h
    | ok c1 =>
      rw [hs] at h
      exact ih suf c1 c' h

/-- Every call but `Evict` returns when the fuel covers the capacity and there is no
eviction channel. -/
theorem step_ok {pick : List K → List K} (hpick : ∀ l, (pick l).Perm l) {fuel : Nat}
    {c : Cache K} (h : Inv c) (hb : Bounded c) (hfuel : c.maxLen + 1 ≤ fuel)
    (hnil : c.EvictionChannel = none) {op : Op K} (hop : Op.isEvict op = false) :
    ∃ c', step pick fuel c op = .ok c' ∧ Inv c' ∧ Bounded c' ∧ c'.maxLen = c.maxLen ∧
      c'.EvictionChannel = none := by
  cases op with
  | Get key now =>
    obtain ⟨c', h1, h2, _, h4, h5⟩ := Get_getVal h key now
    exact ⟨c', by simp only [step, h1], h2, Bounded_of_le hb h4 h5, h5,
      by rw [Get_chan h h1]; exact hnil⟩
  | Set key value expireAt now =>
    obtain ⟨c', h1, h2, h3, h4⟩ :=
      Set_bounded h hb hpick hfuel (Room.of_nil hnil _) key value expireAt now
    exact ⟨c', by simp only [step, h1], h2, h3, h4, Set_chan_nil hpick h h1 hnil⟩
  | Del key =>
    rcases Del_spec h key with ⟨_, h1⟩ | ⟨e, p, _, _, h1, h2⟩
    · exact ⟨c, by simp only [step, h1], h, hb, rfl, hnil⟩
    · refine ⟨_, by simp only [step, h1], h2, ?_, rfl, hnil⟩
      exact Bounded_of_le hb (by simp) rfl
  | Evict count => cases hop
  | ScanAndClean now =>
    obtain ⟨c', h1, h2, h3, h4, h5⟩ := ScanAndClean_chan h now
    exact ⟨c', by simp only [step, h1], h2, Bounded_of_le hb h3 h4, h4, by rw [h5]; exact hnil⟩

/-- A sequence of calls without `Evict` returns when the fuel covers the capacity and
there is no eviction channel. -/
theorem run_ok {pick : List K → List K} (hpick : ∀ l, (pick l).Perm l) {fuel : Nat} :
    ∀ (ops : List (Op K)) (c : Cache K), Inv c → Bounded c → c.maxLen + 1 ≤ fuel →
      c.EvictionChannel = none →
      (∀ op ∈ ops, Op.isEvict op = false) → ∃ c', run pick fuel ops c = .ok c' := by
  intro ops
  induction ops with
  | nil => intro c _ _ _ _ _; exact ⟨c, rfl⟩
  | cons op ops ih =>
    intro c h hb hfuel hnil hops
    obtain ⟨c1, h1, h2, h3, h4, h6⟩ := step_ok hpick h hb hfuel hnil (hops op (by simp))
    obtain ⟨c', h5⟩ := ih c1 h2 h3 (by rw [h4]; exact hfuel) h6
      (fun o ho => hops o (List.mem_cons_of_mem _ ho))
    exact ⟨c', by simp only [run, h1, h5]⟩

/-- Every call that returns leaves the capacity as it is. -/
theorem step_maxLen {pick : List K → List K} (hpick : ∀ l, (pick l).Perm l) {fuel : Nat}
    {c c' : Cache K} (h : Inv c) {op : Op K} (hrun : step pick fuel c op = .ok c') :
    c'.maxLen = c.maxLen := by
  cases op with
  | Get key now =>
    obtain ⟨c1, h1, _, _, _, h4⟩ := Get_getVal h key now
    simp only [step, h1] at hrun
    cases hrun; exact h4
  | Set key value expireAt now =>
    simp only [step] at hrun
    cases hk : mapGet c.values key with
    | some e0 =>
      obtain ⟨c1, np, cur, h1, _, _, _, _, _, hm, _⟩ :=
        Set_overwrite h pick fuel hk value expireAt now
      rw [h1] at hrun; cases hrun; exact hm
    | none =>
      obtain ⟨c2, np, hInv2, _, _, hm2, _, _, _, _, hset⟩ :=
        Set_insert h pick fuel hk value expireAt now
      rw [hset] at hrun
      split at hrun
      · cases hev : evictNoLock pick fuel c2 (c.len + 1 - c.maxLen) with
        | error f => rw [hev] at hrun; cases hrun
        | ok r =>
          obtain ⟨c3, n⟩ := r
          rw [hev] at hrun
          cases hrun
          obtain ⟨_, evs, hEv, _⟩ := evictNoLock_sound hpick hInv2 hev
          rw [hEv.maxLen, hm2]
      · cases hrun; exact hm2
  | Del key =>
    rcases Del_spec h key with ⟨_, h1⟩ | ⟨e, p, _, _, h1, _⟩
    · simp only [step, h1] at hrun; cases hrun; rfl
    · simp only [step, h1] at hrun; cases hrun; rfl
  | Evict count =>
    simp only [step, Evict] at hrun
    cases hev : evictNoLock pick fuel c count with
    | error f => rw [hev] at hrun; cases hrun
    | ok r =>
      obtain ⟨c1, n⟩ := r
      rw [hev] at hrun
      cases hrun
      obtain ⟨_, evs, hEv, _⟩ := evictNoLock_sound hpick h hev
      exact hEv.maxLen
  | ScanAndClean now =>
    obtain ⟨c1, h1, _, _, h4⟩ := ScanAndClean_inv h now
    simp only [step, h1] at hrun
    cases hrun; exact h4

/-- Every sequence of calls that returns leaves the capacity as it is. -/
theorem run_maxLen {pick : List K → List K} (hpick : ∀ l, (pick l).Perm l) {fuel : Nat} :
    ∀ (ops : List (Op K)) {c c' : Cache K}, Inv c → run pick fuel ops c = .ok c' →
      c'.maxLen = c.maxLen := by
  intro ops
  induction ops with
  | nil => intro c c' _ hrun; simp only [run] at hrun; cases hrun; rfl
  | cons op ops ih =>
    intro c c' h hrun
    simp only [run] at hrun
    cases hs : step pick fuel c op with
    | error f => rw [hs] at hrun; cases hrun
    | ok c1 =>
      rw [hs] at hrun
      rw [ih (step_inv hpick h hs) hrun, step_maxLen hpick h hs]

/-- C14: on a cache of capacity `maxLen > 0` that starts empty, with or without an
eviction channel, after every sequence of calls that returns, and after every prefix of
it, the size is at most `2 * maxLen`; and on a cache without an eviction channel a
sequence without `Evict` does return when the fuel of the eviction loop covers the
capacity. -/
theorem C14_size_at_most_twice_capacity (pick : List K → List K)
    (hpick : ∀ l, (pick l).Perm l) (fuel : Nat) (maxLen cleanCycle : Int)
    (chan : Option (Chan K)) (ops : List (Op K)) (hmax : 0 < maxLen) :
    (∀ c, run pick fuel ops { newCache maxLen cleanCycle with EvictionChannel := chan } = .ok c →
      c.len ≤ 2 * maxLen ∧
      ∀ pre, pre <+: ops →
        ∃ c1, run pick fuel pre { newCache maxLen cleanCycle with EvictionChannel := chan }
            = .ok c1 ∧ c1.len ≤ 2 * maxLen) ∧
    ((∀ op ∈ ops, Op.isEvict op = false) → maxLen + 1 ≤ fuel →
      ∃ c, run pick fuel ops (newCache maxLen cleanCycle) = .ok c) := by
  have hInv := Inv_empty (K := K) maxLen cleanCycle chan
  have hb : Bounded ({ newCache maxLen cleanCycle with EvictionChannel := chan } : Cache K) := by
    intro _
    simp only [newCache]
    omega
  have hml : ∀ (l : List (Op K)) (c1 : Cache K),
      run pick fuel l { newCache maxLen cleanCycle with EvictionChannel := chan } = .ok c1 →
      c1.len ≤ 2 * maxLen := by
    intro l c1 h1
    have hm : c1.maxLen = maxLen := run_maxLen hpick l hInv h1
    have hbc := run_bounded hpick l hInv hb h1
    rw [← hm]
    exact hbc (by rw [hm]; exact hmax)
  constructor
  · intro c hrun
    refine ⟨hml ops c hrun, ?_⟩
    rintro pre ⟨suf, rfl⟩
    obtain ⟨c1, h1, _⟩ := run_append pick fuel pre suf _ c hrun
    exact ⟨c1, h1, hml pre c1 h1⟩
  · intro hops hfuel
    have hb0 : Bounded (newCache maxLen cleanCycle : Cache K) := by
      intro _
      simp only [newCache]
      omega
    exact run_ok hpick ops _ (Inv_newCache maxLen cleanCycle) hb0 hfuel rfl hops

/-- The calls of `insertOps` are calls of `Set`. -/
theorem insertOps_sets (n : Nat) : ∀ op ∈ insertOps n, Op.isEvict op = false := by
  intro op hop
  obtain ⟨i, _, rfl⟩ := List.mem_map.1 hop
  rfl

/-- Witness of C14: the 100 insertions of `TestBoundsMgmt` into a cache of capacity 5
return and leave at most 10 entries. -/
theorem C14_witness :
    (0 : Int) < 5 ∧
    ∃ c, run id 10 (insertOps 100) (newCache 5 20) = .ok c ∧
      c.len ≤ 2 * 5 ∧
      ∀ pre, pre <+: insertOps 100 →
        ∃ c1, run id 10 pre { newCache 5 20 with EvictionChannel := none } = .ok c1 ∧
          c1.len ≤ 2 * 5 := by
  have h := C14_size_at_most_twice_capacity id (fun l => List.Perm.refl l) 10 5 20 none
    (insertOps 100) (by decide)
  obtain ⟨c, hc⟩ := h.2 (insertOps_sets 100) (by decide)
  exact ⟨by decide, c, hc, h.1 c hc⟩

end claims3

end lfu

namespace cache

open lfu

section claims3

variable {K R : Type} [DecidableEq K]

/-- Source: `LayeredCache.GetWithSF` and `LayeredCache.Get` do the same, also where they
fail, unless the loader is reached and maps the key to a nil value. -/
theorem GetWithSF_eq_Get (env : Env K R) (l : LayeredCache K R) (key : K) (now : Int)
    (hv : mapGet (l.dbLoader [key]) key ≠ some Value.nil) :
    LayeredCache.GetWithSF env l key now = LayeredCache.Get env l key now := by
  unfold LayeredCache.GetWithSF LayeredCache.Get sfLoad
  cases hg : l.localCache.Get key now with
  | error f => rfl
  | ok r =>
    obtain ⟨local1, res, ok⟩ := r
    cases ok with
    | true => rfl
    | false =>
      simp only [Bool.false_eq_true, if_false]
      cases hr : env.client.Get l.redisCache.redis (env.keyString key) with
      | mk conn o =>
      cases o with
      | some s =>
        simp only [RedisCache.Get, hr, if_true]
        cases hs : LocalCache.Set env local1 key (Value.str s) now with
        | error f => rfl
        | ok local3 => simp
      | none =>
        simp only [RedisCache.Get, hr, Bool.false_eq_true, if_false]
        cases hm : mapGet (l.dbLoader [key]) key with
        | none => simp
        | some v =>
          have hne : v ≠ Value.nil := fun hc => hv (by rw [hm, hc])
          simp only []
          cases hs : LocalCache.Set env local1 key v now with
          | error f => rfl
          | ok local4 => simp [hne]

/-- C15: with empty tiers and a loader that maps key 7 to a nil value, `Get(7)` returns
nil, and `GetWithSF(7)` does not return: the type assertion on the nil result fails. -/
theorem C15_getWithSF_fails_on_nil_value :
    getVal nilLayered.localCache.cache 7 0 = Value.nil ∧
    (demoEnv.client.Get nilLayered.redisCache.redis (demoEnv.keyString 7)).2 = none ∧
    mapGet (nilLayered.dbLoader [7]) 7 = some Value.nil ∧
    (LayeredCache.Get demoEnv nilLayered 7 0).toOption.map (fun r => r.2) = some Value.nil ∧
    LayeredCache.GetWithSF demoEnv nilLayered 7 0 = .error Fault.badAssert :=
  ⟨rfl, rfl, rfl, by decide, rfl⟩

end claims3

end cache

namespace lfu

section entries

variable {K : Type} [DecidableEq K]

/-- Source: `Cache.MSet` over a map `kvs`: an entry that is in the cache afterwards holds
the value and expiry written for its key, or is the entry that was there before. -/
theorem MSet_entries {pick : List K → List K} (hpick : ∀ l, (pick l).Perm l) {fuel : Nat}
    (t : Option Int) (now : Int) :
    ∀ (kvs : List (K × Value)) (c c' : Cache K), Inv c → (kvs.map Prod.fst).Nodup →
    MSet pick fuel kvs c t now = .ok c' →
    ∀ k e', mapGet c'.values k = some e' →
      (∀ v, mapGet kvs k = some v → e'.value = v ∧ e'.expireAt = t) ∧
      (mapGet kvs k = none → mapGet c.values k = some e') := by
  intro kvs
  induction kvs with
  | nil =>
    intro c c' _ _ hrun k e' he
    simp only [MSet] at hrun
    cases hrun
    exact ⟨fun v hv => by simp [mapGet] at hv, fun _ => he⟩
  | cons p rest ih =>
    intro c c' hInv hnd hrun k e' he
    obtain ⟨k0, v0⟩ := p
    simp only [List.map_cons, List.nodup_cons] at hnd
    simp only [MSet] at hrun
    cases hs : Set pick fuel c k0 v0 t now with
    | error f => rw [hs] at hrun; cases hrun
    | ok c1 =>
      rw [hs] at hrun
      have hInv1 := Set_sound hInv hpick hs
      obtain ⟨ih1, ih2⟩ := ih c1 c' hInv1 hnd.2 hrun k e' he
      by_cases hkk : k0 = k
      · subst hkk
        have hnone : mapGet rest k0 = none := mapGet_eq_none_iff.2 hnd.1
        have he1 := ih2 hnone
        constructor
        · intro v hv
          simp only [mapGet, if_true] at hv
          cases hv
          exact Set_entry hpick hInv hs he1
        · intro hn
          simp [mapGet] at hn
      · constructor
        · intro v hv
          simp only [mapGet, hkk, if_false] at hv
          exact ih1 v hv
        · intro hn
          simp only [mapGet, hkk, if_false] at hn
          exact Set_other hpick hInv hs (fun hc => hkk hc.symm) (ih2 hn)

end entries

end lfu

namespace cache

open lfu

section multiget

variable {K R : Type} [DecidableEq K]

/-- Membership in a map after an assignment. -/
theorem mem_mapSet {V : Type} {m : List (K × V)} {k k' : K} {v v' : V}
    (h : (k', v') ∈ mapSet m k v) : (k' = k ∧ v' = v) ∨ (k', v') ∈ m := by
  induction m with
  | nil =>
    simp only [mapSet, List.mem_singleton, Prod.mk.injEq] at h
    exact Or.inl h
  | cons p m ih =>
    obtain ⟨k0, v0⟩ := p
    simp only [mapSet] at h
    split at h
    · rcases List.mem_cons.1 h with h1 | h1
      · simp only [Prod.mk.injEq] at h1
        exact Or.inl h1
      · exact Or.inr (List.mem_cons_of_mem _ h1)
    · rcases List.mem_cons.1 h with h1 | h1
      · exact Or.inr (by rw [h1]; simp)
      · rcases ih h1 with h2 | h2
        · exact Or.inl h2
        · exact Or.inr (List.mem_cons_of_mem _ h2)

/-- The first loop of `LocalCache.MultiSet` builds a map. -/
theorem nonNilPairs_nodup : ∀ (kvs kvMap : List (K × Value)),
    (kvMap.map Prod.fst).Nodup → ((nonNilPairs kvs kvMap).map Prod.fst).Nodup := by
  intro kvs
  induction kvs with
  | nil => intro kvMap h; exact h
  | cons p rest ih =>
    intro kvMap h
    obtain ⟨k0, v0⟩ := p
    simp only [nonNilPairs]
    split
    · exact ih _ (nodup_keys_mapSet h k0 v0)
    · exact ih _ h

/-- The first loop of `LocalCache.MultiSet` on a map `kvs`: the pairs of `kvs` with a
value that is not nil are added to `kvMap`. -/
theorem nonNilPairs_get : ∀ (kvs kvMap : List (K × Value)), (kvs.map Prod.fst).Nodup →
    ∀ k, (∀ v, mapGet kvs k = some v → v ≠ Value.nil →
        mapGet (nonNilPairs kvs kvMap) k = some v) ∧
      ((mapGet kvs k = none ∨ mapGet kvs k = some Value.nil) →
        mapGet (nonNilPairs kvs kvMap) k = mapGet kvMap k) := by
  intro kvs
  induction kvs with
  | nil =>
    intro kvMap _ k
    exact ⟨fun v hv => by simp [mapGet] at hv, fun _ => rfl⟩
  | cons p rest ih =>
    intro kvMap hnd k
    obtain ⟨k0, v0⟩ := p
    simp only [List.map_cons, List.nodup_cons] at hnd
    have hnone : mapGet rest k0 = none := mapGet_eq_none_iff.2 hnd.1
    by_cases hkk : k0 = k
    · subst hkk
      simp only [mapGet, if_true, nonNilPairs]
      constructor
      · intro v hv hne
        cases hv
        rw [if_pos hne, ((ih (mapSet kvMap k0 v0) hnd.2 k0).2 (Or.inl hnone)), mapGet_mapSet,
          if_pos rfl]
      · intro h
        rcases h with h | h
        · cases h
        · cases h
          simp only [ne_eq, not_true_eq_false, if_false]
          exact (ih kvMap hnd.2 k0).2 (Or.inl hnone)
    · simp only [mapGet, hkk, if_false, nonNilPairs]
      constructor
      · intro v hv hne
        split
        · exact (ih _ hnd.2 k).1 v hv hne
        · exact (ih _ hnd.2 k).1 v hv hne
      · intro h
        split
        · rw [(ih _ hnd.2 k).2 h, mapGet_mapSet, if_neg hkk]
        · exact (ih _ hnd.2 k).2 h

/-- Source: `LocalCache.MultiSet` on a map `kvs`: an entry that is in the local tier
afterwards was written with a value of `kvs` that is not nil and is live at the time
of the call, or is the entry that was there before. -/
theorem localMultiSet_entries (env : Env K R) (hpick : ∀ ls, (env.pick ls).Perm ls)
    {l l' : LocalCache K} (hInv : Inv l.cache) {kvs : List (K × Value)}
    (hnd : (kvs.map Prod.fst).Nodup) {now : Int}
    (hrun : LocalCache.MultiSet env l kvs now = .ok l') :
    ∀ k e', mapGet l'.cache.values k = some e' →
      (∃ v, mapGet kvs k = some v ∧ v ≠ Value.nil ∧ e'.value = v ∧ expired e' now = false) ∨
      ((mapGet kvs k = none ∨ mapGet kvs k = some Value.nil) ∧
        mapGet l.cache.values k = some e') := by
  intro k e' he
  have hcases : (∃ v, mapGet kvs k = some v ∧ v ≠ Value.nil) ∨
      (mapGet kvs k = none ∨ mapGet kvs k = some Value.nil) := by
    cases hm : mapGet kvs k with
    | none => exact Or.inr (Or.inl rfl)
    | some v =>
      by_cases hv : v = Value.nil
      · exact Or.inr (Or.inr (by rw [hv]))
      · exact Or.inl ⟨v, rfl, hv⟩
  have hmap := nonNilPairs_nodup kvs [] (by simp)
  have key : ∀ (t : Option Int) (c1 : Cache K),
      MSet env.pick env.fuel (nonNilPairs kvs []) l.cache t now = .ok c1 →
      mapGet c1.values k = some e' → expired ({ e' with expireAt := t } : cacheEntry K) now = false →
      (∃ v, mapGet kvs k = some v ∧ v ≠ Value.nil ∧ e'.value = v ∧ expired e' now = false) ∨
      ((mapGet kvs k = none ∨ mapGet kvs k = some Value.nil) ∧
        mapGet l.cache.values k = some e') := by
    intro t c1 hms he1 hex
    obtain ⟨h1, h2⟩ := MSet_entries hpick t now _ _ _ hInv hmap hms k e' he1
    rcases hcases with ⟨v, hv, hne⟩ | hc
    · have hg := (nonNilPairs_get kvs [] hnd k).1 v hv hne
      obtain ⟨h3, h4⟩ := h1 v hg
      refine Or.inl ⟨v, hv, hne, h3, ?_⟩
      simp only [expired, h4]
      simpa [expired] using hex
    · have hg := (nonNilPairs_get kvs [] hnd k).2 hc
      exact Or.inr ⟨hc, h2 (by rw [hg]; rfl)⟩
  unfold LocalCache.MultiSet at hrun
  split at hrun
  · cases hrun
    rename_i hlen
    have : kvs = [] := List.length_eq_zero.1 hlen
    subst this
    exact Or.inr ⟨Or.inl rfl, he⟩
  · simp only [] at hrun
    split at hrun
    · rename_i hD
      cases hms : MSet env.pick env.fuel (nonNilPairs kvs []) l.cache
          (some (now + l.DefaultExpiredDuration)) now with
      | error f => rw [hms] at hrun; cases hrun
      | ok c1 =>
        rw [hms] at hrun
        cases hrun
        exact key _ c1 hms he (by simp only [expired, decide_eq_false_iff_not, not_lt]; omega)
    · cases hms : MSet env.pick env.fuel (nonNilPairs kvs []) l.cache none now with
      | error f => rw [hms] at hrun; cases hrun
      | ok c1 =>
        rw [hms] at hrun
        cases hrun
        exact key _ c1 hms he rfl

/-- The map `results` of `RedisCache.MultiGet` has a command only for requested keys. -/
theorem queuedResults_keys : ∀ (keys : List K) (outs : List (Option String))
    (results : List (K × Option String)) (k : K) (o : Option String),
    (k, o) ∈ queuedResults keys outs results → k ∈ keys ∨ (k, o) ∈ results := by
  intro keys
  induction keys with
  | nil => intro outs results k o h; simp only [queuedResults] at h; exact Or.inr h
  | cons k0 keys ih =>
    intro outs results k o h
    cases outs with
    | nil => simp only [queuedResults] at h; exact Or.inr h
    | cons out outs =>
      simp only [queuedResults] at h
      rcases ih outs _ k o h with h1 | h1
      · exact Or.inl (List.mem_cons_of_mem _ h1)
      · rcases mem_mapSet h1 with h2 | h2
        · exact Or.inl (by rw [h2.1]; simp)
        · exact Or.inr h2

/-- The last loop of `RedisCache.MultiGet` adds values only for keys of `results`. -/
theorem successfulValues_keys : ∀ (results : List (K × Option String))
    (values : List (K × Value)) (k : K) (v : Value),
    mapGet (successfulValues results values) k = some v →
      (∃ o, (k, o) ∈ results) ∨ mapGet values k = some v := by
  intro results
  induction results with
  | nil => intro values k v h; exact Or.inr h
  | cons p results ih =>
    intro values k v h
    obtain ⟨k0, o0⟩ := p
    cases o0 with
    | none =>
      simp only [successfulValues] at h
      rcases ih values k v h with ⟨o, ho⟩ | h1
      · exact Or.inl ⟨o, List.mem_cons_of_mem _ ho⟩
      · exact Or.inr h1
    | some s =>
      simp only [successfulValues] at h
      rcases ih _ k v h with ⟨o, ho⟩ | h1
      · exact Or.inl ⟨o, List.mem_cons_of_mem _ ho⟩
      · rw [mapGet_mapSet] at h1
        split at h1
        · rename_i hkk
          exact Or.inl ⟨some s, by rw [hkk]; simp⟩
        · exact Or.inr h1

/-- The last loop of `RedisCache.MultiGet` builds a map. -/
theorem successfulValues_nodup : ∀ (results : List (K × Option String))
    (values : List (K × Value)), (values.map Prod.fst).Nodup →
    ((successfulValues results values).map Prod.fst).Nodup := by
  intro results
  induction results with
  | nil => intro values h; exact h
  | cons p results ih =>
    intro values h
    obtain ⟨k0, o0⟩ := p
    cases o0 with
    | none => simp only [successfulValues]; exact ih values h
    | some s => simp only [successfulValues]; exact ih _ (nodup_keys_mapSet h k0 _)

/-- Source: `RedisCache.MultiGet` returns a map with values for requested keys only. -/
theorem redisMultiGet_keys (env : Env K R) (r : RedisCache R) (ks : List K) :
    ((RedisCache.MultiGet env r ks).2.map Prod.fst).Nodup ∧
    ∀ k v, mapGet (RedisCache.MultiGet env r ks).2 k = some v → k ∈ ks := by
  unfold RedisCache.MultiGet
  split
  · exact ⟨by simp, fun k v h => by simp [mapGet] at h⟩
  · split
    rename_i conn execOk outs _
    split
    · refine ⟨successfulValues_nodup _ _ (by simp), ?_⟩
      intro k v h
      rcases successfulValues_keys _ _ k v h with ⟨o, ho⟩ | h1
      · rcases queuedResults_keys ks outs [] k o ho with h2 | h2
        · exact h2
        · simp at h2
      · simp [mapGet] at h1
    · exact ⟨by simp, fun k v h => by simp [mapGet] at h⟩

/-- Source: `LocalCache.MultiGet` does not change what `Get` reports at the time of the
call. -/
theorem localMultiGet_getVal {l l' : LocalCache K} (h : Inv l.cache) {ks : List K}
    {now : Int} {vals : List (K × Value)}
    (hrun : LocalCache.MultiGet l ks now = .ok (l', vals)) :
    ∀ k, getVal l'.cache k now = getVal l.cache k now := by
  unfold LocalCache.MultiGet at hrun
  split at hrun
  · cases hrun; exact fun _ => rfl
  · obtain ⟨c', res, h1, _, _, h4, _⟩ := MGet_spec h ks now
    rw [h1] at hrun
    cases hrun
    exact h4

/-- What `Get` reports for an entry that is live. -/
theorem getVal_live {c : Cache K} {k : K} {e : cacheEntry K} {now : Int}
    (he : mapGet c.values k = some e) (hex : expired e now = false) :
    getVal c k now = e.value := by
  simp only [getVal, he, hex, Bool.false_eq_true, if_false]

/-- An entry that has expired stays expired. -/
theorem expired_mono {e : cacheEntry K} {now now' : Int} (hnow : now ≤ now')
    (hex : expired e now = true) : expired e now' = true := by
  obtain ⟨t, ht, hlt⟩ := (expired_iff e now).1 hex
  exact (expired_iff e now').2 ⟨t, ht, by omega⟩

/-- What `MarshalToValue` returns for a string. -/
theorem marshalled_str (jm : Value → Option String) (s : String) :
    marshalled jm (Value.str s) = s := rfl

/-- The local tier after `LayeredCache.MultiGet`, for a loader that returns maps from
requested keys to strings, when every key served is still in the local tier and no
entry that was live at the time of the call has expired at the later time `now'`: a
key served with `v` has a live local value that `MarshalToValue` turns into `v`, and a
key that was not served has none. -/
theorem backfilled_getVal (env : Env K R) (l l' : LayeredCache K R) (ks : List K)
    (now now' : Int) (result : List (K × Value)) (hks : ks ≠ [])
    (hpick : ∀ ls, (env.pick ls).Perm ls)
    (hInv : Inv l.localCache.cache) (hb : Bounded l.localCache.cache)
    (hfuel : l.localCache.cache.maxLen + 1 ≤ env.fuel)
    (hnil : l.localCache.cache.EvictionChannel = none)
    (hptr : ∀ k ∈ ks, getVal l.localCache.cache k now ≠ Value.strPtr none)
    (hloader : ∀ req, ((l.dbLoader req).map Prod.fst).Nodup ∧
      ∀ k v, (k, v) ∈ l.dbLoader req → k ∈ req ∧ ∃ s, v = Value.str s)
    (hfirst : LayeredCache.MultiGet env l ks now = .ok (l', result))
    (hnow : now ≤ now')
    (hkept : ∀ k ∈ ks, (mapGet result k).isSome → k ∈ keys l'.localCache.cache)
    (hlive : ∀ p ∈ l'.localCache.cache.values,
      expired p.2 now = false → expired p.2 now' = false) :
    Inv l'.localCache.cache ∧ Bounded l'.localCache.cache ∧
    l'.localCache.cache.maxLen = l.localCache.cache.maxLen ∧ l'.dbLoader = l.dbLoader ∧
    l'.localCache.cache.EvictionChannel = none ∧
    (∀ k, mapGet result k ≠ none → k ∈ ks) ∧
    ∀ k ∈ ks,
      (∀ v, mapGet result k = some v →
        getVal l'.localCache.cache k now' ≠ Value.nil ∧
        getVal l'.localCache.cache k now' ≠ Value.strPtr none ∧
        v = Value.str (marshalled env.jsonMarshal (getVal l'.localCache.cache k now'))) ∧
      (mapGet result k = none → getVal l'.localCache.cache k now' = Value.nil) := by
  obtain ⟨l0, result0, local1, vMap1, redis2, vMap2, loaded, local3, hrun, hA, hR, hld, hD, hE,
    _, hdb, _, hres, hv1, hInv', hb', hml', hnil'⟩ :=
    layeredMultiGet_spec env l ks now hks hpick hInv hb hfuel hnil hptr
  have heq := hfirst.symm.trans hrun
  simp only [Except.ok.injEq, Prod.mk.injEq] at heq
  obtain ⟨hl0, hr0⟩ := heq
  subst hl0
  subst hr0
  have hInv1 : Inv local1.cache := by
    obtain ⟨l1', vals', h1, h2, _⟩ := localMultiGet_spec hInv ks now
    rw [hA] at h1; cases h1; exact h2
  have hgv1 := localMultiGet_getVal hInv hA
  have hInv3 : Inv local3.cache := localMultiSet_inv env hpick hInv1 hD
  have hvm2 : vMap2 = (RedisCache.MultiGet env l.redisCache (missesOf vMap1 ks)).2 := by
    rw [hR]
  have hnd2 : (vMap2.map Prod.fst).Nodup := by
    rw [hvm2]; exact (redisMultiGet_keys env _ _).1
  have hk2 : ∀ k v, mapGet vMap2 k = some v → k ∈ missesOf vMap1 ks ∧ ∃ s, v = Value.str s := by
    intro k v h
    rw [hvm2] at h
    exact ⟨(redisMultiGet_keys env _ _).2 k v h, redisMultiGet_str env _ _ k v h⟩
  have hndL : (loaded.map Prod.fst).Nodup := by
    rw [hld]; split
    · simp
    · exact (hloader _).1
  have hL : ∀ k v, mapGet loaded k = some v →
      k ∈ missesOf vMap2 (missesOf vMap1 ks) ∧ ∃ s, v = Value.str s := by
    intro k v h
    have hm := mapGet_mem h
    rw [hld] at hm
    split at hm
    · simp at hm
    · exact (hloader _).2 k v hm
  refine ⟨hInv', hb', hml', hdb, hnil', ?_, ?_⟩
  · intro k hk
    by_contra hc
    rw [hres k, if_neg hc] at hk
    exact hk rfl
  intro k hkin
  have track : ∀ e', mapGet l'.localCache.cache.values k = some e' →
      (∃ v, mapGet loaded k = some v ∧ e'.value = v ∧ expired e' now = false) ∨
      (mapGet loaded k = none ∧
        ((∃ v, mapGet vMap2 k = some v ∧ e'.value = v ∧ expired e' now = false) ∨
         (mapGet vMap2 k = none ∧ mapGet local1.cache.values k = some e'))) := by
    intro e' he
    rcases localMultiSet_entries env hpick hInv3 hndL hE k e' he with
      ⟨v, h1, _, h3, h4⟩ | ⟨h1, he3⟩
    · exact Or.inl ⟨v, h1, h3, h4⟩
    · have h1' : mapGet loaded k = none := by
        rcases h1 with h1 | h1
        · exact h1
        · obtain ⟨_, s, hs⟩ := hL k _ h1
          cases hs
      refine Or.inr ⟨h1', ?_⟩
      rcases localMultiSet_entries env hpick hInv1 hnd2 hD k e' he3 with
        ⟨v, h5, _, h7, h8⟩ | ⟨h5, he1⟩
      · exact Or.inl ⟨v, h5, h7, h8⟩
      · have h5' : mapGet vMap2 k = none := by
          rcases h5 with h5 | h5
          · exact h5
          · obtain ⟨_, s, hs⟩ := hk2 k _ h5
            cases hs
        exact Or.inr ⟨h5', he1⟩
  have alive : ∀ e', mapGet l'.localCache.cache.values k = some e' → expired e' now = false →
      getVal l'.localCache.cache k now' = e'.value := by
    intro e' he hex
    exact getVal_live he (hlive (k, e') (mapGet_mem he) hex)
  have hresk := hres k
  rw [if_pos hkin] at hresk
  have hv1k := hv1 k
  cases h1 : mapGet vMap1 k with
  | some v0 =>
    rw [h1] at hresk hv1k
    simp only [] at hresk
    have hv0 : v0 = getVal l.localCache.cache k now ∧ v0 ≠ Value.nil := by
      split at hv1k
      · rename_i hc
        cases hv1k
        exact ⟨rfl, hc.2⟩
      · cases hv1k
    have hnm1 : k ∉ missesOf vMap1 ks := by
      rw [mem_missesOf]; intro hc; rw [h1] at hc; cases hc.2
    have h2 : mapGet vMap2 k = none := by
      cases h2 : mapGet vMap2 k with
      | none => rfl
      | some v2 => exact absurd (hk2 k v2 h2).1 hnm1
    have h3 : mapGet loaded k = none := by
      cases h3 : mapGet loaded k with
      | none => rfl
      | some v3 => exact absurd (mem_missesOf.1 (hL k v3 h3).1).1 hnm1
    constructor
    · intro v hv
      rw [hresk] at hv
      cases hv
      have hin := hkept k hkin (by rw [hres k, if_pos hkin, h1]; rfl)
      rw [mem_keys_iff] at hin
      cases he : mapGet l'.localCache.cache.values k with
      | none => exact absurd he hin
      | some e' =>
        rcases track e' he with ⟨v, h4, _⟩ | ⟨_, ⟨v, h4, _⟩ | ⟨_, he1⟩⟩
        · rw [h3] at h4; cases h4
        · rw [h2] at h4; cases h4
        · have hg := hgv1 k
          rw [← hv0.1] at hg
          have hex : expired e' now = false := by
            cases hex : expired e' now with
            | false => rfl
            | true =>
              simp only [getVal, he1, hex, if_true] at hg
              exact absurd hg.symm hv0.2
          have hval : e'.value = v0 := by
            rw [getVal_live he1 hex] at hg; exact hg
          have hgv := alive e' he hex
          rw [hval] at hgv
          rw [hgv]
          exact ⟨hv0.2, by rw [hv0.1]; exact hptr k hkin, rfl⟩
    · intro hn
      rw [hresk] at hn
      cases hn
  | none =>
    rw [h1] at hresk hv1k
    simp only [] at hresk
    have hgl : getVal l.localCache.cache k now = Value.nil := by
      split at hv1k
      · cases hv1k
      · rename_i hc
        by_contra hne
        exact hc ⟨hkin, hne⟩
    cases h2 : mapGet vMap2 k with
    | some v2 =>
      rw [h2] at hresk
      simp only [] at hresk
      obtain ⟨hm1, s, hs⟩ := hk2 k v2 h2
      subst hs
      have h3 : mapGet loaded k = none := by
        cases h3 : mapGet loaded k with
        | none => rfl
        | some v3 =>
          have := (mem_missesOf.1 (hL k v3 h3).1).2
          rw [h2] at this; cases this
      constructor
      · intro v hv
        rw [hresk] at hv
        cases hv
        have hin := hkept k hkin (by rw [hres k, if_pos hkin, h1, h2]; rfl)
        rw [mem_keys_iff] at hin
        cases he : mapGet l'.localCache.cache.values k with
        | none => exact absurd he hin
        | some e' =>
          rcases track e' he with ⟨v, h4, _⟩ | ⟨_, ⟨v, h4, h5, h6⟩ | ⟨h4, _⟩⟩
          · rw [h3] at h4; cases h4
          · rw [h2] at h4
            cases h4
            rw [alive e' he h6, h5]
            exact ⟨by simp, by simp, rfl⟩
          · rw [h2] at h4; cases h4
      · intro hn
        rw [hresk] at hn
        cases hn
    | none =>
      rw [h2] at hresk
      simp only [] at hresk
      cases h3 : mapGet loaded k with
      | some v3 =>
        obtain ⟨_, s, hs⟩ := hL k v3 h3
        subst hs
        constructor
        · intro v hv
          rw [hresk, h3] at hv
          cases hv
          have hin := hkept k hkin (by rw [hres k, if_pos hkin, h1, h2, h3]; rfl)
          rw [mem_keys_iff] at hin
          cases he : mapGet l'.localCache.cache.values k with
          | none => exact absurd he hin
          | some e' =>
            rcases track e' he with ⟨v, h4, h5, h6⟩ | ⟨h4, _⟩
            · rw [h3] at h4
              cases h4
              rw [alive e' he h6, h5]
              exact ⟨by simp, by simp, rfl⟩
            · rw [h3] at h4; cases h4
        · intro hn
          rw [hresk, h3] at hn
          cases hn
      | none =>
        constructor
        · intro v hv
          rw [hresk, h3] at hv
          cases hv
        · intro _
          cases he : mapGet l'.localCache.cache.values k with
          | none => simp only [getVal, he]
          | some e' =>
            rcases track e' he with ⟨v, h4, _⟩ | ⟨_, ⟨v, h4, _⟩ | ⟨_, he1⟩⟩
            · rw [h3] at h4; cases h4
            · rw [h2] at h4; cases h4
            · have hg := hgv1 k
              rw [hgl] at hg
              cases hex : expired e' now with
              | true =>
                simp only [getVal, he, expired_mono hnow hex, if_true]
              | false =>
                rw [getVal_live he1 hex] at hg
                simp only [getVal, he, hg]
                split <;> rfl

end multiget

end cache

namespace cache

open lfu

section claims4

variable {K R : Type} [DecidableEq K]

/-- Counterexample to C19: with empty tiers and a loader that returns the integer 5,
`MultiGet([1])` reports the integer 5 for key 1; key 1 is in the local tier afterwards,
and a second `MultiGet([1])` at the same time reports the string "5". -/
theorem C19_counterexample :
    twice jsonEnv intLayered [1] 0 0 =
      some ([(1, Value.other 5)], [1], [(1, Value.str "5")]) ∧
    Value.other 5 ≠ Value.str "5" := by
  decide

/-- C19, amended: for a loader that returns, for every request, a map from requested
keys to strings, when every key served by the first `MultiGet` is still in the local
tier and no entry that was live at the first call has expired at the second, the
second `MultiGet` with the same keys returns; every key that the first mapping contains
is served from the local tier, with the same value; and when moreover the remote tier
and the loader again have no value for the keys that the first call missed, the two
mappings are equal.  The local engine has no eviction channel: the `cache` package
never sets one. -/
theorem C19_multiget_twice_same_mapping (env : Env K R) (l l' : LayeredCache K R)
    (ks : List K) (now now' : Int) (result : List (K × Value)) (hks : ks ≠ [])
    (hpick : ∀ ls, (env.pick ls).Perm ls)
    (hInv : Inv l.localCache.cache) (hb : Bounded l.localCache.cache)
    (hfuel : l.localCache.cache.maxLen + 1 ≤ env.fuel)
    (hnil : l.localCache.cache.EvictionChannel = none)
    (hptr : ∀ k ∈ ks, getVal l.localCache.cache k now ≠ Value.strPtr none)
    (hloader : ∀ req, ((l.dbLoader req).map Prod.fst).Nodup ∧
      ∀ k v, (k, v) ∈ l.dbLoader req → k ∈ req ∧ ∃ s, v = Value.str s)
    (hfirst : LayeredCache.MultiGet env l ks now = .ok (l', result))
    (hnow : now ≤ now')
    (hkept : ∀ k ∈ ks, (mapGet result k).isSome → k ∈ keys l'.localCache.cache)
    (hlive : ∀ p ∈ l'.localCache.cache.values,
      expired p.2 now = false → expired p.2 now' = false) :
    ∃ l'' result2 local1 vMap1,
      LayeredCache.MultiGet env l' ks now' = .ok (l'', result2) ∧
      LocalCache.MultiGet l'.localCache ks now' = .ok (local1, vMap1) ∧
      (∀ k v, mapGet result k = some v →
        (mapGet vMap1 k).isSome ∧ mapGet result2 k = some v) ∧
      ((∀ k, mapGet (RedisCache.MultiGet env l'.redisCache (missesOf result ks)).2 k = none) →
        (∀ k ∈ ks, mapGet result k = none →
          mapGet (l.dbLoader (missesOf result ks)) k = none) →
        ∀ k, mapGet result2 k = mapGet result k) := by
  obtain ⟨hInv', hb', hml', hdb, hnil', hrk, hkey⟩ := backfilled_getVal env l l' ks now now'
    result hks hpick hInv hb hfuel hnil hptr hloader hfirst hnow hkept hlive
  have hptr' : ∀ k ∈ ks, getVal l'.localCache.cache k now' ≠ Value.strPtr none := by
    intro k hk
    cases hr : mapGet result k with
    | none => rw [(hkey k hk).2 hr]; simp
    | some v => exact ((hkey k hk).1 v hr).2.1
  obtain ⟨l'', result2, local1, vMap1, redis2, vMap2, loaded, local3, hrun2, hA2, hR2, hld2,
    _, _, _, _, _, hres2, hv12, _⟩ :=
    layeredMultiGet_spec env l' ks now' hks hpick hInv' hb' (by rw [hml']; exact hfuel) hnil'
      hptr'
  have hserved : ∀ k v, mapGet result k = some v →
      mapGet vMap1 k = some (getVal l'.localCache.cache k now') ∧
      v = Value.str (marshalled env.jsonMarshal (getVal l'.localCache.cache k now')) := by
    intro k v hr
    have hk : k ∈ ks := hrk k (by rw [hr]; simp)
    obtain ⟨h1, _, h3⟩ := (hkey k hk).1 v hr
    exact ⟨by rw [hv12 k, if_pos ⟨hk, h1⟩], h3⟩
  have hfound : ∀ k v, mapGet result k = some v → mapGet result2 k = some v := by
    intro k v hr
    have hk : k ∈ ks := hrk k (by rw [hr]; simp)
    obtain ⟨h1, h2⟩ := hserved k v hr
    rw [hres2 k, if_pos hk, h1, h2]
  refine ⟨l'', result2, local1, vMap1, hrun2, hA2, ?_, ?_⟩
  · intro k v hr
    exact ⟨by rw [(hserved k v hr).1]; rfl, hfound k v hr⟩
  · intro hremote hpoint k
    cases hr : mapGet result k with
    | some v => exact hfound k v hr
    | none =>
      by_cases hk : k ∈ ks
      · have hv1 : mapGet vMap1 k = none := by
          rw [hv12 k, if_neg]
          rintro ⟨_, hne⟩
          exact hne ((hkey k hk).2 hr)
        have hm1 : missesOf vMap1 ks = missesOf result ks := by
          unfold missesOf
          apply List.filter_congr
          intro k' hk'
          cases hr' : mapGet result k' with
          | none =>
            have : mapGet vMap1 k' = none := by
              rw [hv12 k', if_neg]
              rintro ⟨_, hne⟩
              exact hne ((hkey k' hk').2 hr')
            rw [this]
          | some v' => rw [(hserved k' v' hr').1]; rfl
        have hv2 : ∀ k', mapGet vMap2 k' = none := by
          intro k'
          have := hremote k'
          rw [← hm1, hR2] at this
          exact this
        have hm2 : missesOf vMap2 (missesOf vMap1 ks) = missesOf result ks := by
          rw [← hm1]
          unfold missesOf
          rw [List.filter_eq_self]
          intro k' _
          rw [hv2 k']; rfl
        have hl : mapGet loaded k = none := by
          rw [hld2, hm2]
          split
          · rfl
          · rw [hdb]; exact hpoint k hk hr
        rw [hres2 k, if_pos hk, hv1, hv2 k]
        exact hl
      · rw [hres2 k, if_neg hk]

/-- The loop of `GetItemFromDB` builds a map from requested keys to values of the
table. -/
theorem getItems_spec (myDB : List (K × Value)) : ∀ (req : List K) (infos : List (K × Value)),
    (infos.map Prod.fst).Nodup →
    ((getItems myDB req infos).map Prod.fst).Nodup ∧
    ∀ k v, (k, v) ∈ getItems myDB req infos →
      (k ∈ req ∧ mapGet myDB k = some v) ∨ (k, v) ∈ infos := by
  intro req
  induction req with
  | nil => intro infos h; exact ⟨h, fun k v hm => Or.inr hm⟩
  | cons k0 req ih =>
    intro infos h
    simp only [getItems]
    cases hm : mapGet myDB k0 with
    | none =>
      simp only []
      obtain ⟨h1, h2⟩ := ih infos h
      refine ⟨h1, fun k v hkv => ?_⟩
      rcases h2 k v hkv with ⟨h3, h4⟩ | h3
      · exact Or.inl ⟨List.mem_cons_of_mem _ h3, h4⟩
      · exact Or.inr h3
    | some v0 =>
      simp only []
      obtain ⟨h1, h2⟩ := ih _ (nodup_keys_mapSet h k0 v0)
      refine ⟨h1, fun k v hkv => ?_⟩
      rcases h2 k v hkv with ⟨h3, h4⟩ | h3
      · exact Or.inl ⟨List.mem_cons_of_mem _ h3, h4⟩
      · rcases mem_mapSet h3 with ⟨h5, h6⟩ | h5
        · exact Or.inl ⟨by rw [h5]; simp, by rw [h5, h6]; exact hm⟩
        · exact Or.inr h5

/-- Source: `GetItemFromDB` for a table of strings returns, for every request, a map
from requested keys to strings. -/
theorem GetItemFromDB_strings (myDB : List (K × Value))
    (hstr : ∀ k v, mapGet myDB k = some v → ∃ s, v = Value.str s) (req : List K) :
    ((GetItemFromDB myDB req).map Prod.fst).Nodup ∧
    ∀ k v, (k, v) ∈ GetItemFromDB myDB req → k ∈ req ∧ ∃ s, v = Value.str s := by
  obtain ⟨h1, h2⟩ := getItems_spec myDB req [] (by simp)
  refine ⟨h1, fun k v hkv => ?_⟩
  rcases h2 k v hkv with ⟨h3, h4⟩ | h3
  · exact ⟨h3, hstr k v h4⟩
  · simp at h3

/-- The table `demoDB` holds strings. -/
theorem demoDB_strings : ∀ k v, mapGet demoDB k = some v → ∃ s, v = Value.str s := by
  intro k v h
  simp only [demoDB, mapGet] at h
  split at h
  · cases h; exact ⟨_, rfl⟩
  · cases h

/-- Witness of C19, amended: `MultiGet` of the keys 1 and 2 at time 0 and again at time
5, with empty tiers and the loader of the tests for a table that knows key 2 only. -/
theorem C19_witness :
    LayeredCache.MultiGet demoEnv dbLayered [1, 2] 0 = .ok (dbFetched, [(2, Value.str "b")]) ∧
    dbLayered.localCache.cache.EvictionChannel = none ∧
    ∃ l'' result2 local1 vMap1,
      LayeredCache.MultiGet demoEnv dbFetched [1, 2] 5 = .ok (l'', result2) ∧
      LocalCache.MultiGet dbFetched.localCache [1, 2] 5 = .ok (local1, vMap1) ∧
      (∀ k v, mapGet [(2, Value.str "b")] k = some v →
        (mapGet vMap1 k).isSome ∧ mapGet result2 k = some v) ∧
      ∀ k, mapGet result2 k = mapGet [(2, Value.str "b")] k := by
  obtain ⟨l'', result2, local1, vMap1, h1, h2, h3, h4⟩ :=
    C19_multiget_twice_same_mapping demoEnv dbLayered dbFetched [1, 2] 0 5
      [(2, Value.str "b")] (by decide) (fun ls => List.Perm.refl ls) (Inv_newCache 5 Minute)
      (by intro _; decide) (by decide) rfl (by decide)
      (fun req => GetItemFromDB_strings demoDB demoDB_strings req) rfl (by decide) (by decide)
      (by decide)
  exact ⟨rfl, rfl, l'', result2, local1, vMap1, h1, h2, h3, h4 (fun k => rfl) (by decide)⟩

end claims4

end cache
